import Mathlib

/-!
# MemoryScanner: the snapshot-and-refine scanning engine of `Memory.cpp`

A shallow embedding of `src/MemoryScanner/Memory.cpp`.

* Byte arrays (`buffer`, `searchmask`, `tempbuf`) are total maps `Nat → Nat`
  from a byte index to a byte value.
* `int` fields of `MEMBLOCK` are `Int`; a store into an `int` goes through
  `toInt32`, a conversion of an `int` to `unsigned int` through `toUInt32`.
* `ReadProcessMemory` is a parameter: a function from the handle, the remote
  address and the byte count requested to what the call leaves in its
  destination buffer and in `bytes_read`.
* `OpenProcess`, `VirtualQueryEx` and the contents of fresh `malloc` blocks
  are parameters too; `malloc` is taken to succeed.
* Addresses are `Nat`.  The program is built for 32-bit Windows, where
  every address is below `2 ^ 32`; the conversion of an address to
  `unsigned int` is written `% 2 ^ 32` (`peekArgument`).
* The linked list of blocks is a `List MEMBLOCK`, head first.
* The accesses of a round to the searchmask and the buffer are listed by
  functions that follow the loops of the code (`update_memblock_accesses`).
-/

namespace MemoryScanner

/-! ## Machine integers -/

/-- Store of an integer into a 32-bit `int` (two's complement wrap). -/
def toInt32 (z : Int) : Int := (z + 2 ^ 31) % 2 ^ 32 - 2 ^ 31

/-- Conversion of an `int` to `unsigned int`. -/
def toUInt32 (z : Int) : Nat := (z % 2 ^ 32).toNat

/-! ## Data model -/

/-- The `sizeof(tempbuf)` of `update_memblock`: `128 * 1024` bytes. -/
def TEMPBUF_SIZE : Nat := 128 * 1024

/-- Search conditions, `enum class SEARCH_CONDITION`. -/
inductive SEARCH_CONDITION
  | COND_UNCONDITIONAL
  | COND_EQUALS
  | COND_INCREASED
  | COND_DECREASED
  deriving DecidableEq, Repr

/-- The fields of `MEMORY_BASIC_INFORMATION` that the scanner reads. -/
structure MEMORY_BASIC_INFORMATION where
  BaseAddress : Nat
  RegionSize : Nat
  State : Nat
  Protect : Nat

/-- One memory block, `struct _MEMBLOCK`.  The `next` pointer is the tail of
the list that holds the block; the field `matches` is `num_matches` here,
`matches` being a reserved word; `data_size` (1, 2 or 4 in the source) is a
natural number. -/
structure MEMBLOCK where
  hProc : Nat
  addr : Nat
  size : Int
  buffer : Nat → Nat
  searchmask : Nat → Nat
  num_matches : Int
  data_size : Nat

/-- What one `ReadProcessMemory` call leaves behind: the contents of the
destination buffer and the byte count stored through `lpNumberOfBytesRead`. -/
structure ReadResult where
  tempbuf : Nat → Nat
  bytes_read : Nat

/-- The remote process as seen during one round: handle, remote address and
requested byte count give the result of `ReadProcessMemory`. -/
abbrev RemoteRead := Nat → Nat → Nat → ReadResult

/-! ## Macros -/

/-- Macro `IS_IN_SEARCH(mb, offset)`:
`mb->searchmask[(offset)/8] & (1 << ((offset) % 8))`, as a truth value. -/
def IS_IN_SEARCH (mb : MEMBLOCK) (offset : Nat) : Bool :=
  (mb.searchmask (offset / 8) &&& (1 <<< (offset % 8))) != 0

/-- Macro `REMOVE_FROM_SEARCH(mb, offset)`:
`mb->searchmask[(offset)/8] &= ~(1 << ((offset) % 8))` on an `unsigned char`. -/
def REMOVE_FROM_SEARCH (mb : MEMBLOCK) (offset : Nat) : MEMBLOCK :=
  { mb with
    searchmask := fun i =>
      if i = offset / 8 then
        mb.searchmask (offset / 8) &&& (0xFF ^^^ (1 <<< (offset % 8)))
      else mb.searchmask i }

/-! ## create_memblock -/

/-- The call `memset(dst + start, c, n)` on a byte array. -/
def memset (dst : Nat → Nat) (start c n : Nat) : Nat → Nat :=
  fun i => if start ≤ i ∧ i < start + n then c else dst i

/-- The call `memcpy(dst + start, src, n)` on byte arrays. -/
def memcpy (dst : Nat → Nat) (start : Nat) (src : Nat → Nat) (n : Nat) : Nat → Nat :=
  fun i => if start ≤ i ∧ i < start + n then src (i - start) else dst i

/-- Function `create_memblock`.  `buffer0` and `mask0` are the uninitialised
contents of the two `malloc` results. -/
def create_memblock (hProc : Nat) (meminfo : MEMORY_BASIC_INFORMATION) (data_size : Nat)
    (buffer0 mask0 : Nat → Nat) : MEMBLOCK :=
  { hProc := hProc
    addr := meminfo.BaseAddress
    size := toInt32 meminfo.RegionSize
    buffer := buffer0
    searchmask := memset mask0 0 0xFF (meminfo.RegionSize / 8)
    num_matches := toInt32 meminfo.RegionSize
    data_size := data_size }

/-! ## update_memblock -/

/-- The data-size `switch` of `update_memblock`: the element at `off` of a
byte array read as `unsigned char`, `unsigned short` or `unsigned int`
(little-endian), widened to `unsigned int`. -/
def loadValue (data_size : Nat) (mem : Nat → Nat) (off : Nat) : Nat :=
  match data_size with
  | 1 => mem off
  | 2 => mem off + 256 * mem (off + 1)
  | _ => mem off + 256 * mem (off + 1) + 65536 * mem (off + 2) + 16777216 * mem (off + 3)

/-- The condition `switch` of `update_memblock`: the value of `is_match`. -/
def isMatch (condition : SEARCH_CONDITION) (value temp_value prev_value : Nat) : Bool :=
  match condition with
  | .COND_EQUALS => decide (temp_value = value)
  | .COND_INCREASED => decide (temp_value > prev_value)
  | .COND_DECREASED => decide (temp_value < prev_value)
  | .COND_UNCONDITIONAL => false

/-- Body of the `for` loop of `update_memblock` at one `offset`. -/
def checkElement (condition : SEARCH_CONDITION) (value : Nat) (tempbuf : Nat → Nat)
    (total_read offset : Nat) (mb : MEMBLOCK) : MEMBLOCK :=
  if IS_IN_SEARCH mb (total_read + offset) then
    let temp_value := loadValue mb.data_size tempbuf offset
    let prev_value := loadValue mb.data_size mb.buffer (total_read + offset)
    if isMatch condition value temp_value prev_value then
      { mb with num_matches := toInt32 (mb.num_matches + 1) }
    else
      REMOVE_FROM_SEARCH mb (total_read + offset)
  else mb

/-- The `for (offset = 0; offset < bytes_read; offset += mb->data_size)` loop
of `update_memblock`, from `offset` on; `fuel` bounds the iterations.  The
`unsigned int` offset stays below `bytes_read + data_size`, so it does not
wrap. -/
def scanChunk (condition : SEARCH_CONDITION) (value : Nat) (tempbuf : Nat → Nat)
    (total_read bytes_read : Nat) : Nat → Nat → MEMBLOCK → MEMBLOCK
  | 0, _, mb => mb
  | fuel + 1, offset, mb =>
    if offset < bytes_read then
      scanChunk condition value tempbuf total_read bytes_read fuel (offset + mb.data_size)
        (checkElement condition value tempbuf total_read offset mb)
    else mb

/-- Local state of `update_memblock` inside its `while` loop, with the list
of `ReadProcessMemory` calls issued so far (remote address, byte count). -/
structure ScanState where
  mb : MEMBLOCK
  bytes_left : Nat
  total_read : Nat
  reads : List (Nat × Nat)

/-- The filter and copy part of the `while` body of `update_memblock`, run
after a read that returned `bytes_read` bytes in `tempbuf`. -/
def applyChunk (condition : SEARCH_CONDITION) (value : Nat) (tempbuf : Nat → Nat)
    (bytes_read : Nat) (s : ScanState) : ScanState :=
  let mb1 :=
    if condition = .COND_UNCONDITIONAL then
      { s.mb with
        searchmask := memset s.mb.searchmask (s.total_read / 8) 0xFF (bytes_read / 8)
        num_matches := toInt32 (s.mb.num_matches + bytes_read) }
    else
      scanChunk condition value tempbuf s.total_read bytes_read bytes_read 0 s.mb
  { s with
    mb := { mb1 with buffer := memcpy mb1.buffer s.total_read tempbuf bytes_read }
    bytes_left := s.bytes_left - bytes_read
    total_read := s.total_read + bytes_read }

/-- The value of `bytes_to_read`:
`(bytes_left > sizeof(tempbuf)) ? sizeof(tempbuf) : bytes_left`. -/
def bytesToRead (bytes_left : Nat) : Nat :=
  if bytes_left > TEMPBUF_SIZE then TEMPBUF_SIZE else bytes_left

/-- The `while (bytes_left)` loop of `update_memblock`; `fuel` bounds the
iterations. -/
def readLoop (rpm : RemoteRead) (condition : SEARCH_CONDITION) (value : Nat) :
    Nat → ScanState → ScanState
  | 0, s => s
  | fuel + 1, s =>
    if s.bytes_left = 0 then s
    else
      let bytes_to_read := bytesToRead s.bytes_left
      let r := rpm s.mb.hProc (s.mb.addr + s.total_read) bytes_to_read
      let s1 := { s with reads := s.reads ++ [(s.mb.addr + s.total_read, bytes_to_read)] }
      if r.bytes_read ≠ bytes_to_read then s1
      else readLoop rpm condition value fuel (applyChunk condition value r.tempbuf r.bytes_read s1)

/-- The run of `update_memblock` past its early return: the match count reset to 0
and the `while` loop run from `bytes_left = mb->size`, `total_read = 0`. -/
def scanRound (rpm : RemoteRead) (mb : MEMBLOCK) (condition : SEARCH_CONDITION)
    (value : Nat) : ScanState :=
  readLoop rpm condition value (toUInt32 mb.size)
    { mb := { mb with num_matches := 0 }
      bytes_left := toUInt32 mb.size
      total_read := 0
      reads := [] }

/-- Function `update_memblock`. -/
def update_memblock (rpm : RemoteRead) (mb : MEMBLOCK) (condition : SEARCH_CONDITION)
    (value : Nat) : MEMBLOCK :=
  if mb.num_matches = 0 then mb
  else
    let s := scanRound rpm mb condition value
    { s.mb with size := toInt32 s.total_read }

/-- The `ReadProcessMemory` calls (remote address, byte count) that one call
of `update_memblock` issues, in order. -/
def update_memblock_reads (rpm : RemoteRead) (mb : MEMBLOCK)
    (condition : SEARCH_CONDITION) (value : Nat) : List (Nat × Nat) :=
  if mb.num_matches = 0 then []
  else (scanRound rpm mb condition value).reads

/-! ## Reporting -/

/-- The single-address read behind `peek`: handle, remote address and byte
count give what `ReadProcessMemory` leaves in the zero-initialised local
`value` (its return code only selects a console message). -/
abbrev LiveRead := Nat → Nat → Nat → Nat

/-- Function `peek`; `addr` is the `unsigned int` argument. -/
def peek (live : LiveRead) (hProc data_size addr : Nat) : Nat :=
  live hProc addr data_size

/-- The argument that `print_matches` passes to `peek` for `offset`: the sum
`(long long unsigned int)mb->addr + offset` converted to the parameter
`unsigned int addr`.  It is the address of the live read. -/
def peekArgument (mb : MEMBLOCK) (offset : Nat) : Nat :=
  (mb.addr + offset) % 2 ^ 32

/-- The `for (offset = 0; offset < mb->size; offset += mb->data_size)` loop of
`print_matches` on one block, from `offset` on: for each line printed, the
pair of the pointer `mb->addr + offset` and the value `val` handed to
`printf`; `fuel` bounds the iterations.  The argument of `peek` is converted
to `unsigned int`. -/
def printBlock (live : LiveRead) (mb : MEMBLOCK) : Nat → Nat → List (Nat × Nat)
  | 0, _ => []
  | fuel + 1, offset =>
    if (offset : Int) < mb.size then
      (if IS_IN_SEARCH mb offset then
        [(mb.addr + offset, peek live mb.hProc mb.data_size (peekArgument mb offset))]
      else []) ++ printBlock live mb fuel (offset + mb.data_size)
    else []

/-- The `while` loop of `get_matches_count` with `counter` as accumulator. -/
def countLoop (counter : Int) : List MEMBLOCK → Int
  | [] => counter
  | mb :: next => countLoop (toInt32 (counter + mb.num_matches)) next

/-- Function `get_matches_count`. -/
def get_matches_count (mb_list : List MEMBLOCK) : Int :=
  countLoop 0 mb_list

/-! ## Notions used to state the properties -/

/-- Result of the read of chunk `k` (counting from 0) in a round on `mb`. -/
def chunkRead (rpm : RemoteRead) (mb : MEMBLOCK) (k : Nat) : ReadResult :=
  rpm mb.hProc (mb.addr + k * TEMPBUF_SIZE)
    (bytesToRead (toUInt32 mb.size - k * TEMPBUF_SIZE))

/-- The read of chunk `k` returns as many bytes as requested. -/
def chunkComplete (rpm : RemoteRead) (mb : MEMBLOCK) (k : Nat) : Prop :=
  (chunkRead rpm mb k).bytes_read = bytesToRead (toUInt32 mb.size - k * TEMPBUF_SIZE)

instance (rpm : RemoteRead) (mb : MEMBLOCK) (k : Nat) : Decidable (chunkComplete rpm mb k) :=
  inferInstanceAs (Decidable (_ = _))

/-- Every chunk read of a round on `mb` returns as many bytes as requested. -/
def allComplete (rpm : RemoteRead) (mb : MEMBLOCK) : Prop :=
  ∀ k, k * TEMPBUF_SIZE < toUInt32 mb.size → chunkComplete rpm mb k

/-- The byte that a round on `mb` reads at offset `o` of the region. -/
def readByte (rpm : RemoteRead) (mb : MEMBLOCK) (o : Nat) : Nat :=
  (chunkRead rpm mb (o / TEMPBUF_SIZE)).tempbuf (o % TEMPBUF_SIZE)

/-- The element just read at offset `o`, as an unsigned little-endian integer
of `data_size` bytes. -/
def currentValue (rpm : RemoteRead) (mb : MEMBLOCK) (o : Nat) : Nat :=
  loadValue mb.data_size (readByte rpm mb) o

/-- The element at offset `o` of the buffer of `mb`. -/
def previousValue (mb : MEMBLOCK) (o : Nat) : Nat :=
  loadValue mb.data_size mb.buffer o

/-- The unsigned little-endian integer held in the `w` bytes of `mem` from
offset `off`: the byte at `off + i` weighs `256 ^ i`.  Written from the words
of the specification ("interpreted as unsigned integers of `elementWidth`
bytes"), not from the `switch` of the code. -/
def littleEndian (w : Nat) (mem : Nat → Nat) (off : Nat) : Nat :=
  ((List.range w).map fun i => mem (off + i) * 256 ^ i).sum

/-- Offset `o` is an element position of `mb` whose candidate flag is set. -/
def isCandidate (mb : MEMBLOCK) (o : Nat) : Prop :=
  o % mb.data_size = 0 ∧ IS_IN_SEARCH mb o = true

instance (mb : MEMBLOCK) : DecidablePred (isCandidate mb) :=
  fun _ => inferInstanceAs (Decidable (_ ∧ _))

/-- Number of offsets below `size` that are multiples of the element width
and have their candidate flag set. -/
def candidateCount (mb : MEMBLOCK) : Nat :=
  Nat.count (isCandidate mb) mb.size.toNat

/-- Snapshot states reached from `create_memblock` on the region `meminfo`
with element width `data_size` by any sequence of `update_memblock` rounds. -/
inductive Reachable (hProc : Nat) (meminfo : MEMORY_BASIC_INFORMATION) (data_size : Nat) :
    MEMBLOCK → Prop
  | create (buffer0 mask0 : Nat → Nat) :
      Reachable hProc meminfo data_size (create_memblock hProc meminfo data_size buffer0 mask0)
  | update {mb : MEMBLOCK} (rpm : RemoteRead) (condition : SEARCH_CONDITION) (value : Nat) :
      Reachable hProc meminfo data_size mb →
      Reachable hProc meminfo data_size (update_memblock rpm mb condition value)

/-- The state after the `ReadProcessMemory` call of one iteration: the call
is appended to the list of reads. -/
def logRead (s : ScanState) : ScanState :=
  { s with reads := s.reads ++ [(s.mb.addr + s.total_read, bytesToRead s.bytes_left)] }

/-- The result of the `ReadProcessMemory` call issued in state `s`. -/
def nextRead (rpm : RemoteRead) (s : ScanState) : ReadResult :=
  rpm s.mb.hProc (s.mb.addr + s.total_read) (bytesToRead s.bytes_left)

/-- The request list of a round on `mb` that has issued `m` reads. -/
def requests (mb : MEMBLOCK) (m : Nat) : List (Nat × Nat) :=
  (List.range m).map fun j =>
    (mb.addr + j * TEMPBUF_SIZE, bytesToRead (toUInt32 mb.size - j * TEMPBUF_SIZE))

/-- What holds at the head of the chunk loop of a round on `mb`, whatever the
condition. -/
structure BaseInv (rpm : RemoteRead) (mb : MEMBLOCK) (s : ScanState) : Prop where
  sum : s.total_read + s.bytes_left = toUInt32 mb.size
  aligned : s.bytes_left = 0 ∨ s.total_read % TEMPBUF_SIZE = 0
  addr : s.mb.addr = mb.addr
  hProc : s.mb.hProc = mb.hProc
  data_size : s.mb.data_size = mb.data_size
  size : s.mb.size = mb.size
  complete : ∀ j, j * TEMPBUF_SIZE < s.total_read → chunkComplete rpm mb j
  buffer : ∀ i, s.mb.buffer i = if i < s.total_read then readByte rpm mb i else mb.buffer i
  reads : s.reads = requests mb ((s.total_read + TEMPBUF_SIZE - 1) / TEMPBUF_SIZE)

/-- What holds when the chunk loop of a round on `mb` has ended, whatever the
condition: the loop stopped at the end of the region or at the first short
read, and the buffer holds the bytes of the complete chunks. -/
structure BasePost (rpm : RemoteRead) (mb : MEMBLOCK) (f : ScanState) : Prop where
  le : f.total_read ≤ toUInt32 mb.size
  stop : f.total_read = toUInt32 mb.size ∨
    (f.total_read % TEMPBUF_SIZE = 0 ∧ f.total_read < toUInt32 mb.size ∧
      ¬ chunkComplete rpm mb (f.total_read / TEMPBUF_SIZE))
  addr : f.mb.addr = mb.addr
  hProc : f.mb.hProc = mb.hProc
  data_size : f.mb.data_size = mb.data_size
  size : f.mb.size = mb.size
  complete : ∀ j, j * TEMPBUF_SIZE < f.total_read → chunkComplete rpm mb j
  buffer : ∀ i, f.mb.buffer i = if i < f.total_read then readByte rpm mb i else mb.buffer i
  reads : f.reads = requests mb
    (if f.total_read = toUInt32 mb.size then
      (toUInt32 mb.size + TEMPBUF_SIZE - 1) / TEMPBUF_SIZE
    else f.total_read / TEMPBUF_SIZE + 1)

/-- What holds at the head of the chunk loop of a round with a condition
other than `COND_UNCONDITIONAL`: the flags below `total_read` are filtered,
and the match count is the number of candidates below `total_read`. -/
structure CondInv (rpm : RemoteRead) (mb : MEMBLOCK) (c : SEARCH_CONDITION) (v : Nat)
    (s : ScanState) : Prop where
  base : BaseInv rpm mb s
  flag : ∀ p, IS_IN_SEARCH s.mb p =
    (IS_IN_SEARCH mb p &&
      !(decide (p < s.total_read ∧ p % mb.data_size = 0) &&
        !isMatch c v (currentValue rpm mb p) (previousValue mb p)))
  count : s.mb.num_matches = (Nat.count (isCandidate s.mb) s.total_read : Nat)

/-- End state of a round with a condition other than `COND_UNCONDITIONAL`. -/
structure CondPost (rpm : RemoteRead) (mb : MEMBLOCK) (c : SEARCH_CONDITION) (v : Nat)
    (f : ScanState) : Prop where
  base : BasePost rpm mb f
  flag : ∀ p, IS_IN_SEARCH f.mb p =
    (IS_IN_SEARCH mb p &&
      !(decide (p < f.total_read ∧ p % mb.data_size = 0) &&
        !isMatch c v (currentValue rpm mb p) (previousValue mb p)))
  count : f.mb.num_matches = (Nat.count (isCandidate f.mb) f.total_read : Nat)

/-- What holds at the head of the chunk loop of a `COND_UNCONDITIONAL` round
on a region whose size is a multiple of 8. -/
structure UncondInv (rpm : RemoteRead) (mb : MEMBLOCK) (s : ScanState) : Prop where
  base : BaseInv rpm mb s
  flag : ∀ p, IS_IN_SEARCH s.mb p = (decide (p < s.total_read) || IS_IN_SEARCH mb p)
  count : s.mb.num_matches = (s.total_read : Nat)

/-- End state of a `COND_UNCONDITIONAL` round. -/
structure UncondPost (rpm : RemoteRead) (mb : MEMBLOCK) (f : ScanState) : Prop where
  base : BasePost rpm mb f
  flag : ∀ p, IS_IN_SEARCH f.mb p = (decide (p < f.total_read) || IS_IN_SEARCH mb p)
  count : f.mb.num_matches = (f.total_read : Nat)

/-- The part of the result of a round (entered with a match count other than
0) that does not depend on the condition; `R` is the number of bytes consumed
by complete chunks. -/
structure RoundResult (rpm : RemoteRead) (mb mb' : MEMBLOCK) (R : Nat) : Prop where
  size_eq : mb'.size = (R : Int)
  le : R ≤ mb.size.toNat
  stop : R = mb.size.toNat ∨
    (R % TEMPBUF_SIZE = 0 ∧ R < mb.size.toNat ∧ ¬ chunkComplete rpm mb (R / TEMPBUF_SIZE))
  complete : ∀ j, j * TEMPBUF_SIZE < R → chunkComplete rpm mb j
  addr : mb'.addr = mb.addr
  hProc : mb'.hProc = mb.hProc
  data_size : mb'.data_size = mb.data_size
  buffer : ∀ i, mb'.buffer i = if i < R then readByte rpm mb i else mb.buffer i

/-- What holds in every state reached from `create_memblock` on a region
whose size is a multiple of 8 below `2 ^ 31`. -/
structure ReachInv (hProc : Nat) (meminfo : MEMORY_BASIC_INFORMATION) (w : Nat)
    (mb : MEMBLOCK) : Prop where
  size_nonneg : 0 ≤ mb.size
  size_le : mb.size ≤ meminfo.RegionSize
  size_mod : mb.size % 8 = 0
  data_size : mb.data_size = w
  addr : mb.addr = meminfo.BaseAddress
  hProc : mb.hProc = hProc
  count_le : (candidateCount mb : Int) ≤ mb.num_matches
  matches_le : mb.num_matches ≤ mb.size

/-- The Windows SDK constant `MEM_COMMIT` (`winnt.h`, through `<Windows.h>`). -/
def MEM_COMMIT : Nat := 0x1000

/-- The Windows SDK constant `PAGE_READWRITE`. -/
def PAGE_READWRITE : Nat := 0x04

/-- The Windows SDK constant `PAGE_WRITECOPY`. -/
def PAGE_WRITECOPY : Nat := 0x08

/-- The Windows SDK constant `PAGE_EXECUTE_READWRITE`. -/
def PAGE_EXECUTE_READWRITE : Nat := 0x40

/-- The Windows SDK constant `PAGE_EXECUTE_WRITECOPY`. -/
def PAGE_EXECUTE_WRITECOPY : Nat := 0x80

/-- Macro `WRITABLE`:
`(PAGE_READWRITE | PAGE_WRITECOPY | PAGE_EXECUTE_READWRITE | PAGE_EXECUTE_WRITECOPY)`. -/
def WRITABLE : Nat :=
  PAGE_READWRITE ||| PAGE_WRITECOPY ||| PAGE_EXECUTE_READWRITE ||| PAGE_EXECUTE_WRITECOPY

/-- The call `OpenProcess(PROCESS_ALL_ACCESS, FALSE, pid)`: the handle, 0 for
`NULL`. -/
abbrev OpenProcessFn := Nat → Nat

/-- The call `VirtualQueryEx(hProc, addr, &meminfo, sizeof(meminfo))`: the
region written to `meminfo`, or `none` when the call returns 0. -/
abbrev VirtualQueryFn := Nat → Nat → Option MEMORY_BASIC_INFORMATION

/-- The uninitialised contents of the buffer and of the searchmask that
`malloc` returns to the `n`-th block created by `create_scan`. -/
abbrev MallocFn := Nat → (Nat → Nat) × (Nat → Nat)

/-- The test of `create_scan` on a region:
`(meminfo.State & MEM_COMMIT) && (meminfo.Protect & WRITABLE)`. -/
def qualifies (meminfo : MEMORY_BASIC_INFORMATION) : Prop :=
  meminfo.State &&& MEM_COMMIT ≠ 0 ∧ meminfo.Protect &&& WRITABLE ≠ 0

instance (meminfo : MEMORY_BASIC_INFORMATION) : Decidable (qualifies meminfo) :=
  inferInstanceAs (Decidable (_ ∧ _))

/-- The `while (1)` loop of `create_scan` from the cursor `addr` on, with the
list built so far; `fuel` bounds the iterations.  A new block is linked in
front of the list.  The cursor `BaseAddress + RegionSize` is not wrapped to
the pointer width. -/
def queryLoop (vq : VirtualQueryFn) (alloc : MallocFn) (hProc data_size : Nat) :
    Nat → Nat → List MEMBLOCK → List MEMBLOCK
  | 0, _, mb_list => mb_list
  | fuel + 1, addr, mb_list =>
    match vq hProc addr with
    | none => mb_list
    | some meminfo =>
      queryLoop vq alloc hProc data_size fuel (meminfo.BaseAddress + meminfo.RegionSize)
        (if qualifies meminfo then
          create_memblock hProc meminfo data_size (alloc mb_list.length).1
            (alloc mb_list.length).2 :: mb_list
        else mb_list)

/-- Function `create_scan`: the list of blocks, `[]` for the null pointer;
`fuel` bounds the iterations of its `while (1)` loop. -/
def create_scan (open_process : OpenProcessFn) (vq : VirtualQueryFn) (alloc : MallocFn)
    (fuel : Nat) (pid data_size : Nat) : List MEMBLOCK :=
  if open_process pid ≠ 0 then queryLoop vq alloc (open_process pid) data_size fuel 0 []
  else []

/-- Function `update_scan`. -/
def update_scan (rpm : RemoteRead) :
    List MEMBLOCK → SEARCH_CONDITION → Nat → List MEMBLOCK
  | [], _, _ => []
  | mb :: next, condition, value =>
    update_memblock rpm mb condition value :: update_scan rpm next condition value

/-- The regions that successive `VirtualQueryEx` calls return from the cursor
`addr` on, each query starting at the previous region's base plus its size,
up to the first query that reports no region. -/
def QueryChain (vq : VirtualQueryFn) (hProc : Nat) : Nat → List MEMORY_BASIC_INFORMATION → Prop
  | addr, [] => vq hProc addr = none
  | addr, r :: rs =>
    vq hProc addr = some r ∧ QueryChain vq hProc (r.BaseAddress + r.RegionSize) rs

/-- The blocks that `create_memblock` makes of the regions of a list, the
first of them being the `n`-th block created. -/
def blocksFrom (alloc : MallocFn) (hProc data_size : Nat) :
    Nat → List MEMORY_BASIC_INFORMATION → List MEMBLOCK
  | _, [] => []
  | n, r :: rs =>
    create_memblock hProc r data_size (alloc n).1 (alloc n).2 ::
      blocksFrom alloc hProc data_size (n + 1) rs

/-- Two blocks that differ at most in their buffers and in the flags at or
above their size. -/
structure SameView (a b : MEMBLOCK) : Prop where
  hProc : a.hProc = b.hProc
  addr : a.addr = b.addr
  size : a.size = b.size
  data_size : a.data_size = b.data_size
  num_matches : a.num_matches = b.num_matches
  flag : ∀ p : Nat, (p : Int) < a.size → IS_IN_SEARCH a p = IS_IN_SEARCH b p

/-! ## Accesses to the searchmask and the buffer -/

/-- One access of `update_memblock` or `print_matches` to the searchmask or
to the buffer of a block. -/
inductive Access
  /-- Macro `IS_IN_SEARCH(mb, offset)`: reads `searchmask[offset / 8]`. -/
  | maskTest (offset : Nat)
  /-- Macro `REMOVE_FROM_SEARCH(mb, offset)`: reads and writes `searchmask[offset / 8]`. -/
  | maskClear (offset : Nat)
  /-- The `memset` of the unconditional branch writes `searchmask[index]`. -/
  | maskSet (index : Nat)
  /-- A read of `buffer[offset]`. -/
  | bufferRead (offset : Nat)
  /-- A write of `buffer[offset]`. -/
  | bufferWrite (offset : Nat)
  deriving DecidableEq, Repr

/-- The buffer offsets that the data-size `switch` of `update_memblock` reads
for the element at `off`: 1, 2 or (case 4 and default) 4 bytes. -/
def loadOffsets (data_size off : Nat) : List Nat :=
  match data_size with
  | 1 => [off]
  | 2 => [off, off + 1]
  | _ => [off, off + 1, off + 2, off + 3]

/-- The accesses of the body of the `for` loop of `update_memblock` at one
`offset`, in state `mb`: the flag test, then for a set flag the read of the
previous value from the buffer and, without a match, the flag clearing. -/
def checkElementAccesses (condition : SEARCH_CONDITION) (value : Nat) (tempbuf : Nat → Nat)
    (total_read offset : Nat) (mb : MEMBLOCK) : List Access :=
  Access.maskTest (total_read + offset) ::
    (if IS_IN_SEARCH mb (total_read + offset) then
      (loadOffsets mb.data_size (total_read + offset)).map Access.bufferRead ++
        (if isMatch condition value (loadValue mb.data_size tempbuf offset)
            (loadValue mb.data_size mb.buffer (total_read + offset)) then []
        else [Access.maskClear (total_read + offset)])
    else [])

/-- The accesses of the `for` loop of `update_memblock`, along `scanChunk`. -/
def scanChunkAccesses (condition : SEARCH_CONDITION) (value : Nat) (tempbuf : Nat → Nat)
    (total_read bytes_read : Nat) : Nat → Nat → MEMBLOCK → List Access
  | 0, _, _ => []
  | fuel + 1, offset, mb =>
    if offset < bytes_read then
      checkElementAccesses condition value tempbuf total_read offset mb ++
        scanChunkAccesses condition value tempbuf total_read bytes_read fuel
          (offset + mb.data_size) (checkElement condition value tempbuf total_read offset mb)
    else []

/-- The accesses of the filter and copy part of the `while` body, along
`applyChunk`: the `memset` on the searchmask or the element loop, then the
`memcpy` into the buffer. -/
def applyChunkAccesses (condition : SEARCH_CONDITION) (value : Nat) (tempbuf : Nat → Nat)
    (bytes_read : Nat) (s : ScanState) : List Access :=
  (if condition = .COND_UNCONDITIONAL then
    (List.range (bytes_read / 8)).map fun i => Access.maskSet (s.total_read / 8 + i)
  else
    scanChunkAccesses condition value tempbuf s.total_read bytes_read bytes_read 0 s.mb) ++
  (List.range bytes_read).map fun i => Access.bufferWrite (s.total_read + i)

/-- The accesses of the `while (bytes_left)` loop, along `readLoop`. -/
def readLoopAccesses (rpm : RemoteRead) (condition : SEARCH_CONDITION) (value : Nat) :
    Nat → ScanState → List Access
  | 0, _ => []
  | fuel + 1, s =>
    if s.bytes_left = 0 then []
    else if (nextRead rpm s).bytes_read ≠ bytesToRead s.bytes_left then []
    else
      applyChunkAccesses condition value (nextRead rpm s).tempbuf (nextRead rpm s).bytes_read s ++
        readLoopAccesses rpm condition value fuel
          (applyChunk condition value (nextRead rpm s).tempbuf (nextRead rpm s).bytes_read
            (logRead s))

/-- The accesses to searchmask and buffer of one call of `update_memblock`,
in order. -/
def update_memblock_accesses (rpm : RemoteRead) (mb : MEMBLOCK)
    (condition : SEARCH_CONDITION) (value : Nat) : List Access :=
  if mb.num_matches = 0 then []
  else
    readLoopAccesses rpm condition value (toUInt32 mb.size)
      { mb := { mb with num_matches := 0 }
        bytes_left := toUInt32 mb.size
        total_read := 0
        reads := [] }

/-- The accesses of the `for` loop of `print_matches` on one block, along
`printBlock`: one flag test for each offset of the loop. -/
def printBlockAccesses (mb : MEMBLOCK) : Nat → Nat → List Access
  | 0, _ => []
  | fuel + 1, offset =>
    if (offset : Int) < mb.size then
      Access.maskTest offset :: printBlockAccesses mb fuel (offset + mb.data_size)
    else []

/-- The access stays inside a searchmask of `maskLen` bytes and a buffer of
`bufLen` bytes. -/
def Access.inBounds (maskLen bufLen : Nat) : Access → Prop
  | .maskTest o => o / 8 < maskLen
  | .maskClear o => o / 8 < maskLen
  | .maskSet i => i < maskLen
  | .bufferRead o => o < bufLen
  | .bufferWrite o => o < bufLen

/-- The access touches only flags and buffer bytes of offsets below `L`. -/
def Access.below (L : Nat) : Access → Prop
  | .maskTest o => o < L
  | .maskClear o => o < L
  | .maskSet i => 8 * i + 7 < L
  | .bufferRead o => o < L
  | .bufferWrite o => o < L

/-- A flag test or clearing is at a multiple of `w`. -/
def Access.aligned (w : Nat) : Access → Prop
  | .maskTest o => o % w = 0
  | .maskClear o => o % w = 0
  | _ => True

/-- Snapshot states reached from `mb0` by any sequence of `update_memblock`
rounds. -/
inductive RoundsFrom (mb0 : MEMBLOCK) : MEMBLOCK → Prop
  | start : RoundsFrom mb0 mb0
  | update {mb : MEMBLOCK} (rpm : RemoteRead) (condition : SEARCH_CONDITION) (value : Nat) :
      RoundsFrom mb0 mb → RoundsFrom mb0 (update_memblock rpm mb condition value)

/-- In a round on `mb`, the region yields exactly its first `K` bytes as
readable: a chunk read is complete exactly when the chunk ends at or below
offset `K`. -/
def readableUpTo (rpm : RemoteRead) (mb : MEMBLOCK) (K : Nat) : Prop :=
  ∀ j, j * TEMPBUF_SIZE < toUInt32 mb.size →
    (chunkComplete rpm mb j ↔
      j * TEMPBUF_SIZE + bytesToRead (toUInt32 mb.size - j * TEMPBUF_SIZE) ≤ K)

/-- What holds of the size of every state reached from `create_memblock` on a
region whose size is a multiple of 8. -/
structure BoundsInv (meminfo : MEMORY_BASIC_INFORMATION) (w : Nat) (mb : MEMBLOCK) : Prop where
  size_le : toUInt32 mb.size ≤ meminfo.RegionSize
  size_mod : toUInt32 mb.size % 8 = 0
  size_int : mb.size < 2 ^ 31
  data_size : mb.data_size = w

/-- A flag test or clearing is at a multiple of `w` below `L`. -/
def Access.flagWithin (w L : Nat) : Access → Prop
  | .maskTest o => o % w = 0 ∧ o < L
  | .maskClear o => o % w = 0 ∧ o < L
  | _ => True

/-! ## Concrete inputs -/

/-- A committed read-write region of 8 bytes at `0x10000`. -/
def regionExample : MEMORY_BASIC_INFORMATION :=
  { BaseAddress := 0x10000, RegionSize := 8, State := 0x1000, Protect := 0x04 }

/-- The block that `create_memblock` makes of `regionExample` with element
width `w`, the two allocations zero-filled. -/
def blockExample (w : Nat) : MEMBLOCK :=
  create_memblock 1 regionExample w (fun _ => 0) (fun _ => 0)

/-- A remote process whose every read is complete and delivers `bytes`
(zero past the end of the list). -/
def readExample (bytes : List Nat) : RemoteRead :=
  fun _ _ n => { tempbuf := fun i => bytes.getD i 0, bytes_read := n }

/-- The block of `blockExample 4` after a first round that read the 32-bit
values 10 and 0 and kept the elements equal to 10: the buffer holds 10 at
offset 0, whose flag is set. -/
def blockHolding10 : MEMBLOCK :=
  update_memblock (readExample [10, 0, 0, 0, 0, 0, 0, 0]) (blockExample 4) .COND_EQUALS 10

/-- The block of `blockExample 4` after a first round that read the 32-bit
values 256 (bytes `00 01 00 00`) and 0 and kept the elements equal to 256:
the buffer holds 256 at offset 0, whose flag is set. -/
def blockHolding256 : MEMBLOCK :=
  update_memblock (readExample [0, 1, 0, 0, 0, 0, 0, 0]) (blockExample 4) .COND_EQUALS 256

/-- The block of `blockExample 4` after a round that kept no element: its
match count is 0. -/
def blockExhausted : MEMBLOCK :=
  update_memblock (readExample []) (blockExample 4) .COND_EQUALS 5

/-- A committed read-write region of two chunks, 262144 bytes, at `0x10000`. -/
def regionTwoChunks : MEMORY_BASIC_INFORMATION :=
  { BaseAddress := 0x10000, RegionSize := 262144, State := 0x1000, Protect := 0x04 }

/-- The block that `create_memblock` makes of `regionTwoChunks` with element
width 4. -/
def blockTwoChunks : MEMBLOCK :=
  create_memblock 1 regionTwoChunks 4 (fun _ => 0) (fun _ => 0)

/-- A remote process of which only the first chunk of `regionTwoChunks` is
readable: a read at `0x10000` is complete and delivers zeros, every other
read delivers no byte. -/
def readFirstChunkOnly : RemoteRead :=
  fun _ addr n =>
    if addr = 0x10000 then { tempbuf := fun _ => 0, bytes_read := n }
    else { tempbuf := fun _ => 0, bytes_read := 0 }

/-- A remote process whose every read fails with no byte read. -/
def readFailing : RemoteRead :=
  fun _ _ _ => { tempbuf := fun _ => 0, bytes_read := 0 }

/-- A process handle for every process identifier: every attach succeeds
with the handle 1. -/
def openAlways : OpenProcessFn := fun _ => 1

/-- No process can be opened: every attach fails. -/
def openNever : OpenProcessFn := fun _ => 0

/-- Zero-filled results of `malloc`. -/
def allocZero : MallocFn := fun _ => (fun _ => 0, fun _ => 0)

/-- A free region of 0x10000 bytes at address 0. -/
def regionFree : MEMORY_BASIC_INFORMATION :=
  { BaseAddress := 0, RegionSize := 0x10000, State := 0x10000, Protect := 0x01 }

/-- An address space of two regions: `regionFree` at 0, then `regionExample`
at `0x10000`; every other query reports no region. -/
def queryExample : VirtualQueryFn :=
  fun _ addr =>
    if addr = 0 then some regionFree
    else if addr = 0x10000 then some regionExample
    else none

/-- An address space with no qualifying region: `regionFree` at 0, then the
end. -/
def queryNoWritable : VirtualQueryFn :=
  fun _ addr => if addr = 0 then some regionFree else none

/-- A committed read-write region of 4 bytes at `0x10000`. -/
def regionFourBytes : MEMORY_BASIC_INFORMATION :=
  { BaseAddress := 0x10000, RegionSize := 4, State := 0x1000, Protect := 0x04 }

/-- An address space whose one writable region is `regionFourBytes`, after
`regionFree`. -/
def queryFourBytes : VirtualQueryFn :=
  fun _ addr =>
    if addr = 0 then some regionFree
    else if addr = 0x10000 then some regionFourBytes
    else none

/-- A remote process of which every read delivers at most 4 bytes. -/
def readFourBytes : RemoteRead :=
  fun _ _ n => { tempbuf := fun _ => 0, bytes_read := min n 4 }

/-! ## Machine integers: lemmas -/

theorem toInt32_of_range {z : Int} (h0 : 0 ≤ z) (h1 : z < 2 ^ 31) : toInt32 z = z := by
  unfold toInt32; omega

theorem toUInt32_of_range {z : Int} (h0 : 0 ≤ z) (h1 : z < 2 ^ 32) :
    toUInt32 z = z.toNat := by
  unfold toUInt32; congr 1; omega

theorem toUInt32_natCast {n : Nat} (h1 : n < 2 ^ 32) : toUInt32 (n : Int) = n := by
  rw [toUInt32_of_range (by omega) (by omega)]; simp

/-! ## Candidate flags: lemmas -/

theorem IS_IN_SEARCH_eq_testBit (mb : MEMBLOCK) (o : Nat) :
    IS_IN_SEARCH mb o = (mb.searchmask (o / 8)).testBit (o % 8) := by
  unfold IS_IN_SEARCH
  rw [Nat.one_shiftLeft, Nat.and_two_pow]
  cases h : (mb.searchmask (o / 8)).testBit (o % 8) <;> simp

theorem IS_IN_SEARCH_REMOVE (mb : MEMBLOCK) (q p : Nat) :
    IS_IN_SEARCH (REMOVE_FROM_SEARCH mb q) p = (IS_IN_SEARCH mb p && decide (p ≠ q)) := by
  simp only [IS_IN_SEARCH_eq_testBit, REMOVE_FROM_SEARCH]
  by_cases h : p / 8 = q / 8
  · rw [if_pos h, Nat.testBit_and, Nat.testBit_xor, Nat.one_shiftLeft, Nat.testBit_two_pow, h]
    have h255 : (0xFF : Nat).testBit (p % 8) = true := by
      have : (0xFF : Nat) = 2 ^ 8 - 1 := by norm_num
      rw [this, Nat.testBit_two_pow_sub_one]
      simp; omega
    rw [h255]
    by_cases hpq : p = q
    · subst hpq; simp
    · have : q % 8 ≠ p % 8 := by omega
      simp [this, hpq]
  · rw [if_neg h]
    have : p ≠ q := fun hpq => h (by rw [hpq])
    simp [this]

theorem IS_IN_SEARCH_memset (mb : MEMBLOCK) (start n p : Nat) :
    IS_IN_SEARCH { mb with searchmask := memset mb.searchmask start 0xFF n } p =
      (decide (start ≤ p / 8 ∧ p / 8 < start + n) || IS_IN_SEARCH mb p) := by
  simp only [IS_IN_SEARCH_eq_testBit, memset]
  by_cases h : start ≤ p / 8 ∧ p / 8 < start + n
  · rw [if_pos h]
    have h255 : (0xFF : Nat).testBit (p % 8) = true := by
      have : (0xFF : Nat) = 2 ^ 8 - 1 := by norm_num
      rw [this, Nat.testBit_two_pow_sub_one]
      simp; omega
    simp [h255, h]
  · rw [if_neg h]; simp [h]

/-! ## Counting element positions -/

theorem count_congr_below {p q : Nat → Prop} [DecidablePred p] [DecidablePred q] (n : Nat)
    (h : ∀ k, k < n → (p k ↔ q k)) : Nat.count p n = Nat.count q n := by
  induction n with
  | zero => simp
  | succ n ih =>
    rw [Nat.count_succ, Nat.count_succ, ih (fun k hk => h k (by omega))]
    have := h n (by omega)
    by_cases hp : p n
    · simp [hp, this.mp hp]
    · have hq : ¬ q n := fun hq => hp (this.mpr hq)
      simp [hp, hq]

theorem count_aligned_step {w : Nat} (hw : w = 1 ∨ w = 2 ∨ w = 4) (Q : Nat → Prop)
    [DecidablePred Q] (a : Nat) (ha : a % w = 0) :
    Nat.count (fun p => p % w = 0 ∧ Q p) (a + w) =
      Nat.count (fun p => p % w = 0 ∧ Q p) a + if Q a then 1 else 0 := by
  rcases hw with rfl | rfl | rfl
  · simp [Nat.count_succ, Nat.mod_one]
  · have h1 : ¬ (a + 1) % 2 = 0 := by omega
    rw [show a + 2 = (a + 1) + 1 from rfl, Nat.count_succ, Nat.count_succ]
    simp [ha, h1]
  · have h1 : ¬ (a + 1) % 4 = 0 := by omega
    have h2 : ¬ (a + 2) % 4 = 0 := by omega
    have h3 : ¬ (a + 3) % 4 = 0 := by omega
    rw [show a + 4 = (((a + 1) + 1) + 1) + 1 from rfl, Nat.count_succ, Nat.count_succ,
      Nat.count_succ, Nat.count_succ]
    simp [ha, h1, h2, h3]

/-! ## The element loop -/

theorem checkElement_eq (c : SEARCH_CONDITION) (v : Nat) (tb : Nat → Nat)
    (T o : Nat) (mb : MEMBLOCK) :
    checkElement c v tb T o mb =
      if IS_IN_SEARCH mb (T + o) = true then
        if isMatch c v (loadValue mb.data_size tb o)
            (loadValue mb.data_size mb.buffer (T + o)) = true then
          { mb with num_matches := toInt32 (mb.num_matches + 1) }
        else REMOVE_FROM_SEARCH mb (T + o)
      else mb := rfl

@[simp] theorem checkElement_buffer (c : SEARCH_CONDITION) (v : Nat) (tb : Nat → Nat)
    (T o : Nat) (mb : MEMBLOCK) : (checkElement c v tb T o mb).buffer = mb.buffer := by
  rw [checkElement_eq]; unfold REMOVE_FROM_SEARCH; split_ifs <;> rfl

@[simp] theorem checkElement_size (c : SEARCH_CONDITION) (v : Nat) (tb : Nat → Nat)
    (T o : Nat) (mb : MEMBLOCK) : (checkElement c v tb T o mb).size = mb.size := by
  rw [checkElement_eq]; unfold REMOVE_FROM_SEARCH; split_ifs <;> rfl

@[simp] theorem checkElement_addr (c : SEARCH_CONDITION) (v : Nat) (tb : Nat → Nat)
    (T o : Nat) (mb : MEMBLOCK) : (checkElement c v tb T o mb).addr = mb.addr := by
  rw [checkElement_eq]; unfold REMOVE_FROM_SEARCH; split_ifs <;> rfl

@[simp] theorem checkElement_hProc (c : SEARCH_CONDITION) (v : Nat) (tb : Nat → Nat)
    (T o : Nat) (mb : MEMBLOCK) : (checkElement c v tb T o mb).hProc = mb.hProc := by
  rw [checkElement_eq]; unfold REMOVE_FROM_SEARCH; split_ifs <;> rfl

@[simp] theorem checkElement_data_size (c : SEARCH_CONDITION) (v : Nat) (tb : Nat → Nat)
    (T o : Nat) (mb : MEMBLOCK) : (checkElement c v tb T o mb).data_size = mb.data_size := by
  rw [checkElement_eq]; unfold REMOVE_FROM_SEARCH; split_ifs <;> rfl

/-- The flag that `checkElement` leaves at `p`: the flag before, cleared at
the tested offset when the element does not match. -/
theorem checkElement_flag (c : SEARCH_CONDITION) (v : Nat) (tb : Nat → Nat)
    (T o : Nat) (mb : MEMBLOCK) (p : Nat) :
    IS_IN_SEARCH (checkElement c v tb T o mb) p =
      (IS_IN_SEARCH mb p &&
        !(decide (p = T + o) &&
          !isMatch c v (loadValue mb.data_size tb o) (loadValue mb.data_size mb.buffer (T + o)))) := by
  rw [checkElement_eq]
  by_cases hf : IS_IN_SEARCH mb (T + o) = true
  · rw [if_pos hf]
    by_cases hm : isMatch c v (loadValue mb.data_size tb o)
        (loadValue mb.data_size mb.buffer (T + o)) = true
    · rw [if_pos hm, hm]
      show IS_IN_SEARCH mb p = _
      simp
    · rw [if_neg hm, IS_IN_SEARCH_REMOVE]
      simp at hm
      simp [hm]
  · rw [if_neg hf]
    by_cases hp : p = T + o
    · subst hp; simp at hf; simp [hf]
    · simp [hp]

theorem checkElement_num_matches (c : SEARCH_CONDITION) (v : Nat) (tb : Nat → Nat)
    (T o : Nat) (mb : MEMBLOCK) :
    (checkElement c v tb T o mb).num_matches =
      if IS_IN_SEARCH mb (T + o) = true ∧
          isMatch c v (loadValue mb.data_size tb o)
            (loadValue mb.data_size mb.buffer (T + o)) = true
      then toInt32 (mb.num_matches + 1) else mb.num_matches := by
  rw [checkElement_eq]; unfold REMOVE_FROM_SEARCH
  split_ifs <;> simp_all

/-- Loop rule for `scanChunk`: a property kept by every iteration holds when
the loop ends, and the loop ends within `bytes_read` iterations. -/
theorem scanChunk_induct (c : SEARCH_CONDITION) (v : Nat) (tb : Nat → Nat) (T n w : Nat)
    (hw : 0 < w) (I : Nat → MEMBLOCK → Prop)
    (hstep : ∀ o m, o < n → o % w = 0 → m.data_size = w → I o m →
      I (o + w) (checkElement c v tb T o m)) :
    ∀ fuel off mb, off % w = 0 → n % w = 0 → off ≤ n → n - off ≤ fuel →
      mb.data_size = w → I off mb → I n (scanChunk c v tb T n fuel off mb) := by
  intro fuel
  induction fuel with
  | zero =>
    intro off mb _ _ hle hfuel _ hI
    have : off = n := by omega
    subst this
    simpa [scanChunk] using hI
  | succ fuel ih =>
    intro off mb hoff hn hle hfuel hds hI
    unfold scanChunk
    by_cases hlt : off < n
    · rw [if_pos hlt, hds]
      have hdvd : w ∣ n - off :=
        Nat.dvd_of_mod_eq_zero (Nat.sub_mod_eq_zero_of_mod_eq (by rw [hn, hoff]))
      have hwle : w ≤ n - off := Nat.le_of_dvd (by omega) hdvd
      apply ih
      · rw [Nat.add_mod_right]; exact hoff
      · exact hn
      · omega
      · omega
      · simp [hds]
      · exact hstep off mb hlt hoff hds hI
    · rw [if_neg hlt]
      have : off = n := by omega
      subst this
      exact hI

theorem scanChunk_frame (c : SEARCH_CONDITION) (v : Nat) (tb : Nat → Nat) (T n : Nat) :
    ∀ fuel off mb, (scanChunk c v tb T n fuel off mb).buffer = mb.buffer ∧
      (scanChunk c v tb T n fuel off mb).size = mb.size ∧
      (scanChunk c v tb T n fuel off mb).addr = mb.addr ∧
      (scanChunk c v tb T n fuel off mb).hProc = mb.hProc ∧
      (scanChunk c v tb T n fuel off mb).data_size = mb.data_size := by
  intro fuel
  induction fuel with
  | zero => intro off mb; simp [scanChunk]
  | succ fuel ih =>
    intro off mb
    unfold scanChunk
    split_ifs
    · have := ih (off + mb.data_size) (checkElement c v tb T off mb)
      simpa using this
    · simp

/-- The element loop sets no flag. -/
theorem scanChunk_flag_le (c : SEARCH_CONDITION) (v : Nat) (tb : Nat → Nat) (T n : Nat) (p : Nat) :
    ∀ fuel off mb, IS_IN_SEARCH (scanChunk c v tb T n fuel off mb) p = true →
      IS_IN_SEARCH mb p = true := by
  intro fuel
  induction fuel with
  | zero => intro off mb h; simpa [scanChunk] using h
  | succ fuel ih =>
    intro off mb h
    unfold scanChunk at h
    split_ifs at h
    · have := ih _ _ h
      rw [checkElement_flag] at this
      simp at this
      exact this.1
    · exact h

/-- The flags after the element loop on a chunk of `n` bytes read at
`total_read = T`: a flag at an element position of the chunk stays set when
it was set and the element matches; every other flag is unchanged. -/
theorem scanChunk_flag (c : SEARCH_CONDITION) (v : Nat) (tb : Nat → Nat) (T n w : Nat)
    (hw : w = 1 ∨ w = 2 ∨ w = 4) (mb : MEMBLOCK) (hds : mb.data_size = w)
    (hT : T % w = 0) (hn : n % w = 0) (p : Nat) :
    IS_IN_SEARCH (scanChunk c v tb T n n 0 mb) p =
      (IS_IN_SEARCH mb p &&
        !(decide (T ≤ p ∧ p < T + n ∧ p % w = 0) &&
          !isMatch c v (loadValue w tb (p - T)) (loadValue w mb.buffer p))) := by
  have hw0 : 0 < w := by omega
  have key := scanChunk_induct c v tb T n w hw0
    (fun o m => m.buffer = mb.buffer ∧ ∀ p, IS_IN_SEARCH m p =
      (IS_IN_SEARCH mb p &&
        !(decide (T ≤ p ∧ p < T + o ∧ p % w = 0) &&
          !isMatch c v (loadValue w tb (p - T)) (loadValue w mb.buffer p))))
    (by
      intro o m _ ho hm ⟨hb, hI⟩
      refine ⟨by simp [hb], ?_⟩
      intro q
      rw [checkElement_flag, hI q, hm, hb]
      by_cases hq : q = T + o
      · subst hq
        have h1 : ¬ (T ≤ T + o ∧ T + o < T + o ∧ (T + o) % w = 0) := by omega
        have h2 : (T ≤ T + o ∧ T + o < T + (o + w) ∧ (T + o) % w = 0) := by
          refine ⟨by omega, by omega, ?_⟩
          rw [Nat.add_mod, hT, ho]; simp
        simp [h1, h2]
      · have h3 : (T ≤ q ∧ q < T + (o + w) ∧ q % w = 0) ↔ (T ≤ q ∧ q < T + o ∧ q % w = 0) := by
          have hTo : (T + o) % w = 0 := by rw [Nat.add_mod, hT, ho]; simp
          rcases hw with rfl | rfl | rfl <;> omega
        simp [hq, h3])
    n 0 mb (Nat.zero_mod w) hn (Nat.zero_le n) (by omega) hds
    ⟨rfl, by
      intro q
      have : decide (T ≤ q ∧ q < T + 0 ∧ q % w = 0) = false :=
        decide_eq_false (by omega)
      simp only [this]
      simp⟩
  exact key.2 p

/-- The tally after the element loop: when the match count on entry is the
number of candidate element positions below `T`, the match count on exit is
the number of candidate element positions below `T + n`. -/
theorem scanChunk_count (c : SEARCH_CONDITION) (v : Nat) (tb : Nat → Nat) (T n w : Nat)
    (hw : w = 1 ∨ w = 2 ∨ w = 4) (mb : MEMBLOCK) (hds : mb.data_size = w)
    (hT : T % w = 0) (hn : n % w = 0) (hbound : T + n < 2 ^ 31)
    (h0 : mb.num_matches = (Nat.count (isCandidate mb) T : Nat)) :
    (scanChunk c v tb T n n 0 mb).num_matches =
      (Nat.count (isCandidate (scanChunk c v tb T n n 0 mb)) (T + n) : Nat) := by
  have hw0 : 0 < w := by omega
  refine scanChunk_induct c v tb T n w hw0
    (fun o m => m.num_matches = (Nat.count (isCandidate m) (T + o) : Nat))
    ?_ n 0 mb (Nat.zero_mod w) hn (Nat.zero_le n) (by omega) hds (by simpa using h0)
  intro o m hon ho hm hI
  have hTo : (T + o) % w = 0 := by rw [Nat.add_mod, hT, ho]; simp
  have hstep := count_aligned_step hw
    (fun q => IS_IN_SEARCH (checkElement c v tb T o m) q = true) (T + o) hTo
  have hbelow : Nat.count (fun q => q % w = 0 ∧ IS_IN_SEARCH (checkElement c v tb T o m) q = true)
      (T + o) = Nat.count (isCandidate m) (T + o) := by
    apply count_congr_below
    intro k hk
    have hne : k ≠ T + o := by omega
    simp [isCandidate, hm, checkElement_flag, hne]
  have hcand : Nat.count (isCandidate (checkElement c v tb T o m)) (T + (o + w)) =
      Nat.count (fun q => q % w = 0 ∧ IS_IN_SEARCH (checkElement c v tb T o m) q = true)
        (T + o + w) := by
    rw [Nat.add_assoc]
    apply count_congr_below
    intro k _
    simp [isCandidate, hm]
  have hle : Nat.count (isCandidate m) (T + o) ≤ T + o := Nat.count_le _
  have hflag := checkElement_flag c v tb T o m (T + o)
  beta_reduce at hstep
  show (checkElement c v tb T o m).num_matches = _
  rw [hcand, hstep, hbelow, checkElement_num_matches, hflag, hI]
  by_cases hf : IS_IN_SEARCH m (T + o) = true
  · by_cases hmt : isMatch c v (loadValue m.data_size tb o)
        (loadValue m.data_size m.buffer (T + o)) = true
    · simp only [hf, hmt]
      simp
      rw [toInt32_of_range (by omega) (by omega)]
    · simp [hf, hmt]
  · simp [hf]

/-! ## The chunk loop -/

@[simp] theorem logRead_mb (s : ScanState) : (logRead s).mb = s.mb := rfl

@[simp] theorem logRead_total_read (s : ScanState) : (logRead s).total_read = s.total_read := rfl

@[simp] theorem logRead_bytes_left (s : ScanState) : (logRead s).bytes_left = s.bytes_left := rfl

theorem logRead_reads (s : ScanState) :
    (logRead s).reads = s.reads ++ [(s.mb.addr + s.total_read, bytesToRead s.bytes_left)] := rfl

theorem bytesToRead_pos {n : Nat} (h : n ≠ 0) : 0 < bytesToRead n := by
  unfold bytesToRead TEMPBUF_SIZE; split_ifs <;> omega

theorem bytesToRead_le (n : Nat) : bytesToRead n ≤ n := by
  unfold bytesToRead; split_ifs <;> omega

theorem bytesToRead_le_size (n : Nat) : bytesToRead n ≤ TEMPBUF_SIZE := by
  unfold bytesToRead; split_ifs <;> omega

theorem readLoop_succ (rpm : RemoteRead) (c : SEARCH_CONDITION) (v : Nat) (fuel : Nat)
    (s : ScanState) :
    readLoop rpm c v (fuel + 1) s =
      if s.bytes_left = 0 then s
      else if (nextRead rpm s).bytes_read ≠ bytesToRead s.bytes_left then logRead s
      else readLoop rpm c v fuel
        (applyChunk c v (nextRead rpm s).tempbuf (nextRead rpm s).bytes_read (logRead s)) := rfl

/-- Loop rule for `readLoop`: with `I` kept by every complete chunk, the loop
ends (on `bytes_left = 0` or on a short read) within `bytes_left` iterations
in a state that satisfies `F`. -/
theorem readLoop_induct (rpm : RemoteRead) (c : SEARCH_CONDITION) (v : Nat)
    (I F : ScanState → Prop)
    (hdone : ∀ s, I s → s.bytes_left = 0 → F s)
    (hshort : ∀ s, I s → s.bytes_left ≠ 0 →
      (nextRead rpm s).bytes_read ≠ bytesToRead s.bytes_left → F (logRead s))
    (hstep : ∀ s, I s → s.bytes_left ≠ 0 →
      (nextRead rpm s).bytes_read = bytesToRead s.bytes_left →
      I (applyChunk c v (nextRead rpm s).tempbuf (bytesToRead s.bytes_left) (logRead s))) :
    ∀ fuel s, s.bytes_left ≤ fuel → I s → F (readLoop rpm c v fuel s) := by
  intro fuel
  induction fuel with
  | zero =>
    intro s hle hI
    exact hdone s hI (by omega)
  | succ fuel ih =>
    intro s hle hI
    rw [readLoop_succ]
    by_cases h0 : s.bytes_left = 0
    · rw [if_pos h0]; exact hdone s hI h0
    · rw [if_neg h0]
      by_cases hr : (nextRead rpm s).bytes_read = bytesToRead s.bytes_left
      · rw [if_neg (by simpa using hr), hr]
        apply ih
        · have := bytesToRead_pos h0
          show s.bytes_left - bytesToRead s.bytes_left ≤ fuel
          omega
        · exact hstep s hI h0 hr
      · rw [if_pos hr]
        exact hshort s hI h0 hr

theorem applyChunk_frame (c : SEARCH_CONDITION) (v : Nat) (tb : Nat → Nat) (n : Nat)
    (s : ScanState) :
    (applyChunk c v tb n s).mb.addr = s.mb.addr ∧
    (applyChunk c v tb n s).mb.hProc = s.mb.hProc ∧
    (applyChunk c v tb n s).mb.data_size = s.mb.data_size ∧
    (applyChunk c v tb n s).mb.size = s.mb.size ∧
    (applyChunk c v tb n s).mb.buffer = memcpy s.mb.buffer s.total_read tb n ∧
    (applyChunk c v tb n s).bytes_left = s.bytes_left - n ∧
    (applyChunk c v tb n s).total_read = s.total_read + n ∧
    (applyChunk c v tb n s).reads = s.reads := by
  unfold applyChunk
  by_cases hc : c = .COND_UNCONDITIONAL
  · simp [hc]
  · have h := scanChunk_frame c v tb s.total_read n n 0 s.mb
    simp [hc, h.1, h.2.1, h.2.2.1, h.2.2.2.1, h.2.2.2.2]

theorem BaseInv.nextRead_eq {rpm : RemoteRead} {mb : MEMBLOCK} {s : ScanState}
    (h : BaseInv rpm mb s) (h0 : s.bytes_left ≠ 0) :
    nextRead rpm s = chunkRead rpm mb (s.total_read / TEMPBUF_SIZE) ∧
    bytesToRead s.bytes_left =
      bytesToRead (toUInt32 mb.size - s.total_read / TEMPBUF_SIZE * TEMPBUF_SIZE) ∧
    s.total_read / TEMPBUF_SIZE * TEMPBUF_SIZE = s.total_read := by
  have hal : s.total_read % TEMPBUF_SIZE = 0 := by
    rcases h.aligned with h1 | h1
    · exact absurd h1 h0
    · exact h1
  have hT : s.total_read / TEMPBUF_SIZE * TEMPBUF_SIZE = s.total_read :=
    Nat.div_mul_cancel (Nat.dvd_of_mod_eq_zero hal)
  have hbl : s.bytes_left = toUInt32 mb.size - s.total_read := by
    have := h.sum; omega
  refine ⟨?_, ?_, hT⟩
  · unfold nextRead chunkRead
    rw [h.hProc, h.addr, hT, hbl]
  · rw [hT, hbl]

theorem BaseInv.init (rpm : RemoteRead) (mb : MEMBLOCK) :
    BaseInv rpm mb
      { mb := { mb with num_matches := 0 }, bytes_left := toUInt32 mb.size,
        total_read := 0, reads := [] } where
  sum := by simp
  aligned := Or.inr (by simp)
  addr := rfl
  hProc := rfl
  data_size := rfl
  size := rfl
  complete := by intro j hj; simp at hj
  buffer := by intro i; simp
  reads := by simp [requests, TEMPBUF_SIZE]

theorem BaseInv.base_step {rpm : RemoteRead} {mb : MEMBLOCK} {s : ScanState}
    (c : SEARCH_CONDITION) (v : Nat)
    (h : BaseInv rpm mb s) (h0 : s.bytes_left ≠ 0)
    (hr : (nextRead rpm s).bytes_read = bytesToRead s.bytes_left) :
    BaseInv rpm mb
      (applyChunk c v (nextRead rpm s).tempbuf (bytesToRead s.bytes_left) (logRead s)) := by
  obtain ⟨hnr, hbt, hT⟩ := h.nextRead_eq h0
  have hfr := applyChunk_frame c v (nextRead rpm s).tempbuf (bytesToRead s.bytes_left) (logRead s)
  simp only [logRead_mb, logRead_total_read, logRead_bytes_left, logRead_reads] at hfr
  obtain ⟨f1, f2, f3, f4, f5, f6, f7, f8⟩ := hfr
  have hpos := bytesToRead_pos h0
  have hle := bytesToRead_le s.bytes_left
  have hle2 := bytesToRead_le_size s.bytes_left
  have hsum := h.sum
  have hTS : TEMPBUF_SIZE = 131072 := by norm_num [TEMPBUF_SIZE]
  rw [hTS] at hT hle2
  constructor
  · rw [f6, f7]; omega
  · rw [f6, f7]
    by_cases hb : s.bytes_left > TEMPBUF_SIZE
    · right
      have : bytesToRead s.bytes_left = TEMPBUF_SIZE := by simp [bytesToRead, hb]
      rw [this, hTS]; omega
    · left
      have : bytesToRead s.bytes_left = s.bytes_left := by simp [bytesToRead, hb]
      omega
  · rw [f1]; exact h.addr
  · rw [f2]; exact h.hProc
  · rw [f3]; exact h.data_size
  · rw [f4]; exact h.size
  · intro j hj
    rw [f7] at hj
    by_cases hlt : j * TEMPBUF_SIZE < s.total_read
    · exact h.complete j hlt
    · have hj2 : j = s.total_read / TEMPBUF_SIZE := by
        rw [hTS] at hj hlt ⊢; omega
      subst hj2
      unfold chunkComplete
      rw [← hnr, ← hbt]; exact hr
  · intro i
    rw [f5, f7]
    unfold memcpy
    by_cases hi : s.total_read ≤ i ∧ i < s.total_read + bytesToRead s.bytes_left
    · rw [if_pos hi, if_pos hi.2]
      unfold readByte
      have h1 : i / TEMPBUF_SIZE = s.total_read / TEMPBUF_SIZE := by
        rw [hTS]; omega
      have h2 : i % TEMPBUF_SIZE = i - s.total_read := by
        rw [hTS]; omega
      rw [h1, h2, ← hnr]
    · rw [if_neg hi, h.buffer i]
      by_cases hi2 : i < s.total_read
      · rw [if_pos hi2, if_pos (by omega)]
      · rw [if_neg hi2, if_neg (by omega)]
  · rw [f8, f7]
    have h1 : (s.total_read + bytesToRead s.bytes_left + TEMPBUF_SIZE - 1) / TEMPBUF_SIZE =
        (s.total_read + TEMPBUF_SIZE - 1) / TEMPBUF_SIZE + 1 := by
      rw [hTS]; omega
    have h2 : (s.total_read + TEMPBUF_SIZE - 1) / TEMPBUF_SIZE = s.total_read / TEMPBUF_SIZE := by
      rw [hTS]; omega
    rw [h1, h.reads, h2]
    unfold requests
    rw [List.range_succ, List.map_append]
    simp only [List.map_cons, List.map_nil]
    rw [← hbt, h.addr]
    congr 3
    rw [hTS]; omega

theorem BaseInv.done {rpm : RemoteRead} {mb : MEMBLOCK} {s : ScanState}
    (h : BaseInv rpm mb s) (h0 : s.bytes_left = 0) : BasePost rpm mb s := by
  have hsum := h.sum
  have hT : s.total_read = toUInt32 mb.size := by omega
  exact
    { le := by omega
      stop := Or.inl hT
      addr := h.addr
      hProc := h.hProc
      data_size := h.data_size
      size := h.size
      complete := h.complete
      buffer := h.buffer
      reads := by rw [if_pos hT, h.reads, hT] }

theorem BaseInv.short {rpm : RemoteRead} {mb : MEMBLOCK} {s : ScanState}
    (h : BaseInv rpm mb s) (h0 : s.bytes_left ≠ 0)
    (hr : (nextRead rpm s).bytes_read ≠ bytesToRead s.bytes_left) :
    BasePost rpm mb (logRead s) := by
  obtain ⟨hnr, hbt, hT⟩ := h.nextRead_eq h0
  have hsum := h.sum
  have hal : s.total_read % TEMPBUF_SIZE = 0 := by
    rcases h.aligned with h1 | h1
    · exact absurd h1 h0
    · exact h1
  have hTS : TEMPBUF_SIZE = 131072 := by norm_num [TEMPBUF_SIZE]
  have hne : s.total_read ≠ toUInt32 mb.size := by omega
  exact
    { le := by simp only [logRead_total_read]; omega
      stop := Or.inr ⟨hal, by simp only [logRead_total_read]; omega, by
        simp only [logRead_total_read]
        unfold chunkComplete
        rw [← hnr, ← hbt]; exact hr⟩
      addr := h.addr
      hProc := h.hProc
      data_size := h.data_size
      size := h.size
      complete := h.complete
      buffer := h.buffer
      reads := by
        simp only [logRead_total_read, logRead_reads]
        rw [if_neg hne, h.reads]
        have h2 : (s.total_read + TEMPBUF_SIZE - 1) / TEMPBUF_SIZE =
            s.total_read / TEMPBUF_SIZE := by
          rw [hTS] at hal ⊢; omega
        rw [h2]
        unfold requests
        rw [List.range_succ, List.map_append]
        simp only [List.map_cons, List.map_nil]
        rw [hT] at hbt ⊢
        rw [hbt, h.addr] }

/-- Base facts about the end state of a round, for every condition. -/
theorem scanRound_base (rpm : RemoteRead) (mb : MEMBLOCK) (c : SEARCH_CONDITION) (v : Nat) :
    BasePost rpm mb (scanRound rpm mb c v) := by
  unfold scanRound
  refine readLoop_induct rpm c v (BaseInv rpm mb) (BasePost rpm mb) ?_ ?_ ?_ _ _
    (Nat.le_refl _) (BaseInv.init rpm mb)
  · intro s hI h0; exact hI.done h0
  · intro s hI h0 hr; exact hI.short h0 hr
  · intro s hI h0 hr; exact hI.base_step c v h0 hr

theorem loadValue_congr {w : Nat} (hw : w = 1 ∨ w = 2 ∨ w = 4) (f g : Nat → Nat) (a b : Nat)
    (h : ∀ i, i < w → f (a + i) = g (b + i)) : loadValue w f a = loadValue w g b := by
  rcases hw with rfl | rfl | rfl
  · have := h 0 (by omega); simpa [loadValue] using this
  · have h0 := h 0 (by omega); have h1 := h 1 (by omega)
    simp only [Nat.add_zero] at h0
    simp [loadValue, h0, h1]
  · have h0 := h 0 (by omega); have h1 := h 1 (by omega)
    have h2 := h 2 (by omega); have h3 := h 3 (by omega)
    simp only [Nat.add_zero] at h0
    simp [loadValue, h0, h1, h2, h3]

theorem applyChunk_mb_cond {c : SEARCH_CONDITION} (hc : c ≠ .COND_UNCONDITIONAL) (v : Nat)
    (tb : Nat → Nat) (n : Nat) (s : ScanState) :
    (applyChunk c v tb n s).mb =
      { scanChunk c v tb s.total_read n n 0 s.mb with
        buffer := memcpy (scanChunk c v tb s.total_read n n 0 s.mb).buffer s.total_read tb n } := by
  simp [applyChunk, hc]

theorem IS_IN_SEARCH_with_buffer (m : MEMBLOCK) (b : Nat → Nat) (p : Nat) :
    IS_IN_SEARCH { m with buffer := b } p = IS_IN_SEARCH m p := rfl

theorem CondInv.cond_step {rpm : RemoteRead} {mb : MEMBLOCK} {c : SEARCH_CONDITION} {v : Nat}
    {s : ScanState} (hc : c ≠ .COND_UNCONDITIONAL)
    (hw : mb.data_size = 1 ∨ mb.data_size = 2 ∨ mb.data_size = 4)
    (hS : toUInt32 mb.size % mb.data_size = 0) (hS31 : toUInt32 mb.size < 2 ^ 31)
    (h : CondInv rpm mb c v s) (h0 : s.bytes_left ≠ 0)
    (hr : (nextRead rpm s).bytes_read = bytesToRead s.bytes_left) :
    CondInv rpm mb c v
      (applyChunk c v (nextRead rpm s).tempbuf (bytesToRead s.bytes_left) (logRead s)) := by
  have hb := h.base
  have hb' := hb.base_step c v h0 hr
  obtain ⟨hnr, hbt, hT⟩ := hb.nextRead_eq h0
  have hfr := applyChunk_frame c v (nextRead rpm s).tempbuf (bytesToRead s.bytes_left) (logRead s)
  simp only [logRead_mb, logRead_total_read, logRead_bytes_left] at hfr
  obtain ⟨-, -, -, -, -, -, f7, -⟩ := hfr
  have hmb := applyChunk_mb_cond hc v (nextRead rpm s).tempbuf (bytesToRead s.bytes_left)
    (logRead s)
  simp only [logRead_mb, logRead_total_read] at hmb
  have hpos := bytesToRead_pos h0
  have hle := bytesToRead_le s.bytes_left
  have hle2 := bytesToRead_le_size s.bytes_left
  have hsum := hb.sum
  have hTS : TEMPBUF_SIZE = 131072 := by norm_num [TEMPBUF_SIZE]
  rw [hTS] at hT hle2
  have hds := hb.data_size
  -- alignment of the chunk
  have hTw : s.total_read % mb.data_size = 0 := by
    rcases hw with h1 | h1 | h1 <;> rw [h1] <;> omega
  have hnw : bytesToRead s.bytes_left % mb.data_size = 0 := by
    unfold bytesToRead
    split_ifs
    · rw [hTS]; rcases hw with h1 | h1 | h1 <;> rw [h1]
    · rcases hw with h1 | h1 | h1 <;> rw [h1] at hS hTw ⊢ <;> omega
  constructor
  · exact hb'
  · intro p
    rw [hmb, IS_IN_SEARCH_with_buffer,
      scanChunk_flag c v _ s.total_read _ mb.data_size hw s.mb hds hTw hnw p, h.flag p, f7]
    by_cases hin : s.total_read ≤ p ∧ p < s.total_read + bytesToRead s.bytes_left ∧
        p % mb.data_size = 0
    · have hcur : loadValue mb.data_size (nextRead rpm s).tempbuf (p - s.total_read) =
          currentValue rpm mb p := by
        unfold currentValue
        apply loadValue_congr hw
        intro i hi
        unfold readByte
        have h1 : (p + i) / TEMPBUF_SIZE = s.total_read / TEMPBUF_SIZE := by
          rw [hTS]; rcases hw with h1 | h1 | h1 <;> rw [h1] at hi hin hTw hnw <;> omega
        have h2 : (p + i) % TEMPBUF_SIZE = p - s.total_read + i := by
          rw [hTS]; rcases hw with h1 | h1 | h1 <;> rw [h1] at hi hin hTw hnw <;> omega
        rw [h1, h2, ← hnr]
      have hprev : loadValue mb.data_size s.mb.buffer p = previousValue mb p := by
        unfold previousValue
        apply loadValue_congr hw
        intro i _
        rw [hb.buffer (p + i), if_neg (by omega)]
      have hlt : ¬ (p < s.total_read ∧ p % mb.data_size = 0) := by omega
      have hlt2 : p < s.total_read + bytesToRead s.bytes_left ∧ p % mb.data_size = 0 :=
        ⟨hin.2.1, hin.2.2⟩
      rw [hcur, hprev, decide_eq_true hin, decide_eq_false hlt, decide_eq_true hlt2]
      cases IS_IN_SEARCH mb p <;>
        cases isMatch c v (currentValue rpm mb p) (previousValue mb p) <;> rfl
    · by_cases hlt : p < s.total_read ∧ p % mb.data_size = 0
      · have hlt2 : p < s.total_read + bytesToRead s.bytes_left ∧ p % mb.data_size = 0 :=
          ⟨by omega, hlt.2⟩
        rw [decide_eq_false hin, decide_eq_true hlt, decide_eq_true hlt2]
        cases IS_IN_SEARCH mb p <;>
          cases isMatch c v (currentValue rpm mb p) (previousValue mb p) <;> rfl
      · have hlt2 : ¬ (p < s.total_read + bytesToRead s.bytes_left ∧ p % mb.data_size = 0) := by
          omega
        rw [decide_eq_false hin, decide_eq_false hlt, decide_eq_false hlt2]
        cases IS_IN_SEARCH mb p <;>
          cases isMatch c v (currentValue rpm mb p) (previousValue mb p) <;> rfl
  · rw [f7]
    have hcnt := scanChunk_count c v (nextRead rpm s).tempbuf s.total_read
      (bytesToRead s.bytes_left) mb.data_size hw s.mb hds hTw hnw (by omega) h.count
    rw [hmb]
    show (scanChunk c v _ s.total_read _ _ 0 s.mb).num_matches = _
    rw [hcnt]
    congr 1

theorem scanRound_cond (rpm : RemoteRead) (mb : MEMBLOCK) {c : SEARCH_CONDITION} (v : Nat)
    (hc : c ≠ .COND_UNCONDITIONAL)
    (hw : mb.data_size = 1 ∨ mb.data_size = 2 ∨ mb.data_size = 4)
    (hS : toUInt32 mb.size % mb.data_size = 0) (hS31 : toUInt32 mb.size < 2 ^ 31) :
    CondPost rpm mb c v (scanRound rpm mb c v) := by
  unfold scanRound
  refine readLoop_induct rpm c v (CondInv rpm mb c v) (CondPost rpm mb c v) ?_ ?_ ?_ _ _
    (Nat.le_refl _) ⟨BaseInv.init rpm mb, ?_, ?_⟩
  · intro s hI h0; exact ⟨hI.base.done h0, hI.flag, hI.count⟩
  · intro s hI h0 hr; exact ⟨hI.base.short h0 hr, hI.flag, hI.count⟩
  · intro s hI h0 hr; exact hI.cond_step hc hw hS hS31 h0 hr
  · intro p
    have : decide (p < 0 ∧ p % mb.data_size = 0) = false := decide_eq_false (by omega)
    show IS_IN_SEARCH mb p = _
    rw [this]; simp
  · simp

theorem applyChunk_mb_uncond (v : Nat) (tb : Nat → Nat) (n : Nat) (s : ScanState) :
    (applyChunk .COND_UNCONDITIONAL v tb n s).mb =
      { s.mb with
        searchmask := memset s.mb.searchmask (s.total_read / 8) 0xFF (n / 8)
        num_matches := toInt32 (s.mb.num_matches + n)
        buffer := memcpy s.mb.buffer s.total_read tb n } := by
  simp [applyChunk]

theorem UncondInv.uncond_step {rpm : RemoteRead} {mb : MEMBLOCK} {v : Nat} {s : ScanState}
    (hS : toUInt32 mb.size % 8 = 0) (hS31 : toUInt32 mb.size < 2 ^ 31)
    (h : UncondInv rpm mb s) (h0 : s.bytes_left ≠ 0)
    (hr : (nextRead rpm s).bytes_read = bytesToRead s.bytes_left) :
    UncondInv rpm mb
      (applyChunk .COND_UNCONDITIONAL v (nextRead rpm s).tempbuf (bytesToRead s.bytes_left)
        (logRead s)) := by
  have hb := h.base
  have hb' := hb.base_step .COND_UNCONDITIONAL v h0 hr
  obtain ⟨-, -, hT⟩ := hb.nextRead_eq h0
  have hfr := applyChunk_frame .COND_UNCONDITIONAL v (nextRead rpm s).tempbuf
    (bytesToRead s.bytes_left) (logRead s)
  simp only [logRead_mb, logRead_total_read, logRead_bytes_left] at hfr
  obtain ⟨-, -, -, -, -, -, f7, -⟩ := hfr
  have hmb := applyChunk_mb_uncond v (nextRead rpm s).tempbuf (bytesToRead s.bytes_left)
    (logRead s)
  simp only [logRead_mb, logRead_total_read] at hmb
  have hle := bytesToRead_le s.bytes_left
  have hsum := hb.sum
  have hTS : TEMPBUF_SIZE = 131072 := by norm_num [TEMPBUF_SIZE]
  rw [hTS] at hT
  have hn8 : bytesToRead s.bytes_left % 8 = 0 := by
    unfold bytesToRead
    split_ifs
    · rw [hTS]
    · omega
  constructor
  · exact hb'
  · intro p
    rw [hmb, f7]
    have := IS_IN_SEARCH_memset s.mb (s.total_read / 8) (bytesToRead s.bytes_left / 8) p
    show IS_IN_SEARCH { s.mb with
      searchmask := memset s.mb.searchmask (s.total_read / 8) 0xFF
        (bytesToRead s.bytes_left / 8) } p = _
    rw [this, h.flag p]
    by_cases h1 : p < s.total_read
    · have h2 : p < s.total_read + bytesToRead s.bytes_left := by omega
      simp [h1, h2]
    · by_cases h2 : p < s.total_read + bytesToRead s.bytes_left
      · have h3 : s.total_read / 8 ≤ p / 8 ∧
            p / 8 < s.total_read / 8 + bytesToRead s.bytes_left / 8 := by omega
        simp [h2, h3]
      · have h3 : ¬ (s.total_read / 8 ≤ p / 8 ∧
            p / 8 < s.total_read / 8 + bytesToRead s.bytes_left / 8) := by omega
        simp [h1, h2, h3]
  · rw [hmb, f7]
    show toInt32 (s.mb.num_matches + bytesToRead s.bytes_left) = _
    rw [h.count, toInt32_of_range (by omega) (by omega)]
    push_cast; rfl

theorem scanRound_uncond (rpm : RemoteRead) (mb : MEMBLOCK) (v : Nat)
    (hS : toUInt32 mb.size % 8 = 0) (hS31 : toUInt32 mb.size < 2 ^ 31) :
    UncondPost rpm mb (scanRound rpm mb .COND_UNCONDITIONAL v) := by
  unfold scanRound
  refine readLoop_induct rpm .COND_UNCONDITIONAL v (UncondInv rpm mb) (UncondPost rpm mb)
    ?_ ?_ ?_ _ _ (Nat.le_refl _) ⟨BaseInv.init rpm mb, ?_, ?_⟩
  · intro s hI h0; exact ⟨hI.base.done h0, hI.flag, hI.count⟩
  · intro s hI h0 hr; exact ⟨hI.base.short h0 hr, hI.flag, hI.count⟩
  · intro s hI h0 hr; exact hI.uncond_step hS hS31 h0 hr
  · intro p
    show IS_IN_SEARCH mb p = _
    simp
  · simp

/-! ## One round of `update_memblock` -/

theorem update_memblock_skip (rpm : RemoteRead) (mb : MEMBLOCK) (c : SEARCH_CONDITION) (v : Nat)
    (h : mb.num_matches = 0) : update_memblock rpm mb c v = mb := by
  simp [update_memblock, h]

theorem update_memblock_run (rpm : RemoteRead) (mb : MEMBLOCK) (c : SEARCH_CONDITION) (v : Nat)
    (h : mb.num_matches ≠ 0) :
    update_memblock rpm mb c v =
      { (scanRound rpm mb c v).mb with size := toInt32 (scanRound rpm mb c v).total_read } := by
  simp [update_memblock, h]

theorem IS_IN_SEARCH_with_size (m : MEMBLOCK) (z : Int) (p : Nat) :
    IS_IN_SEARCH { m with size := z } p = IS_IN_SEARCH m p := rfl

theorem isCandidate_with_size (m : MEMBLOCK) (z : Int) (k : Nat) :
    isCandidate { m with size := z } k ↔ isCandidate m k := Iff.rfl

theorem count_with_size (m : MEMBLOCK) (z : Int) (n : Nat) :
    Nat.count (isCandidate { m with size := z }) n = Nat.count (isCandidate m) n :=
  count_congr_below n (fun k _ => isCandidate_with_size m z k)

theorem num_matches_with_size (m : MEMBLOCK) (z : Int) :
    ({ m with size := z } : MEMBLOCK).num_matches = m.num_matches := rfl

theorem toUInt32_size {mb : MEMBLOCK} (h0 : 0 ≤ mb.size) (h31 : mb.size < 2 ^ 31) :
    toUInt32 mb.size = mb.size.toNat ∧ toUInt32 mb.size < 2 ^ 31 := by
  rw [toUInt32_of_range h0 (by omega)]
  exact ⟨rfl, by omega⟩

theorem update_memblock_result (rpm : RemoteRead) (mb : MEMBLOCK) (c : SEARCH_CONDITION)
    (v : Nat) (hm : mb.num_matches ≠ 0) (h0 : 0 ≤ mb.size) (h31 : mb.size < 2 ^ 31) :
    RoundResult rpm mb (update_memblock rpm mb c v) (scanRound rpm mb c v).total_read := by
  have hb := scanRound_base rpm mb c v
  obtain ⟨hS, hS31⟩ := toUInt32_size h0 h31
  have hle := hb.le
  rw [update_memblock_run rpm mb c v hm]
  exact
    { size_eq := by
        show toInt32 _ = _
        rw [toInt32_of_range (by omega) (by omega)]
      le := by omega
      stop := by rw [← hS]; exact hb.stop
      complete := hb.complete
      addr := hb.addr
      hProc := hb.hProc
      data_size := hb.data_size
      buffer := hb.buffer }

/-- With every chunk read complete, the round consumes the whole region. -/
theorem RoundResult.full {rpm : RemoteRead} {mb mb' : MEMBLOCK} {R : Nat}
    (h : RoundResult rpm mb mb' R) (h0 : 0 ≤ mb.size) (h31 : mb.size < 2 ^ 31)
    (hfull : allComplete rpm mb) : R = mb.size.toNat := by
  rcases h.stop with h1 | ⟨h1, h2, h3⟩
  · exact h1
  · exfalso
    apply h3
    apply hfull
    rw [(toUInt32_size h0 h31).1, Nat.div_mul_cancel (Nat.dvd_of_mod_eq_zero h1)]
    exact h2

/-- Result of a round with a condition other than `COND_UNCONDITIONAL`, short
reads included: the flags at element positions below the new size are
filtered by the condition, all other flags are unchanged, and the match count
is the number of candidates below the new size. -/
theorem update_memblock_cond (rpm : RemoteRead) (mb : MEMBLOCK) {c : SEARCH_CONDITION}
    (v : Nat) (hm : mb.num_matches ≠ 0) (hc : c ≠ .COND_UNCONDITIONAL)
    (hw : mb.data_size = 1 ∨ mb.data_size = 2 ∨ mb.data_size = 4)
    (h0 : 0 ≤ mb.size) (h31 : mb.size < 2 ^ 31) (h8 : mb.size % 8 = 0) :
    (∀ p, IS_IN_SEARCH (update_memblock rpm mb c v) p =
      (IS_IN_SEARCH mb p &&
        !(decide (p < (scanRound rpm mb c v).total_read ∧ p % mb.data_size = 0) &&
          !isMatch c v (currentValue rpm mb p) (previousValue mb p)))) ∧
    (update_memblock rpm mb c v).num_matches = (candidateCount (update_memblock rpm mb c v) : Nat) := by
  obtain ⟨hS, hS31⟩ := toUInt32_size h0 h31
  have hSw : toUInt32 mb.size % mb.data_size = 0 := by
    rw [hS]; rcases hw with h | h | h <;> rw [h] <;> omega
  have hp := scanRound_cond rpm mb v hc hw hSw hS31
  have hres := update_memblock_result rpm mb c v hm h0 h31
  have hle := hres.le
  constructor
  · intro p
    rw [update_memblock_run rpm mb c v hm, IS_IN_SEARCH_with_size]
    exact hp.flag p
  · unfold candidateCount
    rw [hres.size_eq, Int.toNat_natCast]
    rw [update_memblock_run rpm mb c v hm, num_matches_with_size]
    rw [hp.count]
    exact congrArg Nat.cast (count_with_size (scanRound rpm mb c v).mb _ _).symm

/-- Result of a `COND_UNCONDITIONAL` round, short reads included: every flag
below the new size is set, all other flags are unchanged, and the match count
is the number of bytes consumed. -/
theorem update_memblock_uncond (rpm : RemoteRead) (mb : MEMBLOCK) (v : Nat)
    (hm : mb.num_matches ≠ 0) (h0 : 0 ≤ mb.size) (h31 : mb.size < 2 ^ 31)
    (h8 : mb.size % 8 = 0) :
    (∀ p, IS_IN_SEARCH (update_memblock rpm mb .COND_UNCONDITIONAL v) p =
      (decide (p < (scanRound rpm mb .COND_UNCONDITIONAL v).total_read) || IS_IN_SEARCH mb p)) ∧
    (update_memblock rpm mb .COND_UNCONDITIONAL v).num_matches =
      ((scanRound rpm mb .COND_UNCONDITIONAL v).total_read : Nat) := by
  obtain ⟨hS, hS31⟩ := toUInt32_size h0 h31
  have hS8 : toUInt32 mb.size % 8 = 0 := by rw [hS]; omega
  have hp := scanRound_uncond rpm mb v hS8 hS31
  constructor
  · intro p
    rw [update_memblock_run rpm mb _ v hm, IS_IN_SEARCH_with_size]
    exact hp.flag p
  · rw [update_memblock_run rpm mb _ v hm, num_matches_with_size]
    exact hp.count

/-- A round with a condition other than `COND_UNCONDITIONAL` in which every
chunk read is complete: size, flags, match count and buffer afterwards. -/
theorem full_round_cond (rpm : RemoteRead) (mb : MEMBLOCK) {c : SEARCH_CONDITION}
    (v : Nat) (hm : mb.num_matches ≠ 0) (hc : c ≠ .COND_UNCONDITIONAL)
    (hw : mb.data_size = 1 ∨ mb.data_size = 2 ∨ mb.data_size = 4)
    (h0 : 0 ≤ mb.size) (h31 : mb.size < 2 ^ 31) (h8 : mb.size % 8 = 0)
    (hfull : allComplete rpm mb) :
    (update_memblock rpm mb c v).size = mb.size ∧
    (∀ p, IS_IN_SEARCH (update_memblock rpm mb c v) p =
      (IS_IN_SEARCH mb p &&
        !(decide (p < mb.size.toNat ∧ p % mb.data_size = 0) &&
          !isMatch c v (currentValue rpm mb p) (previousValue mb p)))) ∧
    (update_memblock rpm mb c v).num_matches =
      (Nat.count (fun o => o % mb.data_size = 0 ∧ IS_IN_SEARCH mb o = true ∧
        isMatch c v (currentValue rpm mb o) (previousValue mb o) = true) mb.size.toNat : Nat) ∧
    (∀ i, (update_memblock rpm mb c v).buffer i =
      if i < mb.size.toNat then readByte rpm mb i else mb.buffer i) := by
  have hres := update_memblock_result rpm mb c v hm h0 h31
  have hR := hres.full h0 h31 hfull
  obtain ⟨hflag, hcount⟩ := update_memblock_cond rpm mb v hm hc hw h0 h31 h8
  rw [hR] at hflag
  have hsize : (update_memblock rpm mb c v).size = mb.size := by
    rw [hres.size_eq, hR]; omega
  refine ⟨hsize, hflag, ?_, ?_⟩
  · rw [hcount]
    unfold candidateCount
    rw [hsize]
    congr 1
    apply count_congr_below
    intro k hk
    unfold isCandidate
    rw [hres.data_size, hflag k]
    constructor
    · rintro ⟨h1, h2⟩
      have hd : decide (k < mb.size.toNat ∧ k % mb.data_size = 0) = true :=
        decide_eq_true ⟨hk, h1⟩
      rw [hd] at h2
      simp at h2
      exact ⟨h1, h2.1, h2.2⟩
    · rintro ⟨h1, h2, h3⟩
      exact ⟨h1, by simp [h2, h3]⟩
  · intro i
    have := hres.buffer i
    rw [hR] at this
    exact this

/-! ## The decode of an element -/

/-- For the widths 1, 2 and 4 the data-size `switch` decodes the unsigned
little-endian integer of the `w` bytes at `off`. -/
theorem loadValue_eq_littleEndian {w : Nat} (hw : w = 1 ∨ w = 2 ∨ w = 4)
    (mem : Nat → Nat) (off : Nat) : loadValue w mem off = littleEndian w mem off := by
  rcases hw with h | h | h
  · subst h
    simp [loadValue, littleEndian, List.range_succ]
  · subst h
    simp [loadValue, littleEndian, List.range_succ]
    ring
  · subst h
    simp [loadValue, littleEndian, List.range_succ]
    ring

/-- The element that a round compares at `o` is the little-endian integer of
the bytes just read at `o`. -/
theorem currentValue_eq_littleEndian (rpm : RemoteRead) (mb : MEMBLOCK)
    (hw : mb.data_size = 1 ∨ mb.data_size = 2 ∨ mb.data_size = 4) (o : Nat) :
    currentValue rpm mb o = littleEndian mb.data_size (readByte rpm mb) o :=
  loadValue_eq_littleEndian hw _ _

/-- The previous element at `o` is the little-endian integer of the bytes of
the buffer at `o`. -/
theorem previousValue_eq_littleEndian (mb : MEMBLOCK)
    (hw : mb.data_size = 1 ∨ mb.data_size = 2 ∨ mb.data_size = 4) (o : Nat) :
    previousValue mb o = littleEndian mb.data_size mb.buffer o :=
  loadValue_eq_littleEndian hw _ _

/-- A little-endian integer of `w` bytes, each below 256, is below `256 ^ w`:
it is an unsigned `w`-byte integer. -/
theorem littleEndian_lt (w : Nat) (mem : Nat → Nat) (off : Nat)
    (hb : ∀ i, i < w → mem (off + i) < 256) : littleEndian w mem off < 256 ^ w := by
  unfold littleEndian
  induction w with
  | zero => simp
  | succ w ih =>
    rw [List.range_succ, List.map_append, List.sum_append]
    have h1 := ih (fun i hi => hb i (by omega))
    have h2 := hb w (by omega)
    simp only [List.map_cons, List.map_nil, List.sum_cons, List.sum_nil, Nat.add_zero]
    have h3 : mem (off + w) * 256 ^ w ≤ 255 * 256 ^ w := Nat.mul_le_mul_right _ (by omega)
    rw [pow_succ]
    omega

/-! ## Claims -/

/-- C1: in a round with `COND_EQUALS` and target `t` on a snapshot with a
match count above 0, element width `w` of 1, 2 or 4 and a length that is a
multiple of 8, when every chunk read is complete, the size is unchanged; the
flag at every element position `o` below the size is set afterwards exactly
when it was set before and the `w` bytes just read at `o`, decoded as an
unsigned little-endian integer, equal `t`; the match count afterwards is the
number of such positions; and flags, match count, size and the buffer below
the size are the same for any other prior buffer contents. -/
theorem update_memblock_equals_spec (rpm : RemoteRead) (mb : MEMBLOCK) (t : Nat)
    (hm : 0 < mb.num_matches)
    (hw : mb.data_size = 1 ∨ mb.data_size = 2 ∨ mb.data_size = 4)
    (h0 : 0 ≤ mb.size) (h31 : mb.size < 2 ^ 31) (h8 : mb.size % 8 = 0)
    (hfull : allComplete rpm mb) :
    (update_memblock rpm mb .COND_EQUALS t).size = mb.size ∧
    (∀ o : Nat, o % mb.data_size = 0 → (o : Int) < mb.size →
      (IS_IN_SEARCH (update_memblock rpm mb .COND_EQUALS t) o = true ↔
        IS_IN_SEARCH mb o = true ∧ littleEndian mb.data_size (readByte rpm mb) o = t)) ∧
    (update_memblock rpm mb .COND_EQUALS t).num_matches =
      (Nat.count (fun o => o % mb.data_size = 0 ∧ IS_IN_SEARCH mb o = true ∧
        littleEndian mb.data_size (readByte rpm mb) o = t) mb.size.toNat : Nat) ∧
    (∀ buffer2 : Nat → Nat,
      (∀ p, IS_IN_SEARCH (update_memblock rpm { mb with buffer := buffer2 } .COND_EQUALS t) p =
        IS_IN_SEARCH (update_memblock rpm mb .COND_EQUALS t) p) ∧
      (update_memblock rpm { mb with buffer := buffer2 } .COND_EQUALS t).num_matches =
        (update_memblock rpm mb .COND_EQUALS t).num_matches ∧
      (update_memblock rpm { mb with buffer := buffer2 } .COND_EQUALS t).size =
        (update_memblock rpm mb .COND_EQUALS t).size ∧
      (∀ i : Nat, (i : Int) < mb.size →
        (update_memblock rpm { mb with buffer := buffer2 } .COND_EQUALS t).buffer i =
          (update_memblock rpm mb .COND_EQUALS t).buffer i)) := by
  have hne : mb.num_matches ≠ 0 := by omega
  have hc : SEARCH_CONDITION.COND_EQUALS ≠ .COND_UNCONDITIONAL := by decide
  obtain ⟨hsize, hflag, hcount, hbuf⟩ :=
    full_round_cond rpm mb t hne hc hw h0 h31 h8 hfull
  refine ⟨hsize, ?_, ?_, ?_⟩
  · intro o ho hlt
    have hd : decide (o < mb.size.toNat ∧ o % mb.data_size = 0) = true :=
      decide_eq_true ⟨by omega, ho⟩
    rw [hflag o, hd, ← currentValue_eq_littleEndian rpm mb hw o]
    simp [isMatch]
  · rw [hcount]
    congr 1
    apply count_congr_below
    intro k _
    rw [← currentValue_eq_littleEndian rpm mb hw k]
    simp [isMatch]
  · intro buffer2
    obtain ⟨hsize2, hflag2, hcount2, hbuf2⟩ :=
      full_round_cond rpm { mb with buffer := buffer2 } t hne hc hw h0 h31 h8 hfull
    refine ⟨?_, ?_, ?_, ?_⟩
    · intro p
      rw [hflag2 p, hflag p]
      rfl
    · rw [hcount2, hcount]
      rfl
    · rw [hsize2, hsize]
    · intro i hi
      rw [hbuf2 i, hbuf i]
      have hi2 : i < mb.size.toNat := by omega
      have hi3 : i < ({ mb with buffer := buffer2 } : MEMBLOCK).size.toNat := hi2
      rw [if_pos hi3, if_pos hi2]
      rfl

/-- Witness of C1: an 8-byte region of two 4-byte elements, all flags set,
read as the bytes `01 02 00 00` and `02 00 00 00`, that is the values 513 and
2, filtered with `COND_EQUALS 513`: the element at 0 stays, the element at 4
goes, one match is counted. -/
theorem update_memblock_equals_spec_witness :
    (0 < (blockExample 4).num_matches ∧ (blockExample 4).size % 8 = 0 ∧
      littleEndian 4 (readByte (readExample [1, 2, 0, 0, 2, 0, 0, 0]) (blockExample 4)) 0 = 513 ∧
      littleEndian 4 (readByte (readExample [1, 2, 0, 0, 2, 0, 0, 0]) (blockExample 4)) 4 = 2) ∧
    IS_IN_SEARCH (update_memblock (readExample [1, 2, 0, 0, 2, 0, 0, 0]) (blockExample 4)
      .COND_EQUALS 513) 0 = true ∧
    IS_IN_SEARCH (update_memblock (readExample [1, 2, 0, 0, 2, 0, 0, 0]) (blockExample 4)
      .COND_EQUALS 513) 4 = false ∧
    (update_memblock (readExample [1, 2, 0, 0, 2, 0, 0, 0]) (blockExample 4)
      .COND_EQUALS 513).num_matches = 1 :=
  have h := update_memblock_equals_spec (readExample [1, 2, 0, 0, 2, 0, 0, 0]) (blockExample 4)
    513 (by decide) (by decide) (by decide) (by decide) (by decide) (fun _ _ => rfl)
  ⟨⟨by decide, by decide, by decide, by decide⟩,
    (h.2.1 0 (by decide) (by decide)).mpr ⟨by decide, by decide⟩,
    Bool.eq_false_iff.mpr (fun h4 =>
      absurd ((h.2.1 4 (by decide) (by decide)).mp h4).2 (by decide)),
    h.2.2.1.trans (by decide)⟩

/-- C2: in a round on a snapshot with a match count above 0, element width
`w` of 1, 2 or 4 and a length that is a multiple of 8, when every chunk read
is complete, `COND_INCREASED` keeps the flag at an element position `o` below
the size set exactly when it was set before and current(o) > previous(o), and
`COND_DECREASED` exactly when it was set before and current(o) < previous(o),
where current(o) is the unsigned little-endian integer of the `w` bytes just
read at `o` and previous(o) that of the `w` bytes of the buffer before the
round at `o`. -/
theorem update_memblock_increased_decreased_spec (rpm : RemoteRead) (mb : MEMBLOCK) (v : Nat)
    (hm : 0 < mb.num_matches)
    (hw : mb.data_size = 1 ∨ mb.data_size = 2 ∨ mb.data_size = 4)
    (h0 : 0 ≤ mb.size) (h31 : mb.size < 2 ^ 31) (h8 : mb.size % 8 = 0)
    (hfull : allComplete rpm mb) :
    (∀ o : Nat, o % mb.data_size = 0 → (o : Int) < mb.size →
      (IS_IN_SEARCH (update_memblock rpm mb .COND_INCREASED v) o = true ↔
        IS_IN_SEARCH mb o = true ∧
          littleEndian mb.data_size (readByte rpm mb) o >
            littleEndian mb.data_size mb.buffer o)) ∧
    (∀ o : Nat, o % mb.data_size = 0 → (o : Int) < mb.size →
      (IS_IN_SEARCH (update_memblock rpm mb .COND_DECREASED v) o = true ↔
        IS_IN_SEARCH mb o = true ∧
          littleEndian mb.data_size (readByte rpm mb) o <
            littleEndian mb.data_size mb.buffer o)) := by
  have hne : mb.num_matches ≠ 0 := by omega
  constructor
  · intro o ho hlt
    have hc : SEARCH_CONDITION.COND_INCREASED ≠ .COND_UNCONDITIONAL := by decide
    obtain ⟨-, hflag, -, -⟩ := full_round_cond rpm mb v hne hc hw h0 h31 h8 hfull
    have hd : decide (o < mb.size.toNat ∧ o % mb.data_size = 0) = true :=
      decide_eq_true ⟨by omega, ho⟩
    rw [hflag o, hd, ← currentValue_eq_littleEndian rpm mb hw o,
      ← previousValue_eq_littleEndian mb hw o]
    simp [isMatch]
  · intro o ho hlt
    have hc : SEARCH_CONDITION.COND_DECREASED ≠ .COND_UNCONDITIONAL := by decide
    obtain ⟨-, hflag, -, -⟩ := full_round_cond rpm mb v hne hc hw h0 h31 h8 hfull
    have hd : decide (o < mb.size.toNat ∧ o % mb.data_size = 0) = true :=
      decide_eq_true ⟨by omega, ho⟩
    rw [hflag o, hd, ← currentValue_eq_littleEndian rpm mb hw o,
      ← previousValue_eq_littleEndian mb hw o]
    simp [isMatch]

/-- Witness of C2: a candidate whose 32-bit value went from 10 to 20 survives
`COND_INCREASED` and is cleared by `COND_DECREASED`; a candidate whose 32-bit
value went from 256 (bytes `00 01 00 00`) to 255 (bytes `ff 00 00 00`), whose
lowest byte alone rose, survives `COND_DECREASED` and is cleared by
`COND_INCREASED`. -/
theorem update_memblock_increased_decreased_spec_witness :
    (0 < blockHolding10.num_matches ∧ blockHolding10.size % 8 = 0 ∧
      littleEndian 4 blockHolding10.buffer 0 = 10 ∧
      littleEndian 4 (readByte (readExample [20, 0, 0, 0, 0, 0, 0, 0]) blockHolding10) 0 = 20) ∧
    IS_IN_SEARCH (update_memblock (readExample [20, 0, 0, 0, 0, 0, 0, 0]) blockHolding10
      .COND_INCREASED 0) 0 = true ∧
    IS_IN_SEARCH (update_memblock (readExample [20, 0, 0, 0, 0, 0, 0, 0]) blockHolding10
      .COND_DECREASED 0) 0 = false ∧
    (0 < blockHolding256.num_matches ∧ blockHolding256.size % 8 = 0 ∧
      littleEndian 4 blockHolding256.buffer 0 = 256 ∧
      littleEndian 4 (readByte (readExample [255, 0, 0, 0, 0, 0, 0, 0]) blockHolding256) 0 =
        255) ∧
    IS_IN_SEARCH (update_memblock (readExample [255, 0, 0, 0, 0, 0, 0, 0]) blockHolding256
      .COND_DECREASED 0) 0 = true ∧
    IS_IN_SEARCH (update_memblock (readExample [255, 0, 0, 0, 0, 0, 0, 0]) blockHolding256
      .COND_INCREASED 0) 0 = false :=
  have h10 := update_memblock_increased_decreased_spec (readExample [20, 0, 0, 0, 0, 0, 0, 0])
    blockHolding10 0 (by decide) (by decide) (by decide) (by decide) (by decide)
    (fun _ _ => rfl)
  have h256 := update_memblock_increased_decreased_spec (readExample [255, 0, 0, 0, 0, 0, 0, 0])
    blockHolding256 0 (by decide) (by decide) (by decide) (by decide) (by decide)
    (fun _ _ => rfl)
  ⟨⟨by decide, by decide, by decide, by decide⟩,
    (h10.1 0 (by decide) (by decide)).mpr ⟨by decide, by decide⟩,
    Bool.eq_false_iff.mpr (fun h =>
      absurd ((h10.2 0 (by decide) (by decide)).mp h).2 (by decide)),
    ⟨by decide, by decide, by decide, by decide⟩,
    (h256.2 0 (by decide) (by decide)).mpr ⟨by decide, by decide⟩,
    Bool.eq_false_iff.mpr (fun h =>
      absurd ((h256.1 0 (by decide) (by decide)).mp h).2 (by decide))⟩

/-- C3 (fails on the code): the block that `create_memblock` makes of an
8-byte region with element width 4 is a reachable state whose match count is
8, the byte length, while 2 element positions below its size have their flag
set; the same holds again after a `COND_UNCONDITIONAL` round. -/
theorem match_count_not_candidate_count :
    Reachable 1 regionExample 4 (blockExample 4) ∧
    (blockExample 4).num_matches = 8 ∧
    candidateCount (blockExample 4) = 2 ∧
    Reachable 1 regionExample 4
      (update_memblock (readExample []) blockHolding10 .COND_UNCONDITIONAL 0) ∧
    (update_memblock (readExample []) blockHolding10 .COND_UNCONDITIONAL 0).num_matches = 8 ∧
    candidateCount (update_memblock (readExample []) blockHolding10 .COND_UNCONDITIONAL 0) = 2 :=
  ⟨Reachable.create _ _, by decide, by decide,
    Reachable.update _ _ _ (Reachable.update _ _ _ (Reachable.create _ _)),
    by decide, by decide⟩

/-- C6: a round on a snapshot whose match count is 0 issues no read and
returns the snapshot as it was (buffer, searchmask, size and match count
included), for every condition, target and remote process. -/
theorem update_memblock_exhausted (rpm : RemoteRead) (mb : MEMBLOCK) (c : SEARCH_CONDITION)
    (v : Nat) (hm : mb.num_matches = 0) :
    update_memblock rpm mb c v = mb ∧ update_memblock_reads rpm mb c v = [] := by
  simp [update_memblock, update_memblock_reads, hm]

/-- Witness of C6: an exhausted block is left as it was by a
`COND_UNCONDITIONAL` round. -/
theorem update_memblock_exhausted_witness :
    blockExhausted.num_matches = 0 ∧
    update_memblock (readExample [5, 0, 0, 0]) blockExhausted .COND_UNCONDITIONAL 0 =
      blockExhausted ∧
    update_memblock_reads (readExample [5, 0, 0, 0]) blockExhausted .COND_UNCONDITIONAL 0 = [] :=
  ⟨by decide,
    update_memblock_exhausted (readExample [5, 0, 0, 0]) blockExhausted .COND_UNCONDITIONAL 0
      (by decide)⟩

/-- C7 (fails on the code): for an 8-byte region and element width 4,
`create_memblock` sets the size to 8 and every flag below it, but the match
count to 8, the byte length, not to the 2 element positions `8 / 4`. -/
theorem create_memblock_counts_bytes :
    (blockExample 4).size = 8 ∧
    (∀ o, o < 8 → IS_IN_SEARCH (blockExample 4) o = true) ∧
    (blockExample 4).num_matches = 8 ∧
    (blockExample 4).num_matches ≠ ((regionExample.RegionSize / 4 : Nat) : Int) := by
  refine ⟨by decide, ?_, by decide, by decide⟩
  intro o ho
  interval_cases o <;> decide

/-- C8 (fails on the code): a `COND_UNCONDITIONAL` round with complete reads
on an 8-byte block of element width 4 that held one candidate sets every flag
below the size, but leaves the match count at 8, the byte length, not at the
2 elements `8 / 4`. -/
theorem unconditional_counts_bytes :
    blockHolding10.num_matches = 1 ∧
    (update_memblock (readExample []) blockHolding10 .COND_UNCONDITIONAL 0).size = 8 ∧
    (∀ o, o < 8 →
      IS_IN_SEARCH (update_memblock (readExample []) blockHolding10 .COND_UNCONDITIONAL 0) o
        = true) ∧
    (update_memblock (readExample []) blockHolding10 .COND_UNCONDITIONAL 0).num_matches = 8 ∧
    (update_memblock (readExample []) blockHolding10 .COND_UNCONDITIONAL 0).num_matches ≠
      (((8 : Nat) / 4 : Nat) : Int) := by
  refine ⟨by decide, by decide, ?_, by decide, by decide⟩
  intro o ho
  interval_cases o <;> decide

/-! ## Reachable states -/

theorem candidateCount_le (mb : MEMBLOCK) : candidateCount mb ≤ mb.size.toNat :=
  Nat.count_le _

theorem reachable_inv {hProc : Nat} {meminfo : MEMORY_BASIC_INFORMATION} {w : Nat}
    (hw : w = 1 ∨ w = 2 ∨ w = 4)
    (h8 : meminfo.RegionSize % 8 = 0) (h31 : meminfo.RegionSize < 2 ^ 31) {mb : MEMBLOCK}
    (hr : Reachable hProc meminfo w mb) : ReachInv hProc meminfo w mb := by
  induction hr with
  | create buffer0 mask0 =>
    have hsz : (create_memblock hProc meminfo w buffer0 mask0).size = meminfo.RegionSize := by
      show toInt32 _ = _
      rw [toInt32_of_range (by omega) (by omega)]
    have hnm : (create_memblock hProc meminfo w buffer0 mask0).num_matches =
        meminfo.RegionSize := by
      show toInt32 _ = _
      rw [toInt32_of_range (by omega) (by omega)]
    have hc := candidateCount_le (create_memblock hProc meminfo w buffer0 mask0)
    rw [hsz] at hc
    exact
      { size_nonneg := by rw [hsz]; omega
        size_le := by rw [hsz]
        size_mod := by rw [hsz]; omega
        data_size := rfl
        addr := rfl
        hProc := rfl
        count_le := by rw [hnm]; simp at hc; omega
        matches_le := by rw [hnm, hsz] }
  | @update mb rpm c v _ ih =>
    by_cases hm : mb.num_matches = 0
    · rw [update_memblock_skip rpm mb c v hm]; exact ih
    · have h0 := ih.size_nonneg
      have hlt : mb.size < 2 ^ 31 := by have := ih.size_le; omega
      have hres := update_memblock_result rpm mb c v hm h0 hlt
      have hle := hres.le
      have hTS : TEMPBUF_SIZE = 131072 := by norm_num [TEMPBUF_SIZE]
      have hR8 : (scanRound rpm mb c v).total_read % 8 = 0 := by
        have := ih.size_mod
        rcases hres.stop with h1 | ⟨h1, -, -⟩
        · omega
        · rw [hTS] at h1; omega
      have hcc := candidateCount_le (update_memblock rpm mb c v)
      rw [hres.size_eq, Int.toNat_natCast] at hcc
      have hnum : (candidateCount (update_memblock rpm mb c v) : Int) ≤
            (update_memblock rpm mb c v).num_matches ∧
          (update_memblock rpm mb c v).num_matches ≤ (scanRound rpm mb c v).total_read := by
        by_cases hc : c = .COND_UNCONDITIONAL
        · subst hc
          have := (update_memblock_uncond rpm mb v hm h0 hlt ih.size_mod).2
          rw [this]; omega
        · have hw2 : mb.data_size = 1 ∨ mb.data_size = 2 ∨ mb.data_size = 4 := by
            rw [ih.data_size]; exact hw
          have := (update_memblock_cond rpm mb v hm hc hw2 h0 hlt ih.size_mod).2
          rw [this]; omega
      exact
        { size_nonneg := by rw [hres.size_eq]; omega
          size_le := by rw [hres.size_eq]; have := ih.size_le; omega
          size_mod := by rw [hres.size_eq]; omega
          data_size := by rw [hres.data_size]; exact ih.data_size
          addr := by rw [hres.addr]; exact ih.addr
          hProc := by rw [hres.hProc]; exact ih.hProc
          count_le := hnum.1
          matches_le := by rw [hres.size_eq]; exact hnum.2 }

/-- C4: monotonic narrowing.  For every state reached from `create_memblock`
(on a region whose size is a multiple of 8 and fits the `int` field, element
width 1, 2 or 4) by `update_memblock` rounds, a round with `COND_EQUALS`,
`COND_INCREASED` or `COND_DECREASED`, any target and any read results, short
reads included, leaves a match count that is at most the match count before. -/
theorem matches_monotone (hProc : Nat) (meminfo : MEMORY_BASIC_INFORMATION) (w : Nat)
    (hw : w = 1 ∨ w = 2 ∨ w = 4)
    (h8 : meminfo.RegionSize % 8 = 0) (h31 : meminfo.RegionSize < 2 ^ 31)
    (mb : MEMBLOCK) (hr : Reachable hProc meminfo w mb)
    (rpm : RemoteRead) (c : SEARCH_CONDITION) (v : Nat)
    (hc : c = .COND_EQUALS ∨ c = .COND_INCREASED ∨ c = .COND_DECREASED) :
    (update_memblock rpm mb c v).num_matches ≤ mb.num_matches := by
  have inv := reachable_inv hw h8 h31 hr
  by_cases hm : mb.num_matches = 0
  · rw [update_memblock_skip rpm mb c v hm]
  · have hcu : c ≠ .COND_UNCONDITIONAL := by
      rcases hc with h | h | h <;> rw [h] <;> decide
    have h0 := inv.size_nonneg
    have hlt : mb.size < 2 ^ 31 := by have := inv.size_le; omega
    have hw2 : mb.data_size = 1 ∨ mb.data_size = 2 ∨ mb.data_size = 4 := by
      rw [inv.data_size]; exact hw
    obtain ⟨hflag, hcount⟩ := update_memblock_cond rpm mb v hm hcu hw2 h0 hlt inv.size_mod
    have hres := update_memblock_result rpm mb c v hm h0 hlt
    have h1 : candidateCount (update_memblock rpm mb c v) ≤ candidateCount mb := by
      unfold candidateCount
      rw [hres.size_eq, Int.toNat_natCast]
      calc Nat.count (isCandidate (update_memblock rpm mb c v)) (scanRound rpm mb c v).total_read
          ≤ Nat.count (isCandidate mb) (scanRound rpm mb c v).total_read := by
            apply Nat.count_mono_left
            intro k hk
            refine ⟨?_, ?_⟩
            · have := hk.1; rw [hres.data_size] at this; exact this
            · have := hk.2
              rw [hflag k] at this
              simp at this
              exact this.1
        _ ≤ Nat.count (isCandidate mb) mb.size.toNat := Nat.count_monotone _ hres.le
    have h2 := inv.count_le
    rw [hcount]
    omega

/-- Witness of C4: the reachable block holding one candidate of value 10,
narrowed by `COND_INCREASED` on a read of 20. -/
theorem matches_monotone_witness :
    Reachable 1 regionExample 4 blockHolding10 ∧
    (update_memblock (readExample [20, 0, 0, 0]) blockHolding10 .COND_INCREASED 0).num_matches ≤
      blockHolding10.num_matches :=
  ⟨Reachable.update _ _ _ (Reachable.create _ _),
    matches_monotone 1 regionExample 4 (by decide) (by decide) (by decide) blockHolding10
      (Reachable.update _ _ _ (Reachable.create _ _)) (readExample [20, 0, 0, 0])
      .COND_INCREASED 0 (by decide)⟩

/-! ## Short reads -/

theorem scanChunk_flag_above (c : SEARCH_CONDITION) (v : Nat) (tb : Nat → Nat) (T n p : Nat)
    (hp : T + n ≤ p) :
    ∀ fuel off mb, IS_IN_SEARCH (scanChunk c v tb T n fuel off mb) p = IS_IN_SEARCH mb p := by
  intro fuel
  induction fuel with
  | zero => intro off mb; simp [scanChunk]
  | succ fuel ih =>
    intro off mb
    unfold scanChunk
    split_ifs with h
    · rw [ih, checkElement_flag]
      have : p ≠ T + off := by omega
      simp [this]
    · rfl

/-- The flags at or above the end of a chunk are not changed by the filter
and copy step, for every condition. -/
theorem applyChunk_flag_above (c : SEARCH_CONDITION) (v : Nat) (tb : Nat → Nat) (n : Nat)
    (s : ScanState) (p : Nat) (hp : s.total_read + n ≤ p) :
    IS_IN_SEARCH (applyChunk c v tb n s).mb p = IS_IN_SEARCH s.mb p := by
  by_cases hc : c = .COND_UNCONDITIONAL
  · subst hc
    rw [applyChunk_mb_uncond]
    have := IS_IN_SEARCH_memset s.mb (s.total_read / 8) (n / 8) p
    show IS_IN_SEARCH { s.mb with
      searchmask := memset s.mb.searchmask (s.total_read / 8) 0xFF (n / 8) } p = _
    rw [this]
    have h3 : ¬ (s.total_read / 8 ≤ p / 8 ∧ p / 8 < s.total_read / 8 + n / 8) := by omega
    simp [h3]
  · rw [applyChunk_mb_cond hc, IS_IN_SEARCH_with_buffer]
    exact scanChunk_flag_above c v tb s.total_read n p hp n 0 s.mb

/-- After a round, for every condition, the flags at or above the number of
bytes consumed are unchanged. -/
theorem scanRound_flag_above (rpm : RemoteRead) (mb : MEMBLOCK) (c : SEARCH_CONDITION)
    (v : Nat) :
    ∀ p, (scanRound rpm mb c v).total_read ≤ p →
      IS_IN_SEARCH (scanRound rpm mb c v).mb p = IS_IN_SEARCH mb p := by
  unfold scanRound
  refine readLoop_induct rpm c v
    (fun s => ∀ p, s.total_read ≤ p → IS_IN_SEARCH s.mb p = IS_IN_SEARCH mb p)
    (fun s => ∀ p, s.total_read ≤ p → IS_IN_SEARCH s.mb p = IS_IN_SEARCH mb p)
    ?_ ?_ ?_ _ _ (Nat.le_refl _) ?_
  · intro s hI _; exact hI
  · intro s hI _ _; exact hI
  · intro s hI _ _ p hp
    have hfr := applyChunk_frame c v (nextRead rpm s).tempbuf (bytesToRead s.bytes_left)
      (logRead s)
    simp only [logRead_mb, logRead_total_read, logRead_bytes_left] at hfr
    rw [hfr.2.2.2.2.2.2.1] at hp
    have := applyChunk_flag_above c v (nextRead rpm s).tempbuf (bytesToRead s.bytes_left)
      (logRead s) p (by simpa using hp)
    rw [this]
    exact hI p (by omega)
  · intro p _; rfl

/-- Two remote processes that deliver the same complete chunks before chunk
`k` and both a short read at chunk `k` give the same run of the chunk loop. -/
theorem readLoop_agree (rpm rpm' : RemoteRead) (mb : MEMBLOCK) (c : SEARCH_CONDITION) (v : Nat)
    (k : Nat) (hagree : ∀ j, j < k → chunkRead rpm' mb j = chunkRead rpm mb j)
    (hcomp : ∀ j, j < k → chunkComplete rpm mb j)
    (hshort : ¬ chunkComplete rpm mb k) (hshort' : ¬ chunkComplete rpm' mb k) :
    ∀ fuel s, BaseInv rpm mb s → BaseInv rpm' mb s → s.total_read ≤ k * TEMPBUF_SIZE →
      readLoop rpm' c v fuel s = readLoop rpm c v fuel s := by
  intro fuel
  induction fuel with
  | zero => intro s _ _ _; rfl
  | succ fuel ih =>
    intro s hb hb' hle
    rw [readLoop_succ, readLoop_succ]
    by_cases h0 : s.bytes_left = 0
    · rw [if_pos h0, if_pos h0]
    · rw [if_neg h0, if_neg h0]
      obtain ⟨hnr, hbt, hT⟩ := hb.nextRead_eq h0
      obtain ⟨hnr', -, -⟩ := hb'.nextRead_eq h0
      have hTS : TEMPBUF_SIZE = 131072 := by norm_num [TEMPBUF_SIZE]
      have hn2 := bytesToRead_le_size s.bytes_left
      by_cases hj : s.total_read / TEMPBUF_SIZE < k
      · have heq : nextRead rpm' s = nextRead rpm s := by
          rw [hnr, hnr', hagree _ hj]
        have hr : (nextRead rpm s).bytes_read = bytesToRead s.bytes_left := by
          have := hcomp _ hj
          unfold chunkComplete at this
          rw [hnr, hbt]; exact this
        have hr' : (nextRead rpm' s).bytes_read = bytesToRead s.bytes_left := by
          rw [heq]; exact hr
        rw [if_neg (by simpa using hr'), if_neg (by simpa using hr), heq]
        have hstep := hb.base_step c v h0 hr
        have hstep' := hb'.base_step c v h0 hr'
        rw [heq] at hstep'
        rw [hr]
        apply ih _ hstep hstep'
        have hfr := applyChunk_frame c v (nextRead rpm s).tempbuf (bytesToRead s.bytes_left)
          (logRead s)
        simp only [logRead_mb, logRead_total_read, logRead_bytes_left] at hfr
        rw [hfr.2.2.2.2.2.2.1]
        rw [hTS] at hT hj hn2 ⊢
        omega
      · have hjk : s.total_read / TEMPBUF_SIZE = k := by
          rw [hTS] at hT hj hle ⊢
          omega
        have hr : (nextRead rpm s).bytes_read ≠ bytesToRead s.bytes_left := by
          intro h
          apply hshort
          unfold chunkComplete
          rw [← hjk, ← hnr, ← hbt]; exact h
        have hr' : (nextRead rpm' s).bytes_read ≠ bytesToRead s.bytes_left := by
          intro h
          apply hshort'
          unfold chunkComplete
          rw [← hjk, ← hnr', ← hbt]; exact h
        rw [if_pos hr', if_pos hr]

/-- In a round whose first short read is at chunk `k`, the number of bytes
consumed is `k * TEMPBUF_SIZE`. -/
theorem basePost_first_short {rpm : RemoteRead} {mb : MEMBLOCK} {f : ScanState}
    (hb : BasePost rpm mb f) (k : Nat) (hk : k * TEMPBUF_SIZE < toUInt32 mb.size)
    (hcomp : ∀ j, j < k → chunkComplete rpm mb j) (hshort : ¬ chunkComplete rpm mb k) :
    f.total_read = k * TEMPBUF_SIZE ∧ f.total_read ≠ toUInt32 mb.size := by
  have hTS : TEMPBUF_SIZE = 131072 := by norm_num [TEMPBUF_SIZE]
  rcases hb.stop with h1 | ⟨h1, h2, h3⟩
  · exfalso
    exact hshort (hb.complete k (by rw [h1]; exact hk))
  · have hT : f.total_read / TEMPBUF_SIZE * TEMPBUF_SIZE = f.total_read :=
      Nat.div_mul_cancel (Nat.dvd_of_mod_eq_zero h1)
    have hm : f.total_read / TEMPBUF_SIZE = k := by
      by_contra hne
      rcases Nat.lt_or_gt_of_ne hne with hlt | hgt
      · exact h3 (hcomp _ hlt)
      · exact hshort (hb.complete k (by rw [hTS] at hT hgt ⊢; omega))
    refine ⟨?_, by omega⟩
    rw [← hm, hT]

/-- C5: short-read policy.  In a round on a snapshot with a match count other
than 0, if chunk `k` (counting from 0, chunks of 131072 bytes) is the first
whose read returns a byte count other than the one requested, then the size
after the round is `k * 131072`; buffer and flags at or above that offset are
as before the round; the reads issued are those of chunks `0` to `k` and no
other; and the whole result is the same for any other remote process that
delivers the same chunks before `k` and a short read at `k`, whatever it
delivers there.  If every read is complete the size is unchanged, and in all
cases the size after the round is at most the size before. -/
theorem update_memblock_short_read (rpm : RemoteRead) (mb : MEMBLOCK) (c : SEARCH_CONDITION)
    (v : Nat) (hm : mb.num_matches ≠ 0) (h0 : 0 ≤ mb.size) (h31 : mb.size < 2 ^ 31) :
    (∀ k : Nat, ((k * TEMPBUF_SIZE : Nat) : Int) < mb.size →
      (∀ j, j < k → chunkComplete rpm mb j) → ¬ chunkComplete rpm mb k →
      (update_memblock rpm mb c v).size = ((k * TEMPBUF_SIZE : Nat) : Int) ∧
      (∀ i, k * TEMPBUF_SIZE ≤ i → (update_memblock rpm mb c v).buffer i = mb.buffer i) ∧
      (∀ p, k * TEMPBUF_SIZE ≤ p →
        IS_IN_SEARCH (update_memblock rpm mb c v) p = IS_IN_SEARCH mb p) ∧
      update_memblock_reads rpm mb c v = requests mb (k + 1) ∧
      (∀ rpm' : RemoteRead, (∀ j, j < k → chunkRead rpm' mb j = chunkRead rpm mb j) →
        ¬ chunkComplete rpm' mb k →
        update_memblock rpm' mb c v = update_memblock rpm mb c v)) ∧
    (allComplete rpm mb → (update_memblock rpm mb c v).size = mb.size) ∧
    (update_memblock rpm mb c v).size ≤ mb.size := by
  have hres := update_memblock_result rpm mb c v hm h0 h31
  have hb := scanRound_base rpm mb c v
  obtain ⟨hS, -⟩ := toUInt32_size h0 h31
  have hTS : TEMPBUF_SIZE = 131072 := by norm_num [TEMPBUF_SIZE]
  refine ⟨?_, ?_, ?_⟩
  · intro k hk hcomp hshort
    have hk' : k * TEMPBUF_SIZE < toUInt32 mb.size := by rw [hS]; omega
    obtain ⟨hR, hne⟩ := basePost_first_short hb k hk' hcomp hshort
    refine ⟨?_, ?_, ?_, ?_, ?_⟩
    · rw [hres.size_eq, hR]
    · intro i hi
      rw [hres.buffer i, if_neg (by omega)]
    · intro p hp
      rw [update_memblock_run rpm mb c v hm, IS_IN_SEARCH_with_size]
      exact scanRound_flag_above rpm mb c v p (by omega)
    · unfold update_memblock_reads
      rw [if_neg hm, hb.reads, if_neg hne, hR]
      congr 2
      rw [hTS]; omega
    · intro rpm' hagree hshort'
      rw [update_memblock_run rpm' mb c v hm, update_memblock_run rpm mb c v hm]
      have : scanRound rpm' mb c v = scanRound rpm mb c v := by
        unfold scanRound
        exact readLoop_agree rpm rpm' mb c v k hagree hcomp hshort hshort' _ _
          (BaseInv.init rpm mb) (BaseInv.init rpm' mb) (Nat.zero_le _)
      rw [this]
  · intro hfull
    rw [hres.size_eq, hres.full h0 h31 hfull]
    omega
  · rw [hres.size_eq]
    have := hres.le
    omega

/-- Witness of C5: on a block of two chunks whose second chunk is not
readable, chunk 1 is the first short one, the size becomes 131072 and the
reads issued are those of chunks 0 and 1. -/
theorem update_memblock_short_read_witness :
    (blockTwoChunks.num_matches ≠ 0 ∧ chunkComplete readFirstChunkOnly blockTwoChunks 0 ∧
      ¬ chunkComplete readFirstChunkOnly blockTwoChunks 1) ∧
    (update_memblock readFirstChunkOnly blockTwoChunks .COND_EQUALS 1).size =
      ((1 * TEMPBUF_SIZE : Nat) : Int) ∧
    update_memblock_reads readFirstChunkOnly blockTwoChunks .COND_EQUALS 1 =
      requests blockTwoChunks (1 + 1) :=
  ⟨⟨by decide, by decide, by decide⟩,
    ((update_memblock_short_read readFirstChunkOnly blockTwoChunks .COND_EQUALS 1
      (by decide) (by decide) (by decide)).1 1 (by decide)
      (fun j hj => by
        have : j = 0 := by omega
        subst this; decide)
      (by decide)).1,
    ((update_memblock_short_read readFirstChunkOnly blockTwoChunks .COND_EQUALS 1
      (by decide) (by decide) (by decide)).1 1 (by decide)
      (fun j hj => by
        have : j = 0 := by omega
        subst this; decide)
      (by decide)).2.2.2.1⟩

/-! ## Repeating a round -/

/-- After a round that consumed `R` bytes, a chunk that starts below `R` is
requested in the next round exactly as it was in this one. -/
theorem chunk_after_round {rpm : RemoteRead} {mb mb' : MEMBLOCK} {R : Nat}
    (hres : RoundResult rpm mb mb' R) (h0 : 0 ≤ mb.size) (h31 : mb.size < 2 ^ 31)
    (rpm2 : RemoteRead) (j : Nat) (hj : j * TEMPBUF_SIZE < R) :
    chunkRead rpm2 mb' j = chunkRead rpm2 mb j ∧
    (chunkComplete rpm2 mb' j ↔ chunkComplete rpm2 mb j) := by
  have hTS : TEMPBUF_SIZE = 131072 := by norm_num [TEMPBUF_SIZE]
  obtain ⟨hS, hS31⟩ := toUInt32_size h0 h31
  have hle := hres.le
  have hS' : toUInt32 mb'.size = R := by
    rw [hres.size_eq]; exact toUInt32_natCast (by omega)
  have hreq : bytesToRead (toUInt32 mb'.size - j * TEMPBUF_SIZE) =
      bytesToRead (toUInt32 mb.size - j * TEMPBUF_SIZE) := by
    rw [hS', hS]
    rcases hres.stop with h1 | ⟨h1, h2, -⟩
    · rw [h1]
    · unfold bytesToRead
      rw [hTS] at hj h1 ⊢
      split_ifs <;> omega
  have hcr : chunkRead rpm2 mb' j = chunkRead rpm2 mb j := by
    unfold chunkRead
    rw [hres.hProc, hres.addr, hreq]
  refine ⟨hcr, ?_⟩
  unfold chunkComplete
  rw [hcr, hreq]

/-- C9: idempotent equality.  For every state reached from `create_memblock`
(on a region whose size is a multiple of 8 and fits the `int` field, element
width 1, 2 or 4) and every value `V`, with the same remote process in both
rounds, a second `COND_EQUALS V` round leaves every candidate flag, the match
count and the size as the first one left them. -/
theorem equals_idempotent (hProc : Nat) (meminfo : MEMORY_BASIC_INFORMATION) (w : Nat)
    (hw : w = 1 ∨ w = 2 ∨ w = 4)
    (h8 : meminfo.RegionSize % 8 = 0) (h31 : meminfo.RegionSize < 2 ^ 31)
    (mb : MEMBLOCK) (hr : Reachable hProc meminfo w mb) (rpm : RemoteRead) (V : Nat) :
    (∀ o, IS_IN_SEARCH
        (update_memblock rpm (update_memblock rpm mb .COND_EQUALS V) .COND_EQUALS V) o =
      IS_IN_SEARCH (update_memblock rpm mb .COND_EQUALS V) o) ∧
    (update_memblock rpm (update_memblock rpm mb .COND_EQUALS V) .COND_EQUALS V).num_matches =
      (update_memblock rpm mb .COND_EQUALS V).num_matches ∧
    (update_memblock rpm (update_memblock rpm mb .COND_EQUALS V) .COND_EQUALS V).size =
      (update_memblock rpm mb .COND_EQUALS V).size := by
  by_cases hm : mb.num_matches = 0
  · rw [update_memblock_skip rpm mb _ V hm, update_memblock_skip rpm mb _ V hm]
    exact ⟨fun _ => rfl, rfl, rfl⟩
  by_cases hm1 : (update_memblock rpm mb .COND_EQUALS V).num_matches = 0
  · rw [update_memblock_skip rpm _ _ V hm1]
    exact ⟨fun _ => rfl, rfl, rfl⟩
  have hc : SEARCH_CONDITION.COND_EQUALS ≠ .COND_UNCONDITIONAL := by decide
  have hTS : TEMPBUF_SIZE = 131072 := by norm_num [TEMPBUF_SIZE]
  -- first round
  have inv := reachable_inv hw h8 h31 hr
  have h0 := inv.size_nonneg
  have hlt : mb.size < 2 ^ 31 := by have := inv.size_le; omega
  have hw0 : mb.data_size = 1 ∨ mb.data_size = 2 ∨ mb.data_size = 4 := by
    rw [inv.data_size]; exact hw
  obtain ⟨hflag, hcount⟩ := update_memblock_cond rpm mb V hm hc hw0 h0 hlt inv.size_mod
  have hres := update_memblock_result rpm mb .COND_EQUALS V hm h0 hlt
  -- second round
  have inv1 := reachable_inv hw h8 h31 (Reachable.update rpm .COND_EQUALS V hr)
  have h01 := inv1.size_nonneg
  have hlt1 : (update_memblock rpm mb .COND_EQUALS V).size < 2 ^ 31 := by
    have := inv1.size_le; omega
  have hw1 : (update_memblock rpm mb .COND_EQUALS V).data_size = 1 ∨
      (update_memblock rpm mb .COND_EQUALS V).data_size = 2 ∨
      (update_memblock rpm mb .COND_EQUALS V).data_size = 4 := by
    rw [inv1.data_size]; exact hw
  obtain ⟨hflag1, hcount1⟩ := update_memblock_cond rpm _ V hm1 hc hw1 h01 hlt1 inv1.size_mod
  have hres1 := update_memblock_result rpm _ .COND_EQUALS V hm1 h01 hlt1
  generalize hR : (scanRound rpm mb .COND_EQUALS V).total_read = R at hflag hres
  generalize hR1 : (scanRound rpm (update_memblock rpm mb .COND_EQUALS V)
    .COND_EQUALS V).total_read = R1 at hflag1 hres1
  generalize hon : update_memblock rpm mb .COND_EQUALS V = once at *
  generalize htw : update_memblock rpm once .COND_EQUALS V = twice at *
  have hsz : once.size.toNat = R := by rw [hres.size_eq]; simp
  -- the second round consumes as much as the first
  have hRR : R1 = R := by
    rcases hres1.stop with h1 | ⟨h1, h2, h3⟩
    · rw [h1, hsz]
    · exfalso
      rw [hsz] at h2
      have hT : R1 / TEMPBUF_SIZE * TEMPBUF_SIZE = R1 :=
        Nat.div_mul_cancel (Nat.dvd_of_mod_eq_zero h1)
      have hj : R1 / TEMPBUF_SIZE * TEMPBUF_SIZE < R := by rw [hT]; exact h2
      exact h3 ((chunk_after_round hres h0 hlt rpm _ hj).2.mpr (hres.complete _ hj))
  subst hRR
  have hR8 : R1 % 8 = 0 := by have := inv1.size_mod; omega
  have hds : once.data_size = mb.data_size := hres.data_size
  -- the elements read are the same
  have hcur : ∀ p, p < R1 → p % mb.data_size = 0 →
      currentValue rpm once p = currentValue rpm mb p := by
    intro p hp hal
    unfold currentValue
    rw [hds]
    apply loadValue_congr hw0
    intro i hi
    unfold readByte
    have hlt2 : (p + i) / TEMPBUF_SIZE * TEMPBUF_SIZE < R1 := by
      have : (p + i) / TEMPBUF_SIZE * TEMPBUF_SIZE ≤ p + i := Nat.div_mul_le_self _ _
      rcases hw0 with h | h | h <;> rw [h] at hi hal <;> omega
    rw [(chunk_after_round hres h0 hlt rpm _ hlt2).1]
  have hfl : ∀ o, IS_IN_SEARCH twice o = IS_IN_SEARCH once o := by
    intro o
    rw [hflag1 o, hds]
    by_cases hin : o < R1 ∧ o % mb.data_size = 0
    · rw [hcur o hin.1 hin.2, hflag o, decide_eq_true hin]
      simp only [isMatch]
      cases IS_IN_SEARCH mb o <;> cases decide (currentValue rpm mb o = V) <;> rfl
    · rw [decide_eq_false hin]
      simp
  refine ⟨hfl, ?_, ?_⟩
  · rw [hcount1, hcount]
    unfold candidateCount
    rw [hres1.size_eq, hres.size_eq]
    congr 1
    apply count_congr_below
    intro k _
    unfold isCandidate
    rw [hfl k, hres1.data_size]
  · rw [hres1.size_eq, hres.size_eq]

/-- Witness of C9: on the reachable 8-byte block, two `COND_EQUALS 1` rounds
on memory holding the 32-bit values 1 and 2 leave the match count of one
round. -/
theorem equals_idempotent_witness :
    Reachable 1 regionExample 4 (blockExample 4) ∧
    (update_memblock (readExample [1, 0, 0, 0, 2, 0, 0, 0])
      (update_memblock (readExample [1, 0, 0, 0, 2, 0, 0, 0]) (blockExample 4) .COND_EQUALS 1)
      .COND_EQUALS 1).num_matches =
    (update_memblock (readExample [1, 0, 0, 0, 2, 0, 0, 0]) (blockExample 4)
      .COND_EQUALS 1).num_matches :=
  ⟨Reachable.create _ _,
    (equals_idempotent 1 regionExample 4 (by decide) (by decide) (by decide) (blockExample 4)
      (Reachable.create _ _) (readExample [1, 0, 0, 0, 2, 0, 0, 0]) 1).2.1⟩

/-! ## Reporting: lemmas -/

/-- C16: after a round of `update_memblock` on a snapshot with a match count
above 0, for every condition (`COND_UNCONDITIONAL` included), the buffer
bytes below the new size are the bytes that the chunk reads of this round
delivered, every chunk below the new size being a complete read, and the
buffer bytes at or above the new size are unchanged; so the element of the
buffer at an offset whose `data_size` bytes lie below the new size is the
element this round read there, the previous value of the next round. -/
theorem update_memblock_buffer_spec (rpm : RemoteRead) (mb : MEMBLOCK) (c : SEARCH_CONDITION)
    (v : Nat) (hm : 0 < mb.num_matches) (h0 : 0 ≤ mb.size) (h31 : mb.size < 2 ^ 31) :
    (∀ i : Nat, (i : Int) < (update_memblock rpm mb c v).size →
      (update_memblock rpm mb c v).buffer i = readByte rpm mb i) ∧
    (∀ j : Nat, ((j * TEMPBUF_SIZE : Nat) : Int) < (update_memblock rpm mb c v).size →
      chunkComplete rpm mb j) ∧
    (∀ i : Nat, (update_memblock rpm mb c v).size ≤ (i : Int) →
      (update_memblock rpm mb c v).buffer i = mb.buffer i) ∧
    (mb.data_size = 1 ∨ mb.data_size = 2 ∨ mb.data_size = 4 →
      ∀ o : Nat, ((o + mb.data_size : Nat) : Int) ≤ (update_memblock rpm mb c v).size →
        previousValue (update_memblock rpm mb c v) o = currentValue rpm mb o) := by
  have hne : mb.num_matches ≠ 0 := by omega
  have hres := update_memblock_result rpm mb c v hne h0 h31
  refine ⟨?_, ?_, ?_, ?_⟩
  · intro i hi
    rw [hres.size_eq] at hi
    rw [hres.buffer i, if_pos (by omega)]
  · intro j hj
    rw [hres.size_eq] at hj
    exact hres.complete j (by omega)
  · intro i hi
    rw [hres.size_eq] at hi
    rw [hres.buffer i, if_neg (by omega)]
  · intro hw o ho
    rw [hres.size_eq] at ho
    unfold previousValue currentValue
    rw [hres.data_size]
    apply loadValue_congr hw
    intro i hi
    rw [hres.buffer (o + i), if_pos (by omega)]

/-- Witness of C16: after a `COND_UNCONDITIONAL` round on the 8-byte block
that read the 32-bit values 10 and 0, the buffer holds 10 at offset 0. -/
theorem update_memblock_buffer_spec_witness :
    0 < (blockExample 4).num_matches ∧
    previousValue (update_memblock (readExample [10, 0, 0, 0]) (blockExample 4)
      .COND_UNCONDITIONAL 0) 0 = currentValue (readExample [10, 0, 0, 0]) (blockExample 4) 0 :=
  ⟨by decide,
    (update_memblock_buffer_spec (readExample [10, 0, 0, 0]) (blockExample 4)
      .COND_UNCONDITIONAL 0 (by decide) (by decide) (by decide)).2.2.2 (by decide) 0
      (by decide)⟩

/-! ## Flags left alone by a narrowing round -/

theorem scanChunk_flag_unaligned (c : SEARCH_CONDITION) (v : Nat) (tb : Nat → Nat)
    (T n w p : Nat) (hT : T % w = 0) (hp : p % w ≠ 0) :
    ∀ fuel off mb, off % w = 0 → mb.data_size = w →
      IS_IN_SEARCH (scanChunk c v tb T n fuel off mb) p = IS_IN_SEARCH mb p := by
  intro fuel
  induction fuel with
  | zero => intro off mb _ _; simp [scanChunk]
  | succ fuel ih =>
    intro off mb hoff hds
    unfold scanChunk
    split_ifs with h
    · rw [ih _ _ (by rw [hds, Nat.add_mod_right]; exact hoff) (by simp [hds]),
        checkElement_flag]
      have hne : p ≠ T + off := by
        intro heq
        apply hp
        rw [heq, Nat.add_mod, hT, hoff]
        simp
      simp [hne]
    · rfl

/-- After a round with a condition other than `COND_UNCONDITIONAL`, whatever
the reads deliver, no flag is set that was not set before, and every flag at
an offset that is not a multiple of the element width is unchanged. -/
theorem scanRound_flag_frame (rpm : RemoteRead) (mb : MEMBLOCK) {c : SEARCH_CONDITION}
    (v : Nat) (hc : c ≠ .COND_UNCONDITIONAL)
    (hw : mb.data_size = 1 ∨ mb.data_size = 2 ∨ mb.data_size = 4) :
    ∀ p, (IS_IN_SEARCH (scanRound rpm mb c v).mb p = true → IS_IN_SEARCH mb p = true) ∧
      (p % mb.data_size ≠ 0 →
        IS_IN_SEARCH (scanRound rpm mb c v).mb p = IS_IN_SEARCH mb p) := by
  unfold scanRound
  refine readLoop_induct rpm c v
    (fun s => BaseInv rpm mb s ∧
      ∀ p, (IS_IN_SEARCH s.mb p = true → IS_IN_SEARCH mb p = true) ∧
        (p % mb.data_size ≠ 0 → IS_IN_SEARCH s.mb p = IS_IN_SEARCH mb p))
    (fun s => ∀ p, (IS_IN_SEARCH s.mb p = true → IS_IN_SEARCH mb p = true) ∧
        (p % mb.data_size ≠ 0 → IS_IN_SEARCH s.mb p = IS_IN_SEARCH mb p))
    ?_ ?_ ?_ _ _ (Nat.le_refl _) ⟨BaseInv.init rpm mb, ?_⟩
  · intro s hI _; exact hI.2
  · intro s hI _ _; exact hI.2
  · intro s ⟨hb, hI⟩ h0 hr
    refine ⟨hb.base_step c v h0 hr, ?_⟩
    intro p
    have hmb := applyChunk_mb_cond hc v (nextRead rpm s).tempbuf (bytesToRead s.bytes_left)
      (logRead s)
    simp only [logRead_mb, logRead_total_read] at hmb
    rw [hmb, IS_IN_SEARCH_with_buffer]
    have hTS : TEMPBUF_SIZE = 131072 := by norm_num [TEMPBUF_SIZE]
    obtain ⟨-, -, hT⟩ := hb.nextRead_eq h0
    rw [hTS] at hT
    have hTw : s.total_read % mb.data_size = 0 := by
      rcases hw with h1 | h1 | h1 <;> rw [h1] <;> omega
    constructor
    · intro h
      exact (hI p).1 (scanChunk_flag_le c v _ _ _ p _ _ _ h)
    · intro hp
      rw [scanChunk_flag_unaligned c v _ s.total_read _ mb.data_size p hTw hp _ 0 s.mb
        (Nat.zero_mod _) hb.data_size]
      exact (hI p).2 hp
  · intro p
    exact ⟨fun h => h, fun _ => rfl⟩

/-! ## Increased against decreased -/

/-- The number of bytes consumed by a round depends on the reads only, not on
the condition. -/
theorem basePost_total_read_unique {rpm : RemoteRead} {mb : MEMBLOCK} {f g : ScanState}
    (hf : BasePost rpm mb f) (hg : BasePost rpm mb g) : f.total_read = g.total_read := by
  have key : ∀ {a b : ScanState}, BasePost rpm mb a → BasePost rpm mb b →
      ¬ a.total_read < b.total_read := by
    intro a b ha hb hlt
    rcases ha.stop with h1 | ⟨h1, -, h3⟩
    · have := hb.le; omega
    · apply h3
      apply hb.complete
      rw [Nat.div_mul_cancel (Nat.dvd_of_mod_eq_zero h1)]
      exact hlt
  have h1 := key hf hg
  have h2 := key hg hf
  omega

theorem count_eq_zero_below {p : Nat → Prop} [DecidablePred p] {n : Nat}
    (h : Nat.count p n = 0) {k : Nat} (hk : k < n) : ¬ p k := by
  intro hp
  have h1 : Nat.count p (k + 1) ≤ Nat.count p n := Nat.count_monotone p (by omega)
  rw [Nat.count_succ, if_pos hp] at h1
  omega

/-- C13: increase/decrease exclusivity.  For a snapshot of element width 1, 2
or 4 whose length is a multiple of 8 and whose match count is at least its
number of candidates (as in every reachable state), and any read results, the
rounds `COND_INCREASED` and `COND_DECREASED` applied to that same state with
the same reads leave the same size; no element position below that size has
its flag set after both; and an element position below that size whose value
just read equals its previous value has its flag set after neither. -/
theorem increased_decreased_exclusive (rpm : RemoteRead) (mb : MEMBLOCK) (v1 v2 : Nat)
    (hw : mb.data_size = 1 ∨ mb.data_size = 2 ∨ mb.data_size = 4)
    (h0 : 0 ≤ mb.size) (h31 : mb.size < 2 ^ 31) (h8 : mb.size % 8 = 0)
    (hinv : (candidateCount mb : Int) ≤ mb.num_matches) :
    (update_memblock rpm mb .COND_INCREASED v1).size =
      (update_memblock rpm mb .COND_DECREASED v2).size ∧
    (∀ o : Nat, o % mb.data_size = 0 →
      (o : Int) < (update_memblock rpm mb .COND_INCREASED v1).size →
      ¬ (IS_IN_SEARCH (update_memblock rpm mb .COND_INCREASED v1) o = true ∧
        IS_IN_SEARCH (update_memblock rpm mb .COND_DECREASED v2) o = true)) ∧
    (∀ o : Nat, o % mb.data_size = 0 →
      (o : Int) < (update_memblock rpm mb .COND_INCREASED v1).size →
      currentValue rpm mb o = previousValue mb o →
      IS_IN_SEARCH (update_memblock rpm mb .COND_INCREASED v1) o = false ∧
        IS_IN_SEARCH (update_memblock rpm mb .COND_DECREASED v2) o = false) := by
  by_cases hm : mb.num_matches = 0
  · rw [update_memblock_skip rpm mb _ v1 hm, update_memblock_skip rpm mb _ v2 hm]
    have hcz : Nat.count (isCandidate mb) mb.size.toNat = 0 := by
      have : candidateCount mb = 0 := by omega
      exact this
    have hno : ∀ o : Nat, o % mb.data_size = 0 → (o : Int) < mb.size →
        IS_IN_SEARCH mb o = false := by
      intro o ho hlt
      have := count_eq_zero_below hcz (k := o) (by omega)
      unfold isCandidate at this
      by_contra hne
      exact this ⟨ho, by simpa using hne⟩
    refine ⟨rfl, ?_, ?_⟩
    · intro o ho hlt h
      rw [hno o ho hlt] at h
      exact Bool.false_ne_true h.1
    · intro o ho hlt _
      exact ⟨hno o ho hlt, hno o ho hlt⟩
  · have hci : SEARCH_CONDITION.COND_INCREASED ≠ .COND_UNCONDITIONAL := by decide
    have hcd : SEARCH_CONDITION.COND_DECREASED ≠ .COND_UNCONDITIONAL := by decide
    obtain ⟨hfi, -⟩ := update_memblock_cond rpm mb v1 hm hci hw h0 h31 h8
    obtain ⟨hfd, -⟩ := update_memblock_cond rpm mb v2 hm hcd hw h0 h31 h8
    have hri := update_memblock_result rpm mb .COND_INCREASED v1 hm h0 h31
    have hrd := update_memblock_result rpm mb .COND_DECREASED v2 hm h0 h31
    have hR : (scanRound rpm mb .COND_DECREASED v2).total_read =
        (scanRound rpm mb .COND_INCREASED v1).total_read :=
      basePost_total_read_unique (scanRound_base rpm mb _ v2) (scanRound_base rpm mb _ v1)
    rw [hR] at hfd hrd
    refine ⟨by rw [hri.size_eq, hrd.size_eq], ?_, ?_⟩
    · intro o ho hlt
      rw [hri.size_eq] at hlt
      have hd : decide (o < (scanRound rpm mb .COND_INCREASED v1).total_read ∧
          o % mb.data_size = 0) = true := decide_eq_true ⟨by omega, ho⟩
      rw [hfi o, hfd o, hd]
      simp only [isMatch]
      intro h
      simp at h
      omega
    · intro o ho hlt heq
      rw [hri.size_eq] at hlt
      have hd : decide (o < (scanRound rpm mb .COND_INCREASED v1).total_read ∧
          o % mb.data_size = 0) = true := decide_eq_true ⟨by omega, ho⟩
      rw [hfi o, hfd o, hd]
      simp [isMatch, heq]

/-- Witness of C13: the block holding 10 read again as 10: the candidate at
offset 0 survives neither `COND_INCREASED` nor `COND_DECREASED`. -/
theorem increased_decreased_exclusive_witness :
    ((candidateCount blockHolding10 : Int) ≤ blockHolding10.num_matches ∧
      currentValue (readExample [10, 0, 0, 0]) blockHolding10 0 =
        previousValue blockHolding10 0) ∧
    IS_IN_SEARCH (update_memblock (readExample [10, 0, 0, 0]) blockHolding10
      .COND_INCREASED 0) 0 = false ∧
    IS_IN_SEARCH (update_memblock (readExample [10, 0, 0, 0]) blockHolding10
      .COND_DECREASED 0) 0 = false :=
  ⟨⟨by decide, by decide⟩,
    (increased_decreased_exclusive (readExample [10, 0, 0, 0]) blockHolding10 0 0
      (by decide) (by decide) (by decide) (by decide) (by decide)).2.2 0 (by decide)
      (by decide) (by decide)⟩

/-! ## The address of the live read -/

/-- C19 (fails on the code): on the reachable 8-byte block of element width 1,
whose match count is 8, a `COND_UNCONDITIONAL` round whose first read is
short leaves the match count 0. -/
theorem unconditional_short_read_lowers :
    Reachable 1 regionExample 1 (blockExample 1) ∧
    (blockExample 1).num_matches = 8 ∧
    (update_memblock readFailing (blockExample 1) .COND_UNCONDITIONAL 0).num_matches = 0 ∧
    (update_memblock readFailing (blockExample 1) .COND_UNCONDITIONAL 0).num_matches <
      (blockExample 1).num_matches :=
  ⟨Reachable.create _ _, by decide, by decide, by decide⟩

/-- C19 as amended: for every state reached from `create_memblock` (on a
region whose size is a multiple of 8 and fits the `int` field, element width
1, 2 or 4) by `update_memblock` rounds, a `COND_UNCONDITIONAL` round in which
every chunk read is complete leaves a match count that is not lower than the
match count before. -/
theorem unconditional_complete_not_lower (hProc : Nat) (meminfo : MEMORY_BASIC_INFORMATION)
    (w : Nat) (hw : w = 1 ∨ w = 2 ∨ w = 4)
    (h8 : meminfo.RegionSize % 8 = 0) (h31 : meminfo.RegionSize < 2 ^ 31)
    (mb : MEMBLOCK) (hr : Reachable hProc meminfo w mb)
    (rpm : RemoteRead) (v : Nat) (hfull : allComplete rpm mb) :
    mb.num_matches ≤ (update_memblock rpm mb .COND_UNCONDITIONAL v).num_matches := by
  have inv := reachable_inv hw h8 h31 hr
  by_cases hm : mb.num_matches = 0
  · rw [update_memblock_skip rpm mb _ v hm]
  · have h0 := inv.size_nonneg
    have hlt : mb.size < 2 ^ 31 := by have := inv.size_le; omega
    have hres := update_memblock_result rpm mb .COND_UNCONDITIONAL v hm h0 hlt
    have hR := hres.full h0 hlt hfull
    rw [(update_memblock_uncond rpm mb v hm h0 hlt inv.size_mod).2, hR]
    have := inv.matches_le
    omega

/-- Witness of C19 as amended: the reachable block holding one candidate,
refreshed by a `COND_UNCONDITIONAL` round with complete reads. -/
theorem unconditional_complete_not_lower_witness :
    Reachable 1 regionExample 4 blockHolding10 ∧
    blockHolding10.num_matches ≤
      (update_memblock (readExample []) blockHolding10 .COND_UNCONDITIONAL 0).num_matches :=
  ⟨Reachable.update _ _ _ (Reachable.create _ _),
    unconditional_complete_not_lower 1 regionExample 4 (by decide) (by decide) (by decide)
      blockHolding10 (Reachable.update _ _ _ (Reachable.create _ _)) (readExample []) 0
      (fun _ _ => rfl)⟩

/-! ## create_scan -/

theorem lor_eq_zero {a b : Nat} : a ||| b = 0 ↔ a = 0 ∧ b = 0 := by
  constructor
  · intro h
    have key : ∀ i, a.testBit i = false ∧ b.testBit i = false := by
      intro i
      have := congrArg (fun n => Nat.testBit n i) h
      simpa [Nat.testBit_or] using this
    exact ⟨Nat.eq_of_testBit_eq (fun i => by simp [(key i).1]),
      Nat.eq_of_testBit_eq (fun i => by simp [(key i).2])⟩
  · rintro ⟨rfl, rfl⟩
    simp

/-- The test on the protection of a region holds exactly when the protection
has one of the four writable flags. -/
theorem and_WRITABLE_ne_zero (x : Nat) :
    x &&& WRITABLE ≠ 0 ↔
      (x &&& PAGE_READWRITE ≠ 0 ∨ x &&& PAGE_WRITECOPY ≠ 0 ∨
        x &&& PAGE_EXECUTE_READWRITE ≠ 0 ∨ x &&& PAGE_EXECUTE_WRITECOPY ≠ 0) := by
  unfold WRITABLE
  rw [Nat.and_or_distrib_left, Nat.and_or_distrib_left, Nat.and_or_distrib_left]
  rw [Ne, lor_eq_zero, lor_eq_zero, lor_eq_zero]
  tauto

theorem queryLoop_chain (vq : VirtualQueryFn) (alloc : MallocFn) (hProc data_size : Nat) :
    ∀ (rs : List MEMORY_BASIC_INFORMATION) (fuel addr : Nat) (acc : List MEMBLOCK),
      QueryChain vq hProc addr rs → rs.length < fuel →
      queryLoop vq alloc hProc data_size fuel addr acc =
        (blocksFrom alloc hProc data_size acc.length
          (rs.filter fun r => decide (qualifies r))).reverse ++ acc := by
  intro rs
  induction rs with
  | nil =>
    intro fuel addr acc hch hf
    obtain ⟨f, rfl⟩ : ∃ f, fuel = f + 1 := ⟨fuel - 1, by simp at hf; omega⟩
    have hq : vq hProc addr = none := hch
    simp [queryLoop, hq, blocksFrom]
  | cons r rs ih =>
    intro fuel addr acc hch hf
    obtain ⟨f, rfl⟩ : ∃ f, fuel = f + 1 := ⟨fuel - 1, by simp at hf; omega⟩
    obtain ⟨hq, hrest⟩ : vq hProc addr = some r ∧
      QueryChain vq hProc (r.BaseAddress + r.RegionSize) rs := hch
    have hf' : rs.length < f := by simp at hf; omega
    unfold queryLoop
    rw [hq]
    simp only []
    rw [ih f _ _ hrest hf']
    by_cases hqr : qualifies r
    · simp [hqr, blocksFrom]
    · simp [hqr]

theorem blocksFrom_addr_size (alloc : MallocFn) (hProc data_size : Nat) :
    ∀ (rs : List MEMORY_BASIC_INFORMATION) (n : Nat),
      (blocksFrom alloc hProc data_size n rs).map (fun mb => (mb.addr, mb.size)) =
        rs.map fun r => (r.BaseAddress, toInt32 r.RegionSize) := by
  intro rs
  induction rs with
  | nil => intro n; rfl
  | cons r rs ih =>
    intro n
    simp only [blocksFrom, List.map_cons, ih]
    rfl

/-- C14: for every finite sequence of regions returned by successive
`VirtualQueryEx` calls (the first at address 0, each next one at the previous
region's base plus its size, up to the first call that reports no region),
after a successful attach `create_scan` returns one block made by
`create_memblock` for each region that is committed and has one of the four
writable protection flags, and none for any other region; each block has the
base of its region and its size (stored in an `int`); the blocks are linked in
the reverse of discovery order. -/
theorem create_scan_spec (open_process : OpenProcessFn) (vq : VirtualQueryFn)
    (alloc : MallocFn) (pid data_size fuel : Nat) (regions : List MEMORY_BASIC_INFORMATION)
    (hopen : open_process pid ≠ 0)
    (hchain : QueryChain vq (open_process pid) 0 regions)
    (hfuel : regions.length < fuel) :
    create_scan open_process vq alloc fuel pid data_size =
      (blocksFrom alloc (open_process pid) data_size 0
        (regions.filter fun r => decide (qualifies r))).reverse ∧
    (create_scan open_process vq alloc fuel pid data_size).map (fun mb => (mb.addr, mb.size)) =
      ((regions.filter fun r => decide (qualifies r)).map
        fun r => (r.BaseAddress, toInt32 r.RegionSize)).reverse ∧
    (∀ r : MEMORY_BASIC_INFORMATION, r.RegionSize < 2 ^ 31 →
      toInt32 r.RegionSize = r.RegionSize) ∧
    (∀ r : MEMORY_BASIC_INFORMATION, qualifies r ↔
      r.State &&& MEM_COMMIT ≠ 0 ∧
        (r.Protect &&& PAGE_READWRITE ≠ 0 ∨ r.Protect &&& PAGE_WRITECOPY ≠ 0 ∨
          r.Protect &&& PAGE_EXECUTE_READWRITE ≠ 0 ∨
          r.Protect &&& PAGE_EXECUTE_WRITECOPY ≠ 0)) := by
  have h1 : create_scan open_process vq alloc fuel pid data_size =
      (blocksFrom alloc (open_process pid) data_size 0
        (regions.filter fun r => decide (qualifies r))).reverse := by
    unfold create_scan
    rw [if_pos hopen, queryLoop_chain vq alloc _ data_size regions fuel 0 [] hchain hfuel]
    simp
  refine ⟨h1, ?_, ?_, ?_⟩
  · rw [h1, List.map_reverse, blocksFrom_addr_size]
  · intro r hr
    exact toInt32_of_range (by omega) (by omega)
  · intro r
    unfold qualifies
    rw [and_WRITABLE_ne_zero]

/-- Witness of C14: in the address space of a free region followed by the
8-byte read-write region, `create_scan` returns the one block of the second
region. -/
theorem create_scan_spec_witness :
    (openAlways 7 ≠ 0 ∧ QueryChain queryExample (openAlways 7) 0 [regionFree, regionExample]) ∧
    create_scan openAlways queryExample allocZero 3 7 4 =
      (blocksFrom allocZero (openAlways 7) 4 0
        ([regionFree, regionExample].filter fun r => decide (qualifies r))).reverse :=
  ⟨⟨by decide, rfl, rfl, rfl⟩,
    (create_scan_spec openAlways queryExample allocZero 7 4 3 [regionFree, regionExample]
      (by decide) ⟨rfl, rfl, rfl⟩ (by decide)).1⟩

/-- C15 (fails on the code): `create_scan` returns the same result, the empty
list (a null pointer), for a failed attach and for a successful attach to a
process whose only region is not writable, so its result does not tell the
two apart. -/
theorem create_scan_failure_indistinct :
    openNever 7 = 0 ∧ openAlways 7 ≠ 0 ∧
    QueryChain queryNoWritable (openAlways 7) 0 [regionFree] ∧ ¬ qualifies regionFree ∧
    create_scan openNever queryNoWritable allocZero 2 7 4 = [] ∧
    create_scan openAlways queryNoWritable allocZero 2 7 4 = [] ∧
    create_scan openNever queryNoWritable allocZero 2 7 4 =
      create_scan openAlways queryNoWritable allocZero 2 7 4 :=
  ⟨rfl, by decide, ⟨rfl, rfl⟩, by decide, rfl, rfl, rfl⟩

/-- C15 as amended: `create_scan` returns the empty list (a null pointer) when
the attach fails, and also when the attach succeeds and no region of the
process is committed and writable. -/
theorem create_scan_empty (open_process : OpenProcessFn) (vq : VirtualQueryFn)
    (alloc : MallocFn) (pid data_size fuel : Nat) (regions : List MEMORY_BASIC_INFORMATION) :
    (open_process pid = 0 →
      create_scan open_process vq alloc fuel pid data_size = []) ∧
    (open_process pid ≠ 0 → QueryChain vq (open_process pid) 0 regions →
      regions.length < fuel → (∀ r, r ∈ regions → ¬ qualifies r) →
      create_scan open_process vq alloc fuel pid data_size = []) := by
  constructor
  · intro h
    simp [create_scan, h]
  · intro hopen hchain hfuel hnone
    rw [(create_scan_spec open_process vq alloc pid data_size fuel regions hopen hchain
      hfuel).1]
    have : (regions.filter fun r => decide (qualifies r)) = [] := by
      rw [List.filter_eq_nil_iff]
      intro r hr
      simpa using hnone r hr
    rw [this]
    rfl

/-- Witness of C15 as amended: the failed attach and the attach to the
process without a writable region. -/
theorem create_scan_empty_witness :
    (openNever 7 = 0 ∧ openAlways 7 ≠ 0 ∧
      QueryChain queryNoWritable (openAlways 7) 0 [regionFree]) ∧
    create_scan openNever queryNoWritable allocZero 2 7 4 = [] ∧
    create_scan openAlways queryNoWritable allocZero 2 7 4 = [] :=
  ⟨⟨rfl, by decide, rfl, rfl⟩,
    (create_scan_empty openNever queryNoWritable allocZero 7 4 2 [regionFree]).1 rfl,
    (create_scan_empty openAlways queryNoWritable allocZero 7 4 2 [regionFree]).2 (by decide)
      ⟨rfl, rfl⟩ (by decide) (fun r hr => by
        rw [List.mem_singleton] at hr
        subst hr
        decide)⟩

/-! ## Scenario A -/

/-- C12 (fails on the code): for a writable region of 4 bytes holding the
32-bit value 1, the searchmask allocation has `4 / 8 = 0` bytes, so the flag
of the one element lies outside it; when the byte there is 0, `create_scan`
with element width 4 followed by `update_scan(COND_EQUALS, 1)` gives the
match count 0, not 1. -/
theorem scenario_four_bytes :
    (create_scan openAlways queryFourBytes allocZero 3 7 4).map (fun mb => (mb.addr, mb.size)) =
      [(0x10000, 4)] ∧
    get_matches_count
      (update_scan (readExample [1, 0, 0, 0])
        (create_scan openAlways queryFourBytes allocZero 3 7 4) .COND_EQUALS 1) = 0 := by
  decide

theorem currentValue_congr (rpm : RemoteRead) {a b : MEMBLOCK} (h1 : a.hProc = b.hProc)
    (h2 : a.addr = b.addr) (h3 : a.size = b.size) (h4 : a.data_size = b.data_size) :
    (∀ o, currentValue rpm a o = currentValue rpm b o) ∧
    (allComplete rpm a ↔ allComplete rpm b) := by
  constructor
  · intro o
    unfold currentValue readByte chunkRead
    rw [h1, h2, h3, h4]
  · unfold allComplete chunkComplete chunkRead
    rw [h1, h2, h3]

/-- A `COND_EQUALS` round with complete reads takes blocks that differ at
most in their buffers and in the flags at or above their size to such
blocks: the uninitialised contents of the allocations do not show. -/
theorem equals_round_sameView (rpm : RemoteRead) {a b : MEMBLOCK} (t : Nat)
    (h : SameView a b)
    (hw : a.data_size = 1 ∨ a.data_size = 2 ∨ a.data_size = 4)
    (h0 : 0 ≤ a.size) (h31 : a.size < 2 ^ 31) (h8 : a.size % 8 = 0)
    (hfull : allComplete rpm a) :
    SameView (update_memblock rpm a .COND_EQUALS t) (update_memblock rpm b .COND_EQUALS t) := by
  by_cases hm : a.num_matches = 0
  · have hmb : b.num_matches = 0 := by rw [← h.num_matches]; exact hm
    rw [update_memblock_skip rpm a _ t hm, update_memblock_skip rpm b _ t hmb]
    exact h
  · have hmb : b.num_matches ≠ 0 := by rw [← h.num_matches]; exact hm
    have hc : SEARCH_CONDITION.COND_EQUALS ≠ .COND_UNCONDITIONAL := by decide
    obtain ⟨hcur, hfc⟩ := currentValue_congr rpm h.hProc h.addr h.size h.data_size
    have hwb : b.data_size = 1 ∨ b.data_size = 2 ∨ b.data_size = 4 := by
      rw [← h.data_size]; exact hw
    have h0b : 0 ≤ b.size := by rw [← h.size]; exact h0
    have h31b : b.size < 2 ^ 31 := by rw [← h.size]; exact h31
    have h8b : b.size % 8 = 0 := by rw [← h.size]; exact h8
    obtain ⟨sa, fa, ca, -⟩ := full_round_cond rpm a t hm hc hw h0 h31 h8 hfull
    obtain ⟨sb, fb, cb, -⟩ := full_round_cond rpm b t hmb hc hwb h0b h31b h8b (hfc.mp hfull)
    have ra := update_memblock_result rpm a .COND_EQUALS t hm h0 h31
    have rb := update_memblock_result rpm b .COND_EQUALS t hmb h0b h31b
    exact
      { hProc := by rw [ra.hProc, rb.hProc, h.hProc]
        addr := by rw [ra.addr, rb.addr, h.addr]
        size := by rw [sa, sb, h.size]
        data_size := by rw [ra.data_size, rb.data_size, h.data_size]
        num_matches := by
          rw [ca, cb, ← h.size, ← h.data_size]
          congr 1
          apply count_congr_below
          intro k hk
          rw [h.flag k (by omega), hcur k]
          simp [isMatch]
        flag := by
          intro p hp
          rw [sa] at hp
          rw [fa p, fb p, h.flag p hp, hcur p, ← h.size, ← h.data_size]
          simp [isMatch] }

theorem get_matches_count_singleton (a b : MEMBLOCK) (h : a.num_matches = b.num_matches) :
    get_matches_count [a] = get_matches_count [b] := by
  simp [get_matches_count, countLoop, h]

theorem create_memblock_sameView (hProc : Nat) (meminfo : MEMORY_BASIC_INFORMATION)
    (data_size : Nat) (b1 m1 b2 m2 : Nat → Nat) (h8 : meminfo.RegionSize % 8 = 0)
    (h31 : meminfo.RegionSize < 2 ^ 31) :
    SameView (create_memblock hProc meminfo data_size b1 m1)
      (create_memblock hProc meminfo data_size b2 m2) where
  hProc := rfl
  addr := rfl
  size := rfl
  data_size := rfl
  num_matches := rfl
  flag := by
    intro p hp
    have hsz : (create_memblock hProc meminfo data_size b1 m1).size = meminfo.RegionSize := by
      show toInt32 _ = _
      rw [toInt32_of_range (by omega) (by omega)]
    rw [hsz] at hp
    have e1 := IS_IN_SEARCH_memset
      { hProc := hProc, addr := meminfo.BaseAddress, size := toInt32 meminfo.RegionSize,
        buffer := b1, searchmask := m1, num_matches := toInt32 meminfo.RegionSize,
        data_size := data_size } 0 (meminfo.RegionSize / 8) p
    have e2 := IS_IN_SEARCH_memset
      { hProc := hProc, addr := meminfo.BaseAddress, size := toInt32 meminfo.RegionSize,
        buffer := b2, searchmask := m2, num_matches := toInt32 meminfo.RegionSize,
        data_size := data_size } 0 (meminfo.RegionSize / 8) p
    have hd : decide (0 ≤ p / 8 ∧ p / 8 < 0 + meminfo.RegionSize / 8) = true :=
      decide_eq_true ⟨by omega, by omega⟩
    rw [hd, Bool.true_or] at e1 e2
    exact e1.trans e2.symm

/-- C12 as amended: for a process whose one writable region has 8 bytes, the
first four holding the 32-bit value 1 and the other four the value 0,
whatever the uninitialised allocations hold, `create_scan` with element width
4 followed by `update_scan(COND_EQUALS, 1)` gives `get_matches_count == 1`,
and a following `update_scan(COND_EQUALS, 2)` on the same unchanged memory
gives `get_matches_count == 0`. -/
theorem scenario_eight_bytes (alloc : MallocFn) :
    get_matches_count
      (update_scan (readExample [1, 0, 0, 0, 0, 0, 0, 0])
        (create_scan openAlways queryExample alloc 3 7 4) .COND_EQUALS 1) = 1 ∧
    get_matches_count
      (update_scan (readExample [1, 0, 0, 0, 0, 0, 0, 0])
        (update_scan (readExample [1, 0, 0, 0, 0, 0, 0, 0])
          (create_scan openAlways queryExample alloc 3 7 4) .COND_EQUALS 1)
        .COND_EQUALS 2) = 0 := by
  have hcs : create_scan openAlways queryExample alloc 3 7 4 =
      [create_memblock 1 regionExample 4 (alloc 0).1 (alloc 0).2] := rfl
  have hv0 : SameView (create_memblock 1 regionExample 4 (alloc 0).1 (alloc 0).2)
      (blockExample 4) :=
    create_memblock_sameView 1 regionExample 4 _ _ _ _ (by decide) (by decide)
  have hv1 := equals_round_sameView (readExample [1, 0, 0, 0, 0, 0, 0, 0]) 1 hv0
    (by rw [hv0.data_size]; decide) (by rw [hv0.size]; decide) (by rw [hv0.size]; decide)
    (by rw [hv0.size]; decide) (fun _ _ => rfl)
  have hv2 := equals_round_sameView (readExample [1, 0, 0, 0, 0, 0, 0, 0]) 2 hv1
    (by rw [hv1.data_size]; decide) (by rw [hv1.size]; decide) (by rw [hv1.size]; decide)
    (by rw [hv1.size]; decide)
    ((currentValue_congr _ hv1.hProc hv1.addr hv1.size hv1.data_size).2.mpr (fun _ _ => rfl))
  rw [hcs]
  constructor
  · exact (get_matches_count_singleton _ _ hv1.num_matches).trans (by decide)
  · exact (get_matches_count_singleton _ _ hv2.num_matches).trans (by decide)

/-! ## Accesses: lemmas -/

theorem mem_loadOffsets {w off o : Nat} (hw : w = 1 ∨ w = 2 ∨ w = 4)
    (h : o ∈ loadOffsets w off) : off ≤ o ∧ o < off + w := by
  rcases hw with rfl | rfl | rfl <;> simp [loadOffsets] at h <;> omega

/-- The accesses of the element loop on a chunk of `n` bytes read at
`total_read = T` touch only offsets below `T + n`, and test and clear flags
only at multiples of the element width. -/
theorem scanChunkAccesses_below (c : SEARCH_CONDITION) (v : Nat) (tb : Nat → Nat)
    (T n w : Nat) (hw : w = 1 ∨ w = 2 ∨ w = 4) (hT : T % w = 0) (hn : n % w = 0) :
    ∀ fuel off mb, off % w = 0 → mb.data_size = w →
      ∀ a, a ∈ scanChunkAccesses c v tb T n fuel off mb →
        Access.below (T + n) a ∧ Access.aligned w a := by
  intro fuel
  induction fuel with
  | zero => intro off mb _ _ a ha; simp [scanChunkAccesses] at ha
  | succ fuel ih =>
    intro off mb hoff hds a ha
    unfold scanChunkAccesses at ha
    by_cases hlt : off < n
    · rw [if_pos hlt, List.mem_append] at ha
      have hTo : (T + off) % w = 0 := by rw [Nat.add_mod, hT, hoff]; simp
      have hwle : off + w ≤ n := by
        rcases hw with rfl | rfl | rfl <;> omega
      rcases ha with ha | ha
      · unfold checkElementAccesses at ha
        rw [List.mem_cons] at ha
        rcases ha with rfl | ha
        · exact ⟨by show T + off < T + n; omega, hTo⟩
        · split_ifs at ha with h1 h2
          · simp only [List.append_nil, List.mem_map] at ha
            obtain ⟨o, ho, rfl⟩ := ha
            rw [hds] at ho
            have := mem_loadOffsets hw ho
            exact ⟨by show o < T + n; omega, trivial⟩
          · rw [List.mem_append, List.mem_map, List.mem_singleton] at ha
            rcases ha with ⟨o, ho, rfl⟩ | rfl
            · rw [hds] at ho
              have := mem_loadOffsets hw ho
              exact ⟨by show o < T + n; omega, trivial⟩
            · exact ⟨by show T + off < T + n; omega, hTo⟩
          · simp at ha
      · exact ih _ _ (by rw [hds, Nat.add_mod_right]; exact hoff) (by simp [hds]) a ha
    · rw [if_neg hlt] at ha
      simp at ha

/-- The accesses of the filter and copy step on a chunk of `n` bytes touch
only offsets below `total_read + n`. -/
theorem applyChunkAccesses_below (c : SEARCH_CONDITION) (v : Nat) (tb : Nat → Nat)
    (n w : Nat) (s : ScanState) (hw : w = 1 ∨ w = 2 ∨ w = 4) (hds : s.mb.data_size = w)
    (hT : s.total_read % w = 0) (hn : n % w = 0) :
    ∀ a, a ∈ applyChunkAccesses c v tb n s →
      Access.below (s.total_read + n) a ∧ Access.aligned w a := by
  intro a ha
  unfold applyChunkAccesses at ha
  rw [List.mem_append] at ha
  rcases ha with ha | ha
  · split_ifs at ha with hc
    · rw [List.mem_map] at ha
      obtain ⟨i, hi, rfl⟩ := ha
      rw [List.mem_range] at hi
      exact ⟨by show 8 * (s.total_read / 8 + i) + 7 < s.total_read + n; omega, trivial⟩
    · exact scanChunkAccesses_below c v tb s.total_read n w hw hT hn n 0 s.mb
        (Nat.zero_mod _) hds a ha
  · rw [List.mem_map] at ha
    obtain ⟨i, hi, rfl⟩ := ha
    rw [List.mem_range] at hi
    exact ⟨by show s.total_read + i < s.total_read + n; omega, trivial⟩

theorem readLoopAccesses_below (rpm : RemoteRead) (mb : MEMBLOCK) (c : SEARCH_CONDITION)
    (v : Nat) (hw : mb.data_size = 1 ∨ mb.data_size = 2 ∨ mb.data_size = 4)
    (hS : toUInt32 mb.size % mb.data_size = 0) :
    ∀ fuel s, BaseInv rpm mb s →
      ∀ a, a ∈ readLoopAccesses rpm c v fuel s →
        Access.below (toUInt32 mb.size) a ∧ Access.aligned mb.data_size a := by
  intro fuel
  induction fuel with
  | zero => intro s _ a ha; simp [readLoopAccesses] at ha
  | succ fuel ih =>
    intro s hb a ha
    unfold readLoopAccesses at ha
    by_cases h0 : s.bytes_left = 0
    · rw [if_pos h0] at ha; simp at ha
    · rw [if_neg h0] at ha
      by_cases hr : (nextRead rpm s).bytes_read = bytesToRead s.bytes_left
      · rw [if_neg (by simpa using hr), hr, List.mem_append] at ha
        have hTS : TEMPBUF_SIZE = 131072 := by norm_num [TEMPBUF_SIZE]
        obtain ⟨-, -, hT⟩ := hb.nextRead_eq h0
        rw [hTS] at hT
        have hsum := hb.sum
        have hle := bytesToRead_le s.bytes_left
        have hTw : s.total_read % mb.data_size = 0 := by
          rcases hw with h1 | h1 | h1 <;> rw [h1] <;> omega
        have hnw : bytesToRead s.bytes_left % mb.data_size = 0 := by
          unfold bytesToRead
          split_ifs
          · rw [hTS]; rcases hw with h1 | h1 | h1 <;> rw [h1]
          · rcases hw with h1 | h1 | h1 <;> rw [h1] at hS hTw ⊢ <;> omega
        rcases ha with ha | ha
        · obtain ⟨h1, h2⟩ := applyChunkAccesses_below c v _ _ mb.data_size s hw hb.data_size
            hTw hnw a ha
          refine ⟨?_, h2⟩
          cases a <;> simp only [Access.below] at h1 ⊢ <;> omega
        · exact ih _ (hb.base_step c v h0 hr) a ha
      · rw [if_pos hr] at ha; simp at ha

/-- The accesses of one call of `update_memblock` on a block whose size is a
multiple of its element width touch only offsets below that size, and test
and clear flags only at multiples of the element width. -/
theorem update_memblock_accesses_below (rpm : RemoteRead) (mb : MEMBLOCK)
    (c : SEARCH_CONDITION) (v : Nat)
    (hw : mb.data_size = 1 ∨ mb.data_size = 2 ∨ mb.data_size = 4)
    (hS : toUInt32 mb.size % mb.data_size = 0) :
    ∀ a, a ∈ update_memblock_accesses rpm mb c v →
      Access.below (toUInt32 mb.size) a ∧ Access.aligned mb.data_size a := by
  intro a ha
  unfold update_memblock_accesses at ha
  split_ifs at ha with hm
  · simp at ha
  · exact readLoopAccesses_below rpm mb c v hw hS _ _ (BaseInv.init rpm mb) a ha

/-- The flag tests of `print_matches` on one block are at offsets below its
size. -/
theorem printBlockAccesses_below (mb : MEMBLOCK) :
    ∀ fuel off a, a ∈ printBlockAccesses mb fuel off → Access.below mb.size.toNat a := by
  intro fuel
  induction fuel with
  | zero => intro off a ha; simp [printBlockAccesses] at ha
  | succ fuel ih =>
    intro off a ha
    unfold printBlockAccesses at ha
    split_ifs at ha with h
    · rw [List.mem_cons] at ha
      rcases ha with rfl | ha
      · show off < mb.size.toNat
        omega
      · exact ih _ a ha
    · simp at ha

/-- The pairs that `print_matches` prints for one block have addresses below
`addr + size`. -/
theorem printBlock_address_below (live : LiveRead) (mb : MEMBLOCK) :
    ∀ fuel off pr, pr ∈ printBlock live mb fuel off →
      mb.addr ≤ pr.1 ∧ pr.1 < mb.addr + mb.size.toNat := by
  intro fuel
  induction fuel with
  | zero => intro off pr hpr; simp [printBlock] at hpr
  | succ fuel ih =>
    intro off pr hpr
    unfold printBlock at hpr
    split_ifs at hpr with h1 h2
    · rw [List.mem_append, List.mem_singleton] at hpr
      rcases hpr with rfl | hpr
      · constructor
        · show mb.addr ≤ mb.addr + off; omega
        · show mb.addr + off < mb.addr + mb.size.toNat; omega
      · exact ih _ pr hpr
    · rw [List.nil_append] at hpr
      exact ih _ pr hpr
    · simp at hpr

theorem below_mono {L L' : Nat} (h : L ≤ L') {a : Access} (ha : Access.below L a) :
    Access.below L' a := by
  cases a <;> simp only [Access.below] at ha ⊢ <;> omega

theorem below_inBounds {L n : Nat} (h : L ≤ n) (h8 : n % 8 = 0) {a : Access}
    (ha : Access.below L a) : Access.inBounds (n / 8) n a := by
  cases a <;> simp only [Access.below, Access.inBounds] at ha ⊢ <;> omega

/-! ## Memory safety of the accesses -/

theorem toUInt32_lt (z : Int) : toUInt32 z < 2 ^ 32 := by
  unfold toUInt32; omega

theorem toUInt32_toInt32 {n : Nat} (h : n < 2 ^ 32) : toUInt32 (toInt32 n) = n := by
  unfold toUInt32 toInt32; omega

theorem toNat_le_toUInt32 {z : Int} (h : z < 2 ^ 31) : z.toNat ≤ toUInt32 z := by
  unfold toUInt32; omega

theorem reachable_bounds {hProc : Nat} {meminfo : MEMORY_BASIC_INFORMATION} {w : Nat}
    (h8 : meminfo.RegionSize % 8 = 0) {mb : MEMBLOCK}
    (hr : Reachable hProc meminfo w mb) : BoundsInv meminfo w mb := by
  induction hr with
  | create buffer0 mask0 =>
    exact
      { size_le := by
          show toUInt32 (toInt32 meminfo.RegionSize) ≤ _
          unfold toUInt32 toInt32; omega
        size_mod := by
          show toUInt32 (toInt32 meminfo.RegionSize) % 8 = 0
          unfold toUInt32 toInt32; omega
        size_int := by
          show toInt32 meminfo.RegionSize < 2 ^ 31
          unfold toInt32; omega
        data_size := rfl }
  | @update mb rpm c v _ ih =>
    by_cases hm : mb.num_matches = 0
    · rw [update_memblock_skip rpm mb c v hm]; exact ih
    · have hb := scanRound_base rpm mb c v
      have hTS : TEMPBUF_SIZE = 131072 := by norm_num [TEMPBUF_SIZE]
      have hle := hb.le
      have hlt := toUInt32_lt mb.size
      have hsz : (update_memblock rpm mb c v).size =
          toInt32 (scanRound rpm mb c v).total_read := by
        rw [update_memblock_run rpm mb c v hm]
      have hds : (update_memblock rpm mb c v).data_size = mb.data_size := by
        rw [update_memblock_run rpm mb c v hm]; exact hb.data_size
      have hu : toUInt32 (update_memblock rpm mb c v).size =
          (scanRound rpm mb c v).total_read := by
        rw [hsz]; exact toUInt32_toInt32 (by omega)
      exact
        { size_le := by rw [hu]; have := ih.size_le; omega
          size_mod := by
            rw [hu]
            have := ih.size_mod
            rcases hb.stop with h1 | ⟨h1, -, -⟩
            · omega
            · rw [hTS] at h1; omega
          size_int := by rw [hsz]; unfold toInt32; omega
          data_size := by rw [hds]; exact ih.data_size }

/-- C20: for every state reached by `update_memblock` rounds from the block
that `create_memblock` makes of a region whose size is a multiple of 8, with
element width 1, 2 or 4: in every further round, whatever the condition and
the reads, every searchmask byte that is tested, cleared or set has an index
below the allocated `RegionSize / 8` and every buffer byte read or written
has an offset below the allocated `RegionSize`; and so has every searchmask
byte tested by `print_matches`. -/
theorem accesses_in_bounds (hProc : Nat) (meminfo : MEMORY_BASIC_INFORMATION) (w : Nat)
    (hw : w = 1 ∨ w = 2 ∨ w = 4) (h8 : meminfo.RegionSize % 8 = 0)
    (mb : MEMBLOCK) (hr : Reachable hProc meminfo w mb) :
    (∀ (rpm : RemoteRead) (c : SEARCH_CONDITION) (v : Nat) (a : Access),
      a ∈ update_memblock_accesses rpm mb c v →
        Access.inBounds (meminfo.RegionSize / 8) meminfo.RegionSize a) ∧
    (∀ a : Access, a ∈ printBlockAccesses mb mb.size.toNat 0 →
      Access.inBounds (meminfo.RegionSize / 8) meminfo.RegionSize a) := by
  have inv := reachable_bounds h8 hr
  have hw2 : mb.data_size = 1 ∨ mb.data_size = 2 ∨ mb.data_size = 4 := by
    rw [inv.data_size]; exact hw
  have hSw : toUInt32 mb.size % mb.data_size = 0 := by
    have := inv.size_mod
    rcases hw2 with h | h | h <;> rw [h] <;> omega
  constructor
  · intro rpm c v a ha
    exact below_inBounds inv.size_le h8 (update_memblock_accesses_below rpm mb c v hw2 hSw a ha).1
  · intro a ha
    have h1 := printBlockAccesses_below mb _ _ a ha
    have h2 := toNat_le_toUInt32 inv.size_int
    exact below_inBounds (Nat.le_trans h2 inv.size_le) h8 h1

/-- Witness of C20: the flag clearing at offset 0 of the reachable block
holding 10, in a `COND_DECREASED` round on a read of 20, is at searchmask
index 0, below the allocated 1 byte. -/
theorem accesses_in_bounds_witness :
    (Reachable 1 regionExample 4 blockHolding10 ∧
      Access.maskClear 0 ∈ update_memblock_accesses (readExample [20, 0, 0, 0]) blockHolding10
        .COND_DECREASED 0) ∧
    Access.inBounds (regionExample.RegionSize / 8) regionExample.RegionSize
      (Access.maskClear 0) :=
  ⟨⟨Reachable.update _ _ _ (Reachable.create _ _), by decide⟩,
    (accesses_in_bounds 1 regionExample 4 (by decide) (by decide) blockHolding10
      (Reachable.update _ _ _ (Reachable.create _ _))).1 (readExample [20, 0, 0, 0])
      .COND_DECREASED 0 (Access.maskClear 0) (by decide)⟩

/-! ## Truncation -/

/-- The reads that one call of `update_memblock` issues lie inside
`[addr, addr + size)`. -/
theorem update_memblock_reads_below (rpm : RemoteRead) (mb : MEMBLOCK) (c : SEARCH_CONDITION)
    (v : Nat) :
    ∀ q, q ∈ update_memblock_reads rpm mb c v →
      mb.addr ≤ q.1 ∧ q.1 + q.2 ≤ mb.addr + toUInt32 mb.size := by
  intro q hq
  unfold update_memblock_reads at hq
  split_ifs at hq with hm
  · simp at hq
  · have hb := scanRound_base rpm mb c v
    have hTS : TEMPBUF_SIZE = 131072 := by norm_num [TEMPBUF_SIZE]
    rw [hb.reads] at hq
    unfold requests at hq
    rw [List.mem_map] at hq
    obtain ⟨j, hj, rfl⟩ := hq
    rw [List.mem_range] at hj
    have hjS : j * TEMPBUF_SIZE < toUInt32 mb.size := by
      split_ifs at hj with h1
      · rw [hTS] at hj ⊢; omega
      · rcases hb.stop with h2 | ⟨h2, h3, -⟩
        · exact absurd h2 h1
        · rw [hTS] at hj h2 ⊢; omega
    have := bytesToRead_le (toUInt32 mb.size - j * TEMPBUF_SIZE)
    constructor
    · show mb.addr ≤ mb.addr + j * TEMPBUF_SIZE
      omega
    · show mb.addr + j * TEMPBUF_SIZE + bytesToRead _ ≤ _
      omega

/-- Rounds never grow a block, move it or change its element width, and keep
its size a multiple of 8. -/
theorem roundsFrom_inv {mb1 later : MEMBLOCK} (h0 : 0 ≤ mb1.size) (h31 : mb1.size < 2 ^ 31)
    (h8 : mb1.size % 8 = 0) (h : RoundsFrom mb1 later) :
    later.addr = mb1.addr ∧ later.data_size = mb1.data_size ∧ 0 ≤ later.size ∧
      later.size ≤ mb1.size ∧ later.size % 8 = 0 := by
  induction h with
  | start => exact ⟨rfl, rfl, h0, le_refl _, h8⟩
  | @update mb rpm c v _ ih =>
    obtain ⟨i1, i2, i3, i4, i5⟩ := ih
    by_cases hm : mb.num_matches = 0
    · rw [update_memblock_skip rpm mb c v hm]; exact ⟨i1, i2, i3, i4, i5⟩
    · have hres := update_memblock_result rpm mb c v hm i3 (by omega)
      have hTS : TEMPBUF_SIZE = 131072 := by norm_num [TEMPBUF_SIZE]
      have hle := hres.le
      refine ⟨by rw [hres.addr, i1], by rw [hres.data_size, i2], by rw [hres.size_eq]; omega,
        by rw [hres.size_eq]; omega, ?_⟩
      rw [hres.size_eq]
      rcases hres.stop with h1 | ⟨h1, -, -⟩
      · omega
      · rw [hTS] at h1; omega

/-- C11 (fails on the code): on the 8-byte block, when the region yields only
its first 4 bytes as readable, the size after the round is 0, not 4: the one
chunk read is short and is discarded whole. -/
theorem truncation_not_exact :
    (blockExample 4).num_matches ≠ 0 ∧ (4 : Int) < (blockExample 4).size ∧
    readableUpTo readFourBytes (blockExample 4) 4 ∧
    (update_memblock readFourBytes (blockExample 4) .COND_EQUALS 1).size = 0 ∧
    (update_memblock readFourBytes (blockExample 4) .COND_EQUALS 1).size ≠ 4 := by
  refine ⟨by decide, by decide, ?_, by decide, by decide⟩
  intro j hj
  have hS : toUInt32 (blockExample 4).size = 8 := by decide
  have hj0 : j = 0 := by
    rw [hS] at hj
    unfold TEMPBUF_SIZE at hj
    omega
  subst hj0
  decide

/-- C11 as amended: for a snapshot of element width 1, 2 or 4 with a match
count other than 0, if in one round the region yields only its first `K`
bytes as readable, `K` below the size, then the size after the round is the
largest multiple of 131072 that is at most `K` (exactly `K` when `K` is such
a multiple); and in every state reached from there by later rounds, every
read of a further round lies below the new size, every flag tested, cleared
or set and every buffer byte read or written in a further round is at an
offset below the new size, and `print_matches` tests flags and reports
addresses only of offsets below the new size. -/
theorem truncation_spec (rpm : RemoteRead) (mb : MEMBLOCK) (c : SEARCH_CONDITION) (v K : Nat)
    (hm : mb.num_matches ≠ 0)
    (hw : mb.data_size = 1 ∨ mb.data_size = 2 ∨ mb.data_size = 4)
    (h0 : 0 ≤ mb.size) (h31 : mb.size < 2 ^ 31) (hK : (K : Int) < mb.size)
    (hread : readableUpTo rpm mb K) :
    (update_memblock rpm mb c v).size = ((K / TEMPBUF_SIZE * TEMPBUF_SIZE : Nat) : Int) ∧
    K / TEMPBUF_SIZE * TEMPBUF_SIZE ≤ K ∧
    (K % TEMPBUF_SIZE = 0 → (update_memblock rpm mb c v).size = (K : Int)) ∧
    (∀ later : MEMBLOCK, RoundsFrom (update_memblock rpm mb c v) later →
      (∀ (rpm2 : RemoteRead) (c2 : SEARCH_CONDITION) (v2 : Nat),
        (∀ q, q ∈ update_memblock_reads rpm2 later c2 v2 →
          mb.addr ≤ q.1 ∧ q.1 + q.2 ≤ mb.addr + K / TEMPBUF_SIZE * TEMPBUF_SIZE) ∧
        (∀ a, a ∈ update_memblock_accesses rpm2 later c2 v2 →
          Access.below (K / TEMPBUF_SIZE * TEMPBUF_SIZE) a)) ∧
      (∀ a, a ∈ printBlockAccesses later later.size.toNat 0 →
        Access.below (K / TEMPBUF_SIZE * TEMPBUF_SIZE) a) ∧
      (∀ (live : LiveRead) (pr : Nat × Nat), pr ∈ printBlock live later later.size.toNat 0 →
        pr.1 < mb.addr + K / TEMPBUF_SIZE * TEMPBUF_SIZE)) := by
  have hTS : TEMPBUF_SIZE = 131072 := by norm_num [TEMPBUF_SIZE]
  obtain ⟨hS, -⟩ := toUInt32_size h0 h31
  have hres := update_memblock_result rpm mb c v hm h0 h31
  have hb := scanRound_base rpm mb c v
  have hkS : K / TEMPBUF_SIZE * TEMPBUF_SIZE < toUInt32 mb.size := by
    rw [hS, hTS]; omega
  have hcomp : ∀ j, j < K / TEMPBUF_SIZE → chunkComplete rpm mb j := by
    intro j hj
    have hjS : j * TEMPBUF_SIZE < toUInt32 mb.size := by
      rw [hTS] at hj hkS ⊢; omega
    apply (hread j hjS).mpr
    have := bytesToRead_le_size (toUInt32 mb.size - j * TEMPBUF_SIZE)
    rw [hTS] at hj this ⊢
    omega
  have hshort : ¬ chunkComplete rpm mb (K / TEMPBUF_SIZE) := by
    intro hc
    have := (hread _ hkS).mp hc
    unfold bytesToRead at this
    rw [hS] at this
    rw [hTS] at this
    split_ifs at this <;> omega
  obtain ⟨hR, -⟩ := basePost_first_short hb _ hkS hcomp hshort
  have hsize : (update_memblock rpm mb c v).size =
      ((K / TEMPBUF_SIZE * TEMPBUF_SIZE : Nat) : Int) := by
    rw [hres.size_eq, hR]
  refine ⟨hsize, Nat.div_mul_le_self _ _, ?_, ?_⟩
  · intro hKm
    rw [hsize, Nat.div_mul_cancel (Nat.dvd_of_mod_eq_zero hKm)]
  · intro later hlater
    have h0' : 0 ≤ (update_memblock rpm mb c v).size := by rw [hsize]; omega
    have h31' : (update_memblock rpm mb c v).size < 2 ^ 31 := by
      rw [hsize, hTS]; omega
    have h8' : (update_memblock rpm mb c v).size % 8 = 0 := by
      rw [hsize, hTS]; omega
    obtain ⟨i1, i2, i3, i4, i5⟩ := roundsFrom_inv h0' h31' h8' hlater
    rw [hres.addr] at i1
    rw [hres.data_size] at i2
    rw [hsize] at i4
    obtain ⟨hSl, -⟩ := toUInt32_size i3 (by omega : later.size < 2 ^ 31)
    have hw' : later.data_size = 1 ∨ later.data_size = 2 ∨ later.data_size = 4 := by
      rw [i2]; exact hw
    have hSw : toUInt32 later.size % later.data_size = 0 := by
      rw [hSl]; rcases hw' with h | h | h <;> rw [h] <;> omega
    have hle : later.size.toNat ≤ K / TEMPBUF_SIZE * TEMPBUF_SIZE := by omega
    refine ⟨?_, ?_, ?_⟩
    · intro rpm2 c2 v2
      constructor
      · intro q hq
        have := update_memblock_reads_below rpm2 later c2 v2 q hq
        rw [hSl, i1] at this
        omega
      · intro a ha
        have := (update_memblock_accesses_below rpm2 later c2 v2 hw' hSw a ha).1
        rw [hSl] at this
        exact below_mono hle this
    · intro a ha
      exact below_mono hle (printBlockAccesses_below later _ _ a ha)
    · intro live pr hpr
      have := printBlock_address_below live later _ _ pr hpr
      rw [i1] at this
      omega

/-- Witness of C11 as amended: of the block of two chunks only the first
200000 bytes are readable; the size after the round is 131072. -/
theorem truncation_spec_witness :
    (blockTwoChunks.num_matches ≠ 0 ∧ (200000 : Int) < blockTwoChunks.size ∧
      readableUpTo readFirstChunkOnly blockTwoChunks 200000) ∧
    (update_memblock readFirstChunkOnly blockTwoChunks .COND_EQUALS 1).size =
      ((200000 / TEMPBUF_SIZE * TEMPBUF_SIZE : Nat) : Int) :=
  have hread : readableUpTo readFirstChunkOnly blockTwoChunks 200000 := by
    intro j hj
    have hS : toUInt32 blockTwoChunks.size = 262144 := by decide
    have hj01 : j = 0 ∨ j = 1 := by
      rw [hS] at hj
      unfold TEMPBUF_SIZE at hj
      omega
    rcases hj01 with rfl | rfl <;> decide
  ⟨⟨by decide, by decide, hread⟩,
    (truncation_spec readFirstChunkOnly blockTwoChunks .COND_EQUALS 1 200000 (by decide)
      (by decide) (by decide) (by decide) (by decide) hread).1⟩

/-! ## Where flags are tested and cleared -/

theorem scanChunkAccesses_flagWithin (c : SEARCH_CONDITION) (v : Nat) (tb : Nat → Nat)
    (T n w : Nat) (hT : T % w = 0) :
    ∀ fuel off mb, off % w = 0 → mb.data_size = w →
      ∀ a, a ∈ scanChunkAccesses c v tb T n fuel off mb → Access.flagWithin w (T + n) a := by
  intro fuel
  induction fuel with
  | zero => intro off mb _ _ a ha; simp [scanChunkAccesses] at ha
  | succ fuel ih =>
    intro off mb hoff hds a ha
    unfold scanChunkAccesses at ha
    by_cases hlt : off < n
    · rw [if_pos hlt, List.mem_append] at ha
      have hTo : (T + off) % w = 0 := by rw [Nat.add_mod, hT, hoff]; simp
      rcases ha with ha | ha
      · unfold checkElementAccesses at ha
        rw [List.mem_cons] at ha
        rcases ha with rfl | ha
        · exact ⟨hTo, by omega⟩
        · split_ifs at ha with h1 h2
          · simp only [List.append_nil, List.mem_map] at ha
            obtain ⟨o, -, rfl⟩ := ha
            trivial
          · rw [List.mem_append, List.mem_map, List.mem_singleton] at ha
            rcases ha with ⟨o, -, rfl⟩ | rfl
            · trivial
            · exact ⟨hTo, by omega⟩
          · simp at ha
      · exact ih _ _ (by rw [hds, Nat.add_mod_right]; exact hoff) (by simp [hds]) a ha
    · rw [if_neg hlt] at ha
      simp at ha

theorem readLoopAccesses_flagWithin (rpm : RemoteRead) (mb : MEMBLOCK) {c : SEARCH_CONDITION}
    (v : Nat) (hc : c ≠ .COND_UNCONDITIONAL)
    (hw : mb.data_size = 1 ∨ mb.data_size = 2 ∨ mb.data_size = 4) :
    ∀ fuel s, BaseInv rpm mb s →
      ∀ a, a ∈ readLoopAccesses rpm c v fuel s →
        Access.flagWithin mb.data_size (toUInt32 mb.size) a := by
  intro fuel
  induction fuel with
  | zero => intro s _ a ha; simp [readLoopAccesses] at ha
  | succ fuel ih =>
    intro s hb a ha
    unfold readLoopAccesses at ha
    by_cases h0 : s.bytes_left = 0
    · rw [if_pos h0] at ha; simp at ha
    · rw [if_neg h0] at ha
      by_cases hr : (nextRead rpm s).bytes_read = bytesToRead s.bytes_left
      · rw [if_neg (by simpa using hr), hr, List.mem_append] at ha
        have hTS : TEMPBUF_SIZE = 131072 := by norm_num [TEMPBUF_SIZE]
        obtain ⟨-, -, hT⟩ := hb.nextRead_eq h0
        rw [hTS] at hT
        have hsum := hb.sum
        have hle := bytesToRead_le s.bytes_left
        have hTw : s.total_read % mb.data_size = 0 := by
          rcases hw with h1 | h1 | h1 <;> rw [h1] <;> omega
        rcases ha with ha | ha
        · unfold applyChunkAccesses at ha
          rw [if_neg hc, List.mem_append] at ha
          rcases ha with ha | ha
          · have := scanChunkAccesses_flagWithin c v _ s.total_read _ mb.data_size hTw _ 0 s.mb
              (Nat.zero_mod _) hb.data_size a ha
            cases a <;> simp only [Access.flagWithin] at this ⊢ <;>
              first | trivial | exact ⟨this.1, by omega⟩
          · rw [List.mem_map] at ha
            obtain ⟨i, -, rfl⟩ := ha
            trivial
        · exact ih _ (hb.base_step c v h0 hr) a ha
      · rw [if_pos hr] at ha; simp at ha

/-- C17: in a round of `update_memblock` with a condition other than
`COND_UNCONDITIONAL` on a snapshot of element width 1, 2 or 4, whatever the
reads deliver, no candidate flag goes from false to true; every flag at an
offset that is not a multiple of the element width or is not below the size
before the round is unchanged; and every flag test and every flag clearing of
the round is at a multiple of the element width below the size before the
round. -/
theorem update_memblock_flag_frame (rpm : RemoteRead) (mb : MEMBLOCK) (c : SEARCH_CONDITION)
    (v : Nat) (hc : c ≠ .COND_UNCONDITIONAL)
    (hw : mb.data_size = 1 ∨ mb.data_size = 2 ∨ mb.data_size = 4)
    (h0 : 0 ≤ mb.size) (h31 : mb.size < 2 ^ 31) :
    (∀ p, IS_IN_SEARCH mb p = false → IS_IN_SEARCH (update_memblock rpm mb c v) p = false) ∧
    (∀ p : Nat, p % mb.data_size ≠ 0 ∨ mb.size ≤ (p : Int) →
      IS_IN_SEARCH (update_memblock rpm mb c v) p = IS_IN_SEARCH mb p) ∧
    (∀ a, a ∈ update_memblock_accesses rpm mb c v →
      Access.flagWithin mb.data_size mb.size.toNat a) := by
  have hacc : ∀ a, a ∈ update_memblock_accesses rpm mb c v →
      Access.flagWithin mb.data_size mb.size.toNat a := by
    intro a ha
    unfold update_memblock_accesses at ha
    split_ifs at ha with hm
    · simp at ha
    · have := readLoopAccesses_flagWithin rpm mb v hc hw _ _ (BaseInv.init rpm mb) a ha
      rw [(toUInt32_size h0 h31).1] at this
      exact this
  by_cases hm : mb.num_matches = 0
  · rw [update_memblock_skip rpm mb c v hm]
    exact ⟨fun _ h => h, fun _ _ => rfl, hacc⟩
  · have hfr := scanRound_flag_frame rpm mb v hc hw
    have hres := update_memblock_result rpm mb c v hm h0 h31
    have hle := hres.le
    refine ⟨?_, ?_, hacc⟩
    · intro p hp
      rw [update_memblock_run rpm mb c v hm, IS_IN_SEARCH_with_size]
      by_contra hne
      have := (hfr p).1 (by simpa using hne)
      rw [hp] at this
      exact Bool.false_ne_true this
    · intro p hp
      rw [update_memblock_run rpm mb c v hm, IS_IN_SEARCH_with_size]
      rcases hp with hp | hp
      · exact (hfr p).2 hp
      · exact scanRound_flag_above rpm mb c v p (by omega)

/-- Witness of C17: in the 8-byte block holding 10, narrowed by
`COND_DECREASED` on a read of 20, the flag at the unaligned offset 1 is
unchanged. -/
theorem update_memblock_flag_frame_witness :
    (blockHolding10.data_size = 4 ∧ 0 ≤ blockHolding10.size) ∧
    IS_IN_SEARCH (update_memblock (readExample [20, 0, 0, 0]) blockHolding10
      .COND_DECREASED 0) 1 = IS_IN_SEARCH blockHolding10 1 :=
  ⟨⟨by decide, by decide⟩,
    (update_memblock_flag_frame (readExample [20, 0, 0, 0]) blockHolding10 .COND_DECREASED 0
      (by decide) (by decide) (by decide) (by decide)).2.1 1 (Or.inl (by decide))⟩

end MemoryScanner
